import Mathlib

/-
Shallow embedding of the ArbitraX matching engine core
(backend/internal/models, backend/internal/orderbook, backend/internal/matching,
and the cmd/api submit handler).

Modelling conventions:
* Prices and quantities are `float64` in Go; they are embedded as `ℚ` and all
  arithmetic is exact.  Every verified claim is about the algorithmic structure
  of the engine (matching order, book shape, status transitions), not about
  floating-point rounding.
* Order identifiers are `uuid.UUID` (opaque 128-bit values) and symbols are
  short strings; both are opaque keys to the engine and are embedded as `Nat`.
* Wall-clock timestamps (`time.Now()`) are embedded as an explicit `now : Nat`
  parameter where the code stores a timestamp; trade ids and trade timestamps
  are never read by the engine and are omitted from the `Trade` record.
* The Go `container/heap` over price levels guarantees that `Peek` returns the
  best-priced level and `heap.Pop` removes it; the embedding represents each
  side as the priority-ordered list of levels (best level at the head), which
  realizes exactly the observable behavior of `Peek`/`Pop`/`Push` used by the
  engine.  Level prices are pairwise distinct (one level per price), so the
  priority order is unambiguous.
* The identity index `OrderBook.orders : map[uuid.UUID]*Order` stores pointers
  to the same `Order` structs that sit inside the price levels.  The embedding
  stores values in an association list and makes the pointer aliasing explicit:
  whenever the matching loop mutates a resting order it also rewrites the
  index entry carrying that order's id (`writeThrough`), which is a no-op when
  the id is not indexed — exactly the effect of mutating through the shared
  pointer.
-/

namespace Arbitrax

/-- `models.OrderType` (models/order part, lines 9-16). -/
inductive OrderType
  | market
  | limit
  | stopLoss
deriving DecidableEq

/-- `models.OrderSide` (models/order part, lines 18-24). -/
inductive OrderSide
  | buy
  | sell
deriving DecidableEq

/-- `models.OrderStatus` (models/order part, lines 26-34).
`partiallyFilled` embeds Go's `OrderStatusPartial`. -/
inductive OrderStatus
  | pending
  | partiallyFilled
  | filled
  | cancelled
deriving DecidableEq

/-- `models.Order` (models/order part, lines 36-50). -/
structure Order where
  id : Nat
  symbol : Nat
  type : OrderType
  side : OrderSide
  quantity : ℚ
  price : ℚ
  status : OrderStatus
  filledQuantity : ℚ
  filledPrice : ℚ
  submittedAt : Nat
  filledAt : Option Nat
  cancelledAt : Option Nat
deriving DecidableEq

/-- `models.NewOrder` (models/order part, lines 52-66). -/
def NewOrder (id : Nat) (symbol : Nat) (orderType : OrderType) (side : OrderSide)
    (quantity price : ℚ) (now : Nat) : Order :=
  { id := id
    symbol := symbol
    type := orderType
    side := side
    quantity := quantity
    price := price
    status := OrderStatus.pending
    filledQuantity := 0
    filledPrice := 0
    submittedAt := now
    filledAt := none
    cancelledAt := none }

/-- `Order.RemainingQuantity` (models/order part, lines 68-71). -/
def Order.RemainingQuantity (o : Order) : ℚ :=
  o.quantity - o.filledQuantity

/-- `Order.IsFilled` (models/order part, lines 73-76): `FilledQuantity >= Quantity`. -/
def Order.IsFilled (o : Order) : Bool :=
  decide (o.quantity ≤ o.filledQuantity)

/-- `Order.Fill` (models/order part, lines 78-93).  Mutates the receiver in Go;
embedded as a function returning the updated order.  `now` embeds the
`time.Now()` stored into `FilledAt` on full fill. -/
def Order.Fill (o : Order) (quantity price : ℚ) (now : Nat) : Order :=
  let filledQuantity := o.filledQuantity + quantity
  let filledPrice :=
    if 0 < filledQuantity then
      (o.filledPrice * (filledQuantity - quantity) + price * quantity) / filledQuantity
    else
      o.filledPrice
  let o' := { o with filledQuantity := filledQuantity, filledPrice := filledPrice }
  if o'.IsFilled then
    { o' with status := OrderStatus.filled, filledAt := some now }
  else if 0 < filledQuantity then
    { o' with status := OrderStatus.partiallyFilled }
  else
    o'

/-- `models.Trade` (models/trade.go, lines 10-18).  The engine never reads the
trade's uuid or timestamp; those two fields are omitted. -/
structure Trade where
  symbol : Nat
  buyOrderId : Nat
  sellOrderId : Nat
  price : ℚ
  quantity : ℚ
deriving DecidableEq

/-- `models.NewTrade` (models/trade.go, lines 21-31). -/
def NewTrade (symbol buyOrderID sellOrderID : Nat) (price quantity : ℚ) : Trade :=
  { symbol := symbol
    buyOrderId := buyOrderID
    sellOrderId := sellOrderID
    price := price
    quantity := quantity }

/-- `orderbook.PriceLevel` (orderbook heap part, lines 871-874). -/
structure PriceLevel where
  price : ℚ
  orders : List Order
deriving DecidableEq

/-- `orderbook.PriceLevelHeap` (orderbook heap part, lines 879-882).
`levels` is kept in priority order: best-priced level first (max price first
for bids, min price first for asks), realizing `Peek`/`heap.Pop`. -/
structure PriceLevelHeap where
  levels : List PriceLevel
  isBid : Bool
deriving DecidableEq

/-- The strict priority order of level prices on one side
(`PriceLevelHeap.Less`): for bids, higher price first; for asks, lower first. -/
def levelBefore (isBid : Bool) (p q : ℚ) : Bool :=
  if isBid then decide (q < p) else decide (p < q)

/-- `PriceLevelHeap.Peek` (orderbook heap part, lines 918-924). -/
def PriceLevelHeap.Peek (h : PriceLevelHeap) : Option PriceLevel :=
  h.levels.head?

/-- `orderbook.NewBidHeap` (orderbook heap part, lines 926-934). -/
def NewBidHeap : PriceLevelHeap :=
  { levels := [], isBid := true }

/-- `orderbook.NewAskHeap` (orderbook heap part, lines 936-944). -/
def NewAskHeap : PriceLevelHeap :=
  { levels := [], isBid := false }

/-- The `level.Orders = append(level.Orders, order)` branch of
`PriceLevelHeap.AddOrder`: append the order to the FIFO tail of the (unique)
level with its price. -/
def appendAtPrice (o : Order) : List PriceLevel → List PriceLevel
  | [] => []
  | l :: ls =>
    if l.price = o.price then { l with orders := l.orders ++ [o] } :: ls
    else l :: appendAtPrice o ls

/-- The `heap.Push(h, newLevel)` branch of `PriceLevelHeap.AddOrder`: insert a
fresh level at its priority position. -/
def insertLevel (isBid : Bool) (l : PriceLevel) : List PriceLevel → List PriceLevel
  | [] => [l]
  | m :: ms =>
    if levelBefore isBid l.price m.price then l :: m :: ms
    else m :: insertLevel isBid l ms

/-- `PriceLevelHeap.AddOrder` (orderbook heap part, lines 946-962): append to an
existing level at the order's price, else push a new single-order level. -/
def PriceLevelHeap.AddOrder (h : PriceLevelHeap) (o : Order) : PriceLevelHeap :=
  if h.levels.any (fun l => l.price == o.price) then
    { h with levels := appendAtPrice o h.levels }
  else
    { h with levels := insertLevel h.isBid { price := o.price, orders := [o] } h.levels }

/-- `orderbook.OrderBook` (orderbook book part, lines 42-52).  `orders` is the
identity index `map[uuid.UUID]*Order`, embedded as an association list; the
book's `Timestamp` (set from `time.Now()` and never read by the engine) is
omitted. -/
structure OrderBook where
  symbol : Nat
  Bids : PriceLevelHeap
  Asks : PriceLevelHeap
  LastPrice : ℚ
  LastTrade : Option Trade
  orders : List (Nat × Order)
deriving DecidableEq

/-- `orderbook.NewOrderBook` (orderbook book part, lines 55-64). -/
def NewOrderBook (symbol : Nat) : OrderBook :=
  { symbol := symbol
    Bids := NewBidHeap
    Asks := NewAskHeap
    LastPrice := 0
    LastTrade := none
    orders := [] }

/-- Go map assignment `ob.orders[order.ID] = order`: replace the entry at the
key, or add it when absent. -/
def setIndex : List (Nat × Order) → Nat → Order → List (Nat × Order)
  | [], k, v => [(k, v)]
  | (k', v') :: rest, k, v =>
    if k' = k then (k, v) :: rest else (k', v') :: setIndex rest k v

/-- Pointer aliasing between the identity index and a resting order being
mutated by `Order.Fill`: the new value becomes visible at every index entry
carrying that id, and nowhere else (a no-op when the id is not indexed). -/
def writeThrough : List (Nat × Order) → Nat → Order → List (Nat × Order)
  | [], _, _ => []
  | (k', v') :: rest, k, v =>
    if k' = k then (k, v) :: writeThrough rest k v
    else (k', v') :: writeThrough rest k v

/-- `OrderBook.AddOrder` (orderbook book part, lines 67-82): record in the
identity index, then add to the side matching the order. -/
def OrderBook.AddOrder (ob : OrderBook) (o : Order) : OrderBook :=
  let withIndex := { ob with orders := setIndex ob.orders o.id o }
  if o.side = OrderSide.buy then
    { withIndex with Bids := withIndex.Bids.AddOrder o }
  else
    { withIndex with Asks := withIndex.Asks.AddOrder o }

/-- `OrderBook.GetBestBid` (orderbook book part, lines 112-120): 0 when the bid
side is empty, else the peeked level's price. -/
def OrderBook.GetBestBid (ob : OrderBook) : ℚ :=
  match ob.Bids.levels with
  | [] => 0
  | l :: _ => l.price

/-- `OrderBook.GetBestAsk` (orderbook book part, lines 122-131). -/
def OrderBook.GetBestAsk (ob : OrderBook) : ℚ :=
  match ob.Asks.levels with
  | [] => 0
  | l :: _ => l.price

/-- The `min` helper of the matching engine (engine.go, lines 236-242). -/
def min (a b : ℚ) : ℚ :=
  if a < b then a else b

/-- State threaded through the per-level FIFO matching loop
(engine.go, lines 100-134 and 172-201: the two inner loops are identical,
the market variant's explicit `if order.IsFilled() break` being subsumed by
its loop condition `order.RemainingQuantity() > 0`). -/
structure LevelMatch where
  order : Order
  queue : List Order
  index : List (Nat × Order)
  lastPrice : ℚ
  lastTrade : Option Trade
  trades : List Trade
deriving DecidableEq

/-- The inner FIFO loop shared by `matchMarketOrder` and `matchLimitOrder`:
consume resting orders from the head of the best level's queue while the
incoming order has remaining quantity.  Each iteration trades
`min(X.remaining, R.remaining)` at the resting price, fills both orders,
writes the mutated resting order through the identity index (pointer
aliasing), updates last price/trade, and removes the resting order from the
queue head exactly when it is fully filled. -/
def matchAtLevel (now : Nat) :
    Order → List Order → List (Nat × Order) → ℚ → Option Trade → List Trade → LevelMatch
  | x, [], index, lastPrice, lastTrade, trades =>
    { order := x, queue := [], index := index,
      lastPrice := lastPrice, lastTrade := lastTrade, trades := trades }
  | x, r :: rest, index, lastPrice, lastTrade, trades =>
    if 0 < x.RemainingQuantity then
      let tradeQty := min x.RemainingQuantity r.RemainingQuantity
      let tradePrice := r.price
      let trade :=
        if x.side = OrderSide.buy then NewTrade x.symbol x.id r.id tradePrice tradeQty
        else NewTrade x.symbol r.id x.id tradePrice tradeQty
      let x' := x.Fill tradeQty tradePrice now
      let r' := r.Fill tradeQty tradePrice now
      let index' := writeThrough index r.id r'
      if r'.IsFilled then
        matchAtLevel now x' rest index' tradePrice (some trade) (trades ++ [trade])
      else
        { order := x', queue := r' :: rest, index := index',
          lastPrice := tradePrice, lastTrade := some trade, trades := trades ++ [trade] }
    else
      { order := x, queue := r :: rest, index := index,
        lastPrice := lastPrice, lastTrade := lastTrade, trades := trades }

/-- Result of a side-consuming matching loop over the opposite heap's levels. -/
structure LoopMatch where
  order : Order
  levels : List PriceLevel
  index : List (Nat × Order)
  lastPrice : ℚ
  lastTrade : Option Trade
  trades : List Trade
deriving DecidableEq

/-- Outer loop of `matchMarketOrder` (engine.go, lines 89-140): while the
incoming order has remaining quantity and the opposite heap is non-empty,
consume the best level (popping levels found or left empty); any price is
acceptable.  When the inner loop leaves the level non-empty the resting head
is unfilled, which forces the aggressor's remaining quantity to 0, so the Go
loop condition fails and the loop exits with that level still at the top. -/
def matchMarketLoop (now : Nat) :
    Order → List PriceLevel → List (Nat × Order) → ℚ → Option Trade → List Trade → LoopMatch
  | x, [], index, lastPrice, lastTrade, trades =>
    { order := x, levels := [], index := index,
      lastPrice := lastPrice, lastTrade := lastTrade, trades := trades }
  | x, lvl :: rest, index, lastPrice, lastTrade, trades =>
    if 0 < x.RemainingQuantity then
      if lvl.orders.isEmpty then
        matchMarketLoop now x rest index lastPrice lastTrade trades
      else
        let m := matchAtLevel now x lvl.orders index lastPrice lastTrade trades
        if m.queue.isEmpty then
          matchMarketLoop now m.order rest m.index m.lastPrice m.lastTrade m.trades
        else
          { order := m.order, levels := { lvl with orders := m.queue } :: rest,
            index := m.index, lastPrice := m.lastPrice, lastTrade := m.lastTrade,
            trades := m.trades }
    else
      { order := x, levels := lvl :: rest, index := index,
        lastPrice := lastPrice, lastTrade := lastTrade, trades := trades }

/-- Outer loop of `matchLimitOrder` (engine.go, lines 157-207): like the market
loop, but it breaks when the best level is empty or its price is unacceptable
(ask above a buy's limit, bid below a sell's limit). -/
def matchLimitLoop (now : Nat) :
    Order → List PriceLevel → List (Nat × Order) → ℚ → Option Trade → List Trade → LoopMatch
  | x, [], index, lastPrice, lastTrade, trades =>
    { order := x, levels := [], index := index,
      lastPrice := lastPrice, lastTrade := lastTrade, trades := trades }
  | x, lvl :: rest, index, lastPrice, lastTrade, trades =>
    if 0 < x.RemainingQuantity then
      if lvl.orders.isEmpty then
        { order := x, levels := lvl :: rest, index := index,
          lastPrice := lastPrice, lastTrade := lastTrade, trades := trades }
      else if x.side = OrderSide.buy ∧ x.price < lvl.price then
        { order := x, levels := lvl :: rest, index := index,
          lastPrice := lastPrice, lastTrade := lastTrade, trades := trades }
      else if x.side = OrderSide.sell ∧ lvl.price < x.price then
        { order := x, levels := lvl :: rest, index := index,
          lastPrice := lastPrice, lastTrade := lastTrade, trades := trades }
      else
        let m := matchAtLevel now x lvl.orders index lastPrice lastTrade trades
        if m.queue.isEmpty then
          matchLimitLoop now m.order rest m.index m.lastPrice m.lastTrade m.trades
        else
          { order := m.order, levels := { lvl with orders := m.queue } :: rest,
            index := m.index, lastPrice := m.lastPrice, lastTrade := m.lastTrade,
            trades := m.trades }
    else
      { order := x, levels := lvl :: rest, index := index,
        lastPrice := lastPrice, lastTrade := lastTrade, trades := trades }

/-- Result of matching one submission against a book: the updated book, the
final state of the (mutated) incoming order, and the emitted trades. -/
structure BookSubmit where
  book : OrderBook
  order : Order
  trades : List Trade
deriving DecidableEq

/-- Rebuild the book after a side-consuming loop: the opposite side's levels,
the identity index, and last price/trade are the loop's outputs. -/
def applyLoop (ob : OrderBook) (side : OrderSide) (m : LoopMatch) : OrderBook :=
  if side = OrderSide.buy then
    { ob with
      Asks := { ob.Asks with levels := m.levels }
      orders := m.index
      LastPrice := m.lastPrice
      LastTrade := m.lastTrade }
  else
    { ob with
      Bids := { ob.Bids with levels := m.levels }
      orders := m.index
      LastPrice := m.lastPrice
      LastTrade := m.lastTrade }

/-- `matchMarketOrder` (engine.go, lines 78-143): consume the opposite side at
any price; the incoming market order is never added to the book. -/
def matchMarketOrder (now : Nat) (ob : OrderBook) (x : Order) : BookSubmit :=
  let opp := if x.side = OrderSide.buy then ob.Asks else ob.Bids
  let m := matchMarketLoop now x opp.levels ob.orders ob.LastPrice ob.LastTrade []
  { book := applyLoop ob x.side m, order := m.order, trades := m.trades }

/-- `matchLimitOrder` (engine.go, lines 146-215): consume the opposite side
while the price is acceptable, then rest any unfilled remainder on the
incoming order's own side. -/
def matchLimitOrder (now : Nat) (ob : OrderBook) (x : Order) : BookSubmit :=
  let opp := if x.side = OrderSide.buy then ob.Asks else ob.Bids
  let m := matchLimitLoop now x opp.levels ob.orders ob.LastPrice ob.LastTrade []
  let ob' := applyLoop ob x.side m
  if 0 < m.order.RemainingQuantity then
    { book := ob'.AddOrder m.order, order := m.order, trades := m.trades }
  else
    { book := ob', order := m.order, trades := m.trades }

/-- `matching.MatchingEngine` (engine.go, lines 12-16): symbol-keyed books and
the process-global trade log.  The `sync` locks serialize access and are not
part of the sequential state. -/
structure MatchingEngine where
  orderBooks : List (Nat × OrderBook)
  trades : List Trade
deriving DecidableEq

/-- `matching.NewMatchingEngine` (engine.go, lines 19-24). -/
def NewMatchingEngine : MatchingEngine :=
  { orderBooks := [], trades := [] }

/-- Lookup in the symbol → book map. -/
def lookupBook : List (Nat × OrderBook) → Nat → Option OrderBook
  | [], _ => none
  | (s, ob) :: rest, sym => if s = sym then some ob else lookupBook rest sym

/-- Map assignment `me.orderBooks[symbol] = ob`. -/
def setBook : List (Nat × OrderBook) → Nat → OrderBook → List (Nat × OrderBook)
  | [], sym, ob => [(sym, ob)]
  | (s, ob') :: rest, sym, ob =>
    if s = sym then (sym, ob) :: rest else (s, ob') :: setBook rest sym ob

/-- `MatchingEngine.GetOrCreateOrderBook` (engine.go, lines 27-38). -/
def MatchingEngine.GetOrCreateOrderBook (e : MatchingEngine) (symbol : Nat) : OrderBook :=
  match lookupBook e.orderBooks symbol with
  | some ob => ob
  | none => NewOrderBook symbol

/-- `MatchingEngine.SubmitOrder` (engine.go, lines 49-75).  The Go code inserts
the (possibly fresh) book into the map and then mutates it in place while
matching; the embedding computes the matched book and stores it, which yields
the same final map.  A stop-loss order has its `Type` field overwritten to
`Limit` before limit matching.  Trades are appended to the global log only
when at least one was emitted. -/
def MatchingEngine.SubmitOrder (now : Nat) (e : MatchingEngine) (order : Order) :
    MatchingEngine × Order × List Trade :=
  let ob := e.GetOrCreateOrderBook order.symbol
  let res : BookSubmit :=
    match order.type with
    | OrderType.market => matchMarketOrder now ob order
    | OrderType.limit => matchLimitOrder now ob order
    | OrderType.stopLoss => matchLimitOrder now ob { order with type := OrderType.limit }
  let e' : MatchingEngine :=
    { e with
      orderBooks := setBook e.orderBooks order.symbol res.book,
      trades := if res.trades.isEmpty then e.trades else e.trades ++ res.trades }
  (e', res.order, res.trades)

/-- A submission sequence, each element pairing the submission's wall-clock
instant with the order; the engine state after folding all submissions. -/
def submitSeq (e : MatchingEngine) : List (Nat × Order) → MatchingEngine
  | [] => e
  | (now, o) :: rest => submitSeq (MatchingEngine.SubmitOrder now e o).1 rest

/-- The order-submission request body (cmd/api main part, lines 19-25); the
`binding` tags make gin reject a missing/non-positive `Quantity` (`gt=0`) and
an unknown type or side before the handler body runs. -/
structure OrderRequest where
  symbol : Nat
  type : OrderType
  side : OrderSide
  quantity : ℚ
  price : ℚ
deriving DecidableEq

/-- The handler's outcome: HTTP 400 with an error payload, or HTTP 200 with
the final order state and trades (message texts are not modelled). -/
inductive SubmitOutcome
  | badRequest
  | ok (order : Order) (trades : List Trade)
deriving DecidableEq

/-- The `POST /api/v1/orders` handler `submitOrder` (cmd/api main part, lines
88-117): reject quantity ≤ 0 (gin `gt=0` binding) and a non-positive price on
limit/stop-loss orders, both before any engine state is touched; otherwise
create the order (`NewOrder`) and submit it to the matching engine.
`freshId`/`now` embed `uuid.New()` and `time.Now()`. -/
def submitOrderHandler (now freshId : Nat) (e : MatchingEngine) (req : OrderRequest) :
    MatchingEngine × SubmitOutcome :=
  if ¬ 0 < req.quantity then
    (e, SubmitOutcome.badRequest)
  else if (req.type = OrderType.limit ∨ req.type = OrderType.stopLoss) ∧ req.price ≤ 0 then
    (e, SubmitOutcome.badRequest)
  else
    let order := NewOrder freshId req.symbol req.type req.side req.quantity req.price now
    let res := MatchingEngine.SubmitOrder now e order
    (res.1, SubmitOutcome.ok res.2.1 res.2.2)

end Arbitrax

namespace Arbitrax

/-! ### Basic facts about `Order.Fill` and `min` -/

theorem min_eq_fst_or_snd (a b : ℚ) : min a b = a ∨ min a b = b := by
  unfold min; split <;> simp

theorem min_le_fst (a b : ℚ) : min a b ≤ a := by
  unfold min; split <;> linarith

theorem min_le_snd (a b : ℚ) : min a b ≤ b := by
  unfold min; split <;> linarith

theorem lt_min_iff' (a b c : ℚ) : c < min a b ↔ c < a ∧ c < b := by
  unfold min; split <;> constructor <;> intro h <;>
    first
      | exact ⟨by linarith, by linarith⟩
      | linarith [h.1, h.2]

theorem IsFilled_iff (o : Order) : o.IsFilled = true ↔ o.quantity ≤ o.filledQuantity := by
  simp [Order.IsFilled]

theorem IsFilled_iff_remaining (o : Order) :
    o.IsFilled = true ↔ o.RemainingQuantity ≤ 0 := by
  rw [IsFilled_iff]; unfold Order.RemainingQuantity; constructor <;> intro h <;> linarith

@[simp] theorem Fill_id (o : Order) (q p : ℚ) (now : Nat) : (o.Fill q p now).id = o.id := by
  unfold Order.Fill; dsimp only; split_ifs <;> rfl

@[simp] theorem Fill_symbol (o : Order) (q p : ℚ) (now : Nat) :
    (o.Fill q p now).symbol = o.symbol := by
  unfold Order.Fill; dsimp only; split_ifs <;> rfl

@[simp] theorem Fill_type (o : Order) (q p : ℚ) (now : Nat) :
    (o.Fill q p now).type = o.type := by
  unfold Order.Fill; dsimp only; split_ifs <;> rfl

@[simp] theorem Fill_side (o : Order) (q p : ℚ) (now : Nat) :
    (o.Fill q p now).side = o.side := by
  unfold Order.Fill; dsimp only; split_ifs <;> rfl

@[simp] theorem Fill_quantity (o : Order) (q p : ℚ) (now : Nat) :
    (o.Fill q p now).quantity = o.quantity := by
  unfold Order.Fill; dsimp only; split_ifs <;> rfl

@[simp] theorem Fill_price (o : Order) (q p : ℚ) (now : Nat) :
    (o.Fill q p now).price = o.price := by
  unfold Order.Fill; dsimp only; split_ifs <;> rfl

@[simp] theorem Fill_filledQuantity (o : Order) (q p : ℚ) (now : Nat) :
    (o.Fill q p now).filledQuantity = o.filledQuantity + q := by
  unfold Order.Fill; dsimp only; split_ifs <;> rfl

theorem Fill_remaining (o : Order) (q p : ℚ) (now : Nat) :
    (o.Fill q p now).RemainingQuantity = o.RemainingQuantity - q := by
  unfold Order.RemainingQuantity
  rw [Fill_quantity, Fill_filledQuantity]; ring

theorem Fill_status (o : Order) (q p : ℚ) (now : Nat) :
    (o.Fill q p now).status =
      if o.quantity ≤ o.filledQuantity + q then OrderStatus.filled
      else if 0 < o.filledQuantity + q then OrderStatus.partiallyFilled
      else o.status := by
  unfold Order.Fill Order.IsFilled; dsimp only
  split_ifs <;> simp_all

theorem Fill_filledAt (o : Order) (q p : ℚ) (now : Nat) :
    (o.Fill q p now).filledAt =
      if o.quantity ≤ o.filledQuantity + q then some now else o.filledAt := by
  unfold Order.Fill Order.IsFilled; dsimp only
  split_ifs <;> simp_all

theorem Fill_filledPrice (o : Order) (q p : ℚ) (now : Nat) :
    (o.Fill q p now).filledPrice =
      if 0 < o.filledQuantity + q then
        (o.filledPrice * o.filledQuantity + p * q) / (o.filledQuantity + q)
      else o.filledPrice := by
  unfold Order.Fill; dsimp only
  have harith : o.filledQuantity + q - q = o.filledQuantity := by ring
  split_ifs <;> simp_all [harith]

end Arbitrax

namespace Arbitrax

/-! ### C9 — `fill` accounting -/

/-- C9: for `fill(Δqty, Δprice)` with `0 < Δqty ≤ remaining` (and the order
invariant `0 ≤ filled`), the filled quantity increases by exactly `Δqty`, the
weighted-average fill price becomes
`(vwap_old*filled_before + Δprice*Δqty) / (filled_before + Δqty)`, the status
becomes `Filled` exactly when the new filled quantity equals the original
quantity (and then the fill timestamp is set), and otherwise the status
becomes `PartiallyFilled`. -/
theorem fill_updates_quantity_vwap_status (o : Order) (q p : ℚ) (now : Nat)
    (hq : 0 < q) (hle : q ≤ o.RemainingQuantity) (hnn : 0 ≤ o.filledQuantity) :
    (o.Fill q p now).filledQuantity = o.filledQuantity + q ∧
    (o.Fill q p now).quantity = o.quantity ∧
    (o.Fill q p now).filledPrice =
      (o.filledPrice * o.filledQuantity + p * q) / (o.filledQuantity + q) ∧
    ((o.Fill q p now).status = OrderStatus.filled ↔ o.filledQuantity + q = o.quantity) ∧
    (o.filledQuantity + q = o.quantity → (o.Fill q p now).filledAt = some now) ∧
    (o.filledQuantity + q ≠ o.quantity → (o.Fill q p now).status = OrderStatus.partiallyFilled) := by
  have hposf : 0 < o.filledQuantity + q := by linarith
  have hub : o.filledQuantity + q ≤ o.quantity := by
    unfold Order.RemainingQuantity at hle; linarith
  refine ⟨Fill_filledQuantity o q p now, Fill_quantity o q p now, ?_, ?_, ?_, ?_⟩
  · rw [Fill_filledPrice]; simp [hposf]
  · rw [Fill_status]
    constructor
    · intro hst
      by_contra hne
      have hlt : o.filledQuantity + q < o.quantity := lt_of_le_of_ne hub hne
      rw [if_neg (by linarith), if_pos hposf] at hst
      exact OrderStatus.noConfusion hst
    · intro heq
      rw [if_pos (le_of_eq heq.symm)]
  · intro heq
    rw [Fill_filledAt, if_pos (le_of_eq heq.symm)]
  · intro hne
    have hlt : o.filledQuantity + q < o.quantity := lt_of_le_of_ne hub hne
    rw [Fill_status, if_neg (by linarith), if_pos hposf]

/-- Concrete order used to instantiate the `fill` theorems: a fresh pending
buy limit for quantity 2 at price 10. -/
def fillDemoOrder : Order :=
  NewOrder 1 7 OrderType.limit OrderSide.buy 2 10 0

theorem fill_updates_quantity_vwap_status_witness :
    ((0 : ℚ) < 1 ∧ (1 : ℚ) ≤ fillDemoOrder.RemainingQuantity ∧
      (0 : ℚ) ≤ fillDemoOrder.filledQuantity) ∧
    ((fillDemoOrder.Fill 1 5 3).filledQuantity = fillDemoOrder.filledQuantity + 1 ∧
    (fillDemoOrder.Fill 1 5 3).quantity = fillDemoOrder.quantity ∧
    (fillDemoOrder.Fill 1 5 3).filledPrice =
      (fillDemoOrder.filledPrice * fillDemoOrder.filledQuantity + 5 * 1) /
        (fillDemoOrder.filledQuantity + 1) ∧
    ((fillDemoOrder.Fill 1 5 3).status = OrderStatus.filled ↔
      fillDemoOrder.filledQuantity + 1 = fillDemoOrder.quantity) ∧
    (fillDemoOrder.filledQuantity + 1 = fillDemoOrder.quantity →
      (fillDemoOrder.Fill 1 5 3).filledAt = some 3) ∧
    (fillDemoOrder.filledQuantity + 1 ≠ fillDemoOrder.quantity →
      (fillDemoOrder.Fill 1 5 3).status = OrderStatus.partiallyFilled)) :=
  ⟨⟨by norm_num, by norm_num [fillDemoOrder, NewOrder, Order.RemainingQuantity],
      by norm_num [fillDemoOrder, NewOrder]⟩,
    fill_updates_quantity_vwap_status fillDemoOrder 1 5 3 (by norm_num)
      (by norm_num [fillDemoOrder, NewOrder, Order.RemainingQuantity])
      (by norm_num [fillDemoOrder, NewOrder])⟩

/-! ### C8 — `fill` on a terminal order -/

/-- A terminal (fully filled) sell limit order: quantity 1, completely filled
at price 10. -/
def terminalOrder : Order :=
  { id := 1
    symbol := 7
    type := OrderType.limit
    side := OrderSide.sell
    quantity := 1
    price := 10
    status := OrderStatus.filled
    filledQuantity := 1
    filledPrice := 10
    submittedAt := 0
    filledAt := some 0
    cancelledAt := none }

/-- C8 counterexample: `Order.Fill` invoked on an order already in the
terminal status `Filled` does not fail and does mutate the order: its filled
quantity changes from 1 to 2.  (`Order.Fill` is a total function with no
error return in the source, and the order model defines no cancel
operation at all.) -/
theorem fill_terminal_mutates_cex :
    terminalOrder.status = OrderStatus.filled ∧
    (terminalOrder.Fill 1 10 5).filledQuantity = 2 ∧
    (terminalOrder.Fill 1 10 5).filledQuantity ≠ terminalOrder.filledQuantity := by
  refine ⟨rfl, ?_, ?_⟩ <;>
    norm_num [terminalOrder, Order.Fill, Order.IsFilled]

/-- C8 amended: invoking `fill` on an order in a terminal status (`Filled` or
`Cancelled`) does not fail with `IllegalTransition` — `Order.Fill` has no
terminal-state guard and no error channel — and it mutates the order's state:
the filled quantity unconditionally increases by `Δqty`. -/
theorem fill_has_no_terminal_guard (o : Order) (q p : ℚ) (now : Nat)
    (hterm : o.status = OrderStatus.filled ∨ o.status = OrderStatus.cancelled)
    (hq : q ≠ 0) :
    (o.Fill q p now).filledQuantity = o.filledQuantity + q ∧
    (o.Fill q p now).filledQuantity ≠ o.filledQuantity := by
  refine ⟨Fill_filledQuantity o q p now, ?_⟩
  rw [Fill_filledQuantity]
  intro h
  exact hq (by linarith)

theorem fill_has_no_terminal_guard_witness :
    (terminalOrder.status = OrderStatus.filled ∨
      terminalOrder.status = OrderStatus.cancelled) ∧
    ((terminalOrder.Fill 1 10 5).filledQuantity = terminalOrder.filledQuantity + 1 ∧
      (terminalOrder.Fill 1 10 5).filledQuantity ≠ terminalOrder.filledQuantity) :=
  ⟨Or.inl rfl, fill_has_no_terminal_guard terminalOrder 1 10 5 (Or.inl rfl) (by norm_num)⟩

/-! ### C6 — boundary validation of submissions -/

/-- C6: a submission with quantity ≤ 0, or a Limit/StopLoss submission with
price ≤ 0, is rejected at the submit boundary (HTTP 400, the spec's
`InvalidOrder`) before any engine state is touched: the engine — its
symbol → book map and its trade log — is returned unchanged. -/
theorem invalid_order_rejected_no_state_change (now freshId : Nat)
    (e : MatchingEngine) (req : OrderRequest)
    (hbad : req.quantity ≤ 0 ∨
      ((req.type = OrderType.limit ∨ req.type = OrderType.stopLoss) ∧ req.price ≤ 0)) :
    (submitOrderHandler now freshId e req).1 = e ∧
    (submitOrderHandler now freshId e req).1.orderBooks = e.orderBooks ∧
    (submitOrderHandler now freshId e req).1.trades = e.trades ∧
    (submitOrderHandler now freshId e req).2 = SubmitOutcome.badRequest := by
  have hmain : (submitOrderHandler now freshId e req) = (e, SubmitOutcome.badRequest) := by
    unfold submitOrderHandler
    rcases hbad with hq | hp
    · rw [if_pos (by intro h; linarith)]
    · by_cases hq : 0 < req.quantity
      · rw [if_neg (by simpa using hq), if_pos hp]
      · rw [if_pos hq]
  rw [hmain]
  exact ⟨rfl, rfl, rfl, rfl⟩

/-- A malformed request: a limit order with price 0. -/
def badRequestDemo : OrderRequest :=
  { symbol := 7
    type := OrderType.limit
    side := OrderSide.buy
    quantity := 5
    price := 0 }

theorem invalid_order_rejected_no_state_change_witness :
    ((badRequestDemo.quantity ≤ 0 ∨
      ((badRequestDemo.type = OrderType.limit ∨ badRequestDemo.type = OrderType.stopLoss) ∧
        badRequestDemo.price ≤ 0))) ∧
    ((submitOrderHandler 0 1 NewMatchingEngine badRequestDemo).1 = NewMatchingEngine ∧
      (submitOrderHandler 0 1 NewMatchingEngine badRequestDemo).1.orderBooks =
        NewMatchingEngine.orderBooks ∧
      (submitOrderHandler 0 1 NewMatchingEngine badRequestDemo).1.trades =
        NewMatchingEngine.trades ∧
      (submitOrderHandler 0 1 NewMatchingEngine badRequestDemo).2 =
        SubmitOutcome.badRequest) :=
  ⟨Or.inr ⟨Or.inl rfl, by decide⟩,
    invalid_order_rejected_no_state_change 0 1 NewMatchingEngine badRequestDemo
      (Or.inr ⟨Or.inl rfl, by decide⟩)⟩

end Arbitrax

namespace Arbitrax

/-! ### Static fields of the incoming order are preserved by matching -/

/-- The fields of an order that `Order.Fill` (and hence the matching loop)
never changes. -/
def sameStatic (a b : Order) : Prop :=
  a.id = b.id ∧ a.symbol = b.symbol ∧ a.type = b.type ∧ a.side = b.side ∧
  a.quantity = b.quantity ∧ a.price = b.price

theorem sameStatic_refl (a : Order) : sameStatic a a :=
  ⟨rfl, rfl, rfl, rfl, rfl, rfl⟩

theorem sameStatic_trans {a b c : Order} (h₁ : sameStatic a b) (h₂ : sameStatic b c) :
    sameStatic a c := by
  obtain ⟨h1, h2, h3, h4, h5, h6⟩ := h₁
  obtain ⟨g1, g2, g3, g4, g5, g6⟩ := h₂
  exact ⟨h1.trans g1, h2.trans g2, h3.trans g3, h4.trans g4, h5.trans g5, h6.trans g6⟩

theorem Fill_sameStatic (o : Order) (q p : ℚ) (now : Nat) :
    sameStatic (o.Fill q p now) o :=
  ⟨Fill_id o q p now, Fill_symbol o q p now, Fill_type o q p now,
    Fill_side o q p now, Fill_quantity o q p now, Fill_price o q p now⟩

theorem matchAtLevel_nil (now : Nat) (x : Order) (index : List (Nat × Order))
    (lp : ℚ) (lt : Option Trade) (ts : List Trade) :
    matchAtLevel now x [] index lp lt ts =
      { order := x, queue := [], index := index,
        lastPrice := lp, lastTrade := lt, trades := ts } := rfl

theorem matchAtLevel_sameStatic (now : Nat) (queue : List Order) (x : Order)
    (index : List (Nat × Order)) (lp : ℚ) (lt : Option Trade) (ts : List Trade) :
    sameStatic (matchAtLevel now x queue index lp lt ts).order x := by
  induction queue generalizing x index lp lt ts with
  | nil => exact sameStatic_refl x
  | cons r rest ih =>
    unfold matchAtLevel
    dsimp only
    split_ifs <;>
      first
        | exact sameStatic_trans (ih _ _ _ _ _) (Fill_sameStatic x _ _ now)
        | exact Fill_sameStatic x _ _ now
        | exact sameStatic_refl x

theorem matchLimitLoop_sameStatic (now : Nat) (levels : List PriceLevel) (x : Order)
    (index : List (Nat × Order)) (lp : ℚ) (lt : Option Trade) (ts : List Trade) :
    sameStatic (matchLimitLoop now x levels index lp lt ts).order x := by
  induction levels generalizing x index lp lt ts with
  | nil => exact sameStatic_refl x
  | cons lvl rest ih =>
    unfold matchLimitLoop
    dsimp only
    split_ifs <;>
      first
        | exact sameStatic_trans (ih _ _ _ _ _) (matchAtLevel_sameStatic now _ x _ _ _ _)
        | exact matchAtLevel_sameStatic now _ x _ _ _ _
        | exact sameStatic_refl x

theorem matchMarketLoop_sameStatic (now : Nat) (levels : List PriceLevel) (x : Order)
    (index : List (Nat × Order)) (lp : ℚ) (lt : Option Trade) (ts : List Trade) :
    sameStatic (matchMarketLoop now x levels index lp lt ts).order x := by
  induction levels generalizing x index lp lt ts with
  | nil => exact sameStatic_refl x
  | cons lvl rest ih =>
    unfold matchMarketLoop
    dsimp only
    split_ifs <;>
      first
        | exact ih _ _ _ _ _
        | exact sameStatic_trans (ih _ _ _ _ _) (matchAtLevel_sameStatic now _ x _ _ _ _)
        | exact matchAtLevel_sameStatic now _ x _ _ _ _
        | exact sameStatic_refl x

theorem matchLimitOrder_order (now : Nat) (ob : OrderBook) (x : Order) :
    (matchLimitOrder now ob x).order =
      (matchLimitLoop now x
        (if x.side = OrderSide.buy then ob.Asks else ob.Bids).levels
        ob.orders ob.LastPrice ob.LastTrade []).order := by
  unfold matchLimitOrder
  dsimp only
  split_ifs <;> rfl

theorem matchLimitOrder_sameStatic (now : Nat) (ob : OrderBook) (x : Order) :
    sameStatic (matchLimitOrder now ob x).order x := by
  rw [matchLimitOrder_order]
  exact matchLimitLoop_sameStatic now _ x _ _ _ _

theorem matchMarketOrder_sameStatic (now : Nat) (ob : OrderBook) (x : Order) :
    sameStatic (matchMarketOrder now ob x).order x := by
  unfold matchMarketOrder
  dsimp only
  exact matchMarketLoop_sameStatic now _ x _ _ _ _

/-! ### C10 — stop-loss orders are rewritten to limit orders -/

/-- C10: submitting a StopLoss order is exactly the same engine operation as
submitting the identical order with its `Type` overwritten to `Limit`, and
the final order state returned to the caller reports type `Limit`. -/
theorem stoploss_submitted_as_limit (now : Nat) (e : MatchingEngine) (o : Order) :
    MatchingEngine.SubmitOrder now e { o with type := OrderType.stopLoss } =
      MatchingEngine.SubmitOrder now e { o with type := OrderType.limit } ∧
    (MatchingEngine.SubmitOrder now e { o with type := OrderType.stopLoss }).2.1.type =
      OrderType.limit := by
  constructor
  · cases o
    rfl
  · have h := (matchLimitOrder_sameStatic now
      (e.GetOrCreateOrderBook o.symbol) { o with type := OrderType.limit }).2.2.1
    cases o
    exact h

end Arbitrax

namespace Arbitrax

/-! ### Case equations for the inner FIFO loop -/

/-- Abbreviation for one iteration's trade quantity `min(X.remaining, R.remaining)`. -/
def tradeQtyOf (x r : Order) : ℚ :=
  min x.RemainingQuantity r.RemainingQuantity

/-- Abbreviation for one iteration's emitted trade (buyer/seller assigned by
the aggressor's side; the price is the resting order's). -/
def tradeOf (x r : Order) : Trade :=
  if x.side = OrderSide.buy then NewTrade x.symbol x.id r.id r.price (tradeQtyOf x r)
  else NewTrade x.symbol r.id x.id r.price (tradeQtyOf x r)

/-- Abbreviation for the aggressor after one iteration's fill. -/
def aggFill (now : Nat) (x r : Order) : Order :=
  x.Fill (tradeQtyOf x r) r.price now

/-- Abbreviation for the resting head order after one iteration's fill. -/
def restFill (now : Nat) (x r : Order) : Order :=
  r.Fill (tradeQtyOf x r) r.price now

theorem matchAtLevel_cons_stop (now : Nat) (x r : Order) (rest : List Order)
    (idx : List (Nat × Order)) (lp : ℚ) (lt : Option Trade) (ts : List Trade)
    (h : ¬ 0 < x.RemainingQuantity) :
    matchAtLevel now x (r :: rest) idx lp lt ts =
      { order := x, queue := r :: rest, index := idx,
        lastPrice := lp, lastTrade := lt, trades := ts } := by
  unfold matchAtLevel
  dsimp only
  rw [if_neg h]

theorem matchAtLevel_cons_fill (now : Nat) (x r : Order) (rest : List Order)
    (idx : List (Nat × Order)) (lp : ℚ) (lt : Option Trade) (ts : List Trade)
    (h : 0 < x.RemainingQuantity) (hr : (restFill now x r).IsFilled = true) :
    matchAtLevel now x (r :: rest) idx lp lt ts =
      matchAtLevel now (aggFill now x r) rest
        (writeThrough idx r.id (restFill now x r)) r.price (some (tradeOf x r))
        (ts ++ [tradeOf x r]) := by
  conv_lhs => unfold matchAtLevel
  dsimp only
  rw [if_pos h]
  unfold restFill tradeQtyOf at hr
  rw [if_pos hr]
  unfold tradeOf aggFill restFill tradeQtyOf
  rfl

theorem matchAtLevel_cons_rest (now : Nat) (x r : Order) (rest : List Order)
    (idx : List (Nat × Order)) (lp : ℚ) (lt : Option Trade) (ts : List Trade)
    (h : 0 < x.RemainingQuantity) (hr : ¬ (restFill now x r).IsFilled = true) :
    matchAtLevel now x (r :: rest) idx lp lt ts =
      { order := aggFill now x r, queue := restFill now x r :: rest,
        index := writeThrough idx r.id (restFill now x r), lastPrice := r.price,
        lastTrade := some (tradeOf x r), trades := ts ++ [tradeOf x r] } := by
  unfold matchAtLevel tradeOf aggFill restFill tradeQtyOf
  dsimp only
  rw [if_pos h]
  unfold restFill tradeQtyOf at hr
  rw [if_neg hr]

/-! ### Trade accumulation: the inner loop appends to the caller's trade list -/

theorem matchAtLevel_accum (now : Nat) (q : List Order) (x : Order)
    (idx : List (Nat × Order)) (lp : ℚ) (lt : Option Trade) (ts : List Trade) :
    matchAtLevel now x q idx lp lt ts =
      LevelMatch.mk (matchAtLevel now x q idx lp lt []).order
        (matchAtLevel now x q idx lp lt []).queue
        (matchAtLevel now x q idx lp lt []).index
        (matchAtLevel now x q idx lp lt []).lastPrice
        (matchAtLevel now x q idx lp lt []).lastTrade
        (ts ++ (matchAtLevel now x q idx lp lt []).trades) := by
  induction q generalizing x idx lp lt ts with
  | nil => simp [matchAtLevel_nil]
  | cons r rest ih =>
    by_cases h1 : 0 < x.RemainingQuantity
    · by_cases hr : (restFill now x r).IsFilled = true
      · rw [matchAtLevel_cons_fill now x r rest idx lp lt ts h1 hr,
          matchAtLevel_cons_fill now x r rest idx lp lt [] h1 hr]
        simp only [List.nil_append]
        rw [ih (aggFill now x r) (writeThrough idx r.id (restFill now x r)) r.price
            (some (tradeOf x r)) (ts ++ [tradeOf x r]),
          ih (aggFill now x r) (writeThrough idx r.id (restFill now x r)) r.price
            (some (tradeOf x r)) [tradeOf x r]]
        simp [List.append_assoc]
      · rw [matchAtLevel_cons_rest now x r rest idx lp lt ts h1 hr,
          matchAtLevel_cons_rest now x r rest idx lp lt [] h1 hr]
        simp
    · rw [matchAtLevel_cons_stop now x r rest idx lp lt ts h1,
        matchAtLevel_cons_stop now x r rest idx lp lt [] h1]
      simp

end Arbitrax

namespace Arbitrax

/-! ### Projection corollaries of `matchAtLevel_accum` -/

theorem matchAtLevel_order_indep (now : Nat) (q : List Order) (x : Order)
    (idx : List (Nat × Order)) (lp : ℚ) (lt : Option Trade) (ts : List Trade) :
    (matchAtLevel now x q idx lp lt ts).order = (matchAtLevel now x q idx lp lt []).order := by
  rw [matchAtLevel_accum]

theorem matchAtLevel_queue_indep (now : Nat) (q : List Order) (x : Order)
    (idx : List (Nat × Order)) (lp : ℚ) (lt : Option Trade) (ts : List Trade) :
    (matchAtLevel now x q idx lp lt ts).queue = (matchAtLevel now x q idx lp lt []).queue := by
  rw [matchAtLevel_accum]

theorem matchAtLevel_index_indep (now : Nat) (q : List Order) (x : Order)
    (idx : List (Nat × Order)) (lp : ℚ) (lt : Option Trade) (ts : List Trade) :
    (matchAtLevel now x q idx lp lt ts).index = (matchAtLevel now x q idx lp lt []).index := by
  rw [matchAtLevel_accum]

theorem matchAtLevel_trades_accum (now : Nat) (q : List Order) (x : Order)
    (idx : List (Nat × Order)) (lp : ℚ) (lt : Option Trade) (ts : List Trade) :
    (matchAtLevel now x q idx lp lt ts).trades =
      ts ++ (matchAtLevel now x q idx lp lt []).trades := by
  rw [matchAtLevel_accum]

/-! ### Case equations for the outer loops -/

theorem matchLimitLoop_nil (now : Nat) (x : Order) (idx : List (Nat × Order))
    (lp : ℚ) (lt : Option Trade) (ts : List Trade) :
    matchLimitLoop now x [] idx lp lt ts =
      { order := x, levels := [], index := idx,
        lastPrice := lp, lastTrade := lt, trades := ts } := rfl

theorem matchLimitLoop_cons_stop (now : Nat) (x : Order) (lvl : PriceLevel)
    (rest : List PriceLevel) (idx : List (Nat × Order)) (lp : ℚ) (lt : Option Trade)
    (ts : List Trade) (h : ¬ 0 < x.RemainingQuantity) :
    matchLimitLoop now x (lvl :: rest) idx lp lt ts =
      { order := x, levels := lvl :: rest, index := idx,
        lastPrice := lp, lastTrade := lt, trades := ts } := by
  conv_lhs => unfold matchLimitLoop
  dsimp only
  rw [if_neg h]

theorem matchLimitLoop_cons_empty (now : Nat) (x : Order) (lvl : PriceLevel)
    (rest : List PriceLevel) (idx : List (Nat × Order)) (lp : ℚ) (lt : Option Trade)
    (ts : List Trade) (h : 0 < x.RemainingQuantity) (he : lvl.orders.isEmpty = true) :
    matchLimitLoop now x (lvl :: rest) idx lp lt ts =
      { order := x, levels := lvl :: rest, index := idx,
        lastPrice := lp, lastTrade := lt, trades := ts } := by
  conv_lhs => unfold matchLimitLoop
  dsimp only
  rw [if_pos h, if_pos he]

theorem matchLimitLoop_cons_priceBuy (now : Nat) (x : Order) (lvl : PriceLevel)
    (rest : List PriceLevel) (idx : List (Nat × Order)) (lp : ℚ) (lt : Option Trade)
    (ts : List Trade) (h : 0 < x.RemainingQuantity) (he : ¬ lvl.orders.isEmpty = true)
    (hp : x.side = OrderSide.buy ∧ x.price < lvl.price) :
    matchLimitLoop now x (lvl :: rest) idx lp lt ts =
      { order := x, levels := lvl :: rest, index := idx,
        lastPrice := lp, lastTrade := lt, trades := ts } := by
  conv_lhs => unfold matchLimitLoop
  dsimp only
  rw [if_pos h, if_neg he, if_pos hp]

theorem matchLimitLoop_cons_priceSell (now : Nat) (x : Order) (lvl : PriceLevel)
    (rest : List PriceLevel) (idx : List (Nat × Order)) (lp : ℚ) (lt : Option Trade)
    (ts : List Trade) (h : 0 < x.RemainingQuantity) (he : ¬ lvl.orders.isEmpty = true)
    (hb : ¬ (x.side = OrderSide.buy ∧ x.price < lvl.price))
    (hs : x.side = OrderSide.sell ∧ lvl.price < x.price) :
    matchLimitLoop now x (lvl :: rest) idx lp lt ts =
      { order := x, levels := lvl :: rest, index := idx,
        lastPrice := lp, lastTrade := lt, trades := ts } := by
  conv_lhs => unfold matchLimitLoop
  dsimp only
  rw [if_pos h, if_neg he, if_neg hb, if_pos hs]

theorem matchLimitLoop_cons_pop (now : Nat) (x : Order) (lvl : PriceLevel)
    (rest : List PriceLevel) (idx : List (Nat × Order)) (lp : ℚ) (lt : Option Trade)
    (ts : List Trade) (h : 0 < x.RemainingQuantity) (he : ¬ lvl.orders.isEmpty = true)
    (hb : ¬ (x.side = OrderSide.buy ∧ x.price < lvl.price))
    (hs : ¬ (x.side = OrderSide.sell ∧ lvl.price < x.price))
    (hq : (matchAtLevel now x lvl.orders idx lp lt ts).queue.isEmpty = true) :
    matchLimitLoop now x (lvl :: rest) idx lp lt ts =
      matchLimitLoop now (matchAtLevel now x lvl.orders idx lp lt ts).order rest
        (matchAtLevel now x lvl.orders idx lp lt ts).index
        (matchAtLevel now x lvl.orders idx lp lt ts).lastPrice
        (matchAtLevel now x lvl.orders idx lp lt ts).lastTrade
        (matchAtLevel now x lvl.orders idx lp lt ts).trades := by
  conv_lhs => unfold matchLimitLoop
  dsimp only
  rw [if_pos h, if_neg he, if_neg hb, if_neg hs, if_pos hq]

theorem matchLimitLoop_cons_stay (now : Nat) (x : Order) (lvl : PriceLevel)
    (rest : List PriceLevel) (idx : List (Nat × Order)) (lp : ℚ) (lt : Option Trade)
    (ts : List Trade) (h : 0 < x.RemainingQuantity) (he : ¬ lvl.orders.isEmpty = true)
    (hb : ¬ (x.side = OrderSide.buy ∧ x.price < lvl.price))
    (hs : ¬ (x.side = OrderSide.sell ∧ lvl.price < x.price))
    (hq : ¬ (matchAtLevel now x lvl.orders idx lp lt ts).queue.isEmpty = true) :
    matchLimitLoop now x (lvl :: rest) idx lp lt ts =
      { order := (matchAtLevel now x lvl.orders idx lp lt ts).order,
        levels := { lvl with orders := (matchAtLevel now x lvl.orders idx lp lt ts).queue } :: rest,
        index := (matchAtLevel now x lvl.orders idx lp lt ts).index,
        lastPrice := (matchAtLevel now x lvl.orders idx lp lt ts).lastPrice,
        lastTrade := (matchAtLevel now x lvl.orders idx lp lt ts).lastTrade,
        trades := (matchAtLevel now x lvl.orders idx lp lt ts).trades } := by
  conv_lhs => unfold matchLimitLoop
  dsimp only
  rw [if_pos h, if_neg he, if_neg hb, if_neg hs, if_neg hq]

theorem matchMarketLoop_nil (now : Nat) (x : Order) (idx : List (Nat × Order))
    (lp : ℚ) (lt : Option Trade) (ts : List Trade) :
    matchMarketLoop now x [] idx lp lt ts =
      { order := x, levels := [], index := idx,
        lastPrice := lp, lastTrade := lt, trades := ts } := rfl

theorem matchMarketLoop_cons_stop (now : Nat) (x : Order) (lvl : PriceLevel)
    (rest : List PriceLevel) (idx : List (Nat × Order)) (lp : ℚ) (lt : Option Trade)
    (ts : List Trade) (h : ¬ 0 < x.RemainingQuantity) :
    matchMarketLoop now x (lvl :: rest) idx lp lt ts =
      { order := x, levels := lvl :: rest, index := idx,
        lastPrice := lp, lastTrade := lt, trades := ts } := by
  conv_lhs => unfold matchMarketLoop
  dsimp only
  rw [if_neg h]

theorem matchMarketLoop_cons_empty (now : Nat) (x : Order) (lvl : PriceLevel)
    (rest : List PriceLevel) (idx : List (Nat × Order)) (lp : ℚ) (lt : Option Trade)
    (ts : List Trade) (h : 0 < x.RemainingQuantity) (he : lvl.orders.isEmpty = true) :
    matchMarketLoop now x (lvl :: rest) idx lp lt ts =
      matchMarketLoop now x rest idx lp lt ts := by
  conv_lhs => unfold matchMarketLoop
  dsimp only
  rw [if_pos h, if_pos he]

theorem matchMarketLoop_cons_pop (now : Nat) (x : Order) (lvl : PriceLevel)
    (rest : List PriceLevel) (idx : List (Nat × Order)) (lp : ℚ) (lt : Option Trade)
    (ts : List Trade) (h : 0 < x.RemainingQuantity) (he : ¬ lvl.orders.isEmpty = true)
    (hq : (matchAtLevel now x lvl.orders idx lp lt ts).queue.isEmpty = true) :
    matchMarketLoop now x (lvl :: rest) idx lp lt ts =
      matchMarketLoop now (matchAtLevel now x lvl.orders idx lp lt ts).order rest
        (matchAtLevel now x lvl.orders idx lp lt ts).index
        (matchAtLevel now x lvl.orders idx lp lt ts).lastPrice
        (matchAtLevel now x lvl.orders idx lp lt ts).lastTrade
        (matchAtLevel now x lvl.orders idx lp lt ts).trades := by
  conv_lhs => unfold matchMarketLoop
  dsimp only
  rw [if_pos h, if_neg he, if_pos hq]

theorem matchMarketLoop_cons_stay (now : Nat) (x : Order) (lvl : PriceLevel)
    (rest : List PriceLevel) (idx : List (Nat × Order)) (lp : ℚ) (lt : Option Trade)
    (ts : List Trade) (h : 0 < x.RemainingQuantity) (he : ¬ lvl.orders.isEmpty = true)
    (hq : ¬ (matchAtLevel now x lvl.orders idx lp lt ts).queue.isEmpty = true) :
    matchMarketLoop now x (lvl :: rest) idx lp lt ts =
      { order := (matchAtLevel now x lvl.orders idx lp lt ts).order,
        levels := { lvl with orders := (matchAtLevel now x lvl.orders idx lp lt ts).queue } :: rest,
        index := (matchAtLevel now x lvl.orders idx lp lt ts).index,
        lastPrice := (matchAtLevel now x lvl.orders idx lp lt ts).lastPrice,
        lastTrade := (matchAtLevel now x lvl.orders idx lp lt ts).lastTrade,
        trades := (matchAtLevel now x lvl.orders idx lp lt ts).trades } := by
  conv_lhs => unfold matchMarketLoop
  dsimp only
  rw [if_pos h, if_neg he, if_neg hq]

end Arbitrax

namespace Arbitrax

theorem matchAtLevel_lastPrice_indep (now : Nat) (q : List Order) (x : Order)
    (idx : List (Nat × Order)) (lp : ℚ) (lt : Option Trade) (ts : List Trade) :
    (matchAtLevel now x q idx lp lt ts).lastPrice =
      (matchAtLevel now x q idx lp lt []).lastPrice := by
  rw [matchAtLevel_accum]

theorem matchAtLevel_lastTrade_indep (now : Nat) (q : List Order) (x : Order)
    (idx : List (Nat × Order)) (lp : ℚ) (lt : Option Trade) (ts : List Trade) :
    (matchAtLevel now x q idx lp lt ts).lastTrade =
      (matchAtLevel now x q idx lp lt []).lastTrade := by
  rw [matchAtLevel_accum]

theorem matchLimitLoop_accum (now : Nat) (levels : List PriceLevel) (x : Order)
    (idx : List (Nat × Order)) (lp : ℚ) (lt : Option Trade) (ts : List Trade) :
    matchLimitLoop now x levels idx lp lt ts =
      LoopMatch.mk (matchLimitLoop now x levels idx lp lt []).order
        (matchLimitLoop now x levels idx lp lt []).levels
        (matchLimitLoop now x levels idx lp lt []).index
        (matchLimitLoop now x levels idx lp lt []).lastPrice
        (matchLimitLoop now x levels idx lp lt []).lastTrade
        (ts ++ (matchLimitLoop now x levels idx lp lt []).trades) := by
  induction levels generalizing x idx lp lt ts with
  | nil => simp [matchLimitLoop_nil]
  | cons lvl rest ih =>
    by_cases h1 : 0 < x.RemainingQuantity
    case neg =>
      rw [matchLimitLoop_cons_stop now x lvl rest idx lp lt ts h1,
        matchLimitLoop_cons_stop now x lvl rest idx lp lt [] h1]
      simp
    case pos =>
    by_cases he : lvl.orders.isEmpty = true
    case pos =>
      rw [matchLimitLoop_cons_empty now x lvl rest idx lp lt ts h1 he,
        matchLimitLoop_cons_empty now x lvl rest idx lp lt [] h1 he]
      simp
    case neg =>
    by_cases hb : x.side = OrderSide.buy ∧ x.price < lvl.price
    case pos =>
      rw [matchLimitLoop_cons_priceBuy now x lvl rest idx lp lt ts h1 he hb,
        matchLimitLoop_cons_priceBuy now x lvl rest idx lp lt [] h1 he hb]
      simp
    case neg =>
    by_cases hs : x.side = OrderSide.sell ∧ lvl.price < x.price
    case pos =>
      rw [matchLimitLoop_cons_priceSell now x lvl rest idx lp lt ts h1 he hb hs,
        matchLimitLoop_cons_priceSell now x lvl rest idx lp lt [] h1 he hb hs]
      simp
    case neg =>
    by_cases hq : (matchAtLevel now x lvl.orders idx lp lt ts).queue.isEmpty = true
    case pos =>
      have hq0 : (matchAtLevel now x lvl.orders idx lp lt []).queue.isEmpty = true := by
        rw [← matchAtLevel_queue_indep now lvl.orders x idx lp lt ts]; exact hq
      rw [matchLimitLoop_cons_pop now x lvl rest idx lp lt ts h1 he hb hs hq,
        matchLimitLoop_cons_pop now x lvl rest idx lp lt [] h1 he hb hs hq0]
      rw [matchAtLevel_order_indep, matchAtLevel_index_indep, matchAtLevel_lastPrice_indep,
        matchAtLevel_lastTrade_indep, matchAtLevel_trades_accum]
      rw [ih ((matchAtLevel now x lvl.orders idx lp lt []).order)
          ((matchAtLevel now x lvl.orders idx lp lt []).index)
          ((matchAtLevel now x lvl.orders idx lp lt []).lastPrice)
          ((matchAtLevel now x lvl.orders idx lp lt []).lastTrade)
          (ts ++ (matchAtLevel now x lvl.orders idx lp lt []).trades),
        ih ((matchAtLevel now x lvl.orders idx lp lt []).order)
          ((matchAtLevel now x lvl.orders idx lp lt []).index)
          ((matchAtLevel now x lvl.orders idx lp lt []).lastPrice)
          ((matchAtLevel now x lvl.orders idx lp lt []).lastTrade)
          ((matchAtLevel now x lvl.orders idx lp lt []).trades)]
      simp [List.append_assoc]
    case neg =>
      have hq0 : ¬ (matchAtLevel now x lvl.orders idx lp lt []).queue.isEmpty = true := by
        rw [← matchAtLevel_queue_indep now lvl.orders x idx lp lt ts]; exact hq
      rw [matchLimitLoop_cons_stay now x lvl rest idx lp lt ts h1 he hb hs hq,
        matchLimitLoop_cons_stay now x lvl rest idx lp lt [] h1 he hb hs hq0]
      rw [matchAtLevel_order_indep, matchAtLevel_queue_indep, matchAtLevel_index_indep,
        matchAtLevel_lastPrice_indep, matchAtLevel_lastTrade_indep, matchAtLevel_trades_accum]

theorem matchMarketLoop_accum (now : Nat) (levels : List PriceLevel) (x : Order)
    (idx : List (Nat × Order)) (lp : ℚ) (lt : Option Trade) (ts : List Trade) :
    matchMarketLoop now x levels idx lp lt ts =
      LoopMatch.mk (matchMarketLoop now x levels idx lp lt []).order
        (matchMarketLoop now x levels idx lp lt []).levels
        (matchMarketLoop now x levels idx lp lt []).index
        (matchMarketLoop now x levels idx lp lt []).lastPrice
        (matchMarketLoop now x levels idx lp lt []).lastTrade
        (ts ++ (matchMarketLoop now x levels idx lp lt []).trades) := by
  induction levels generalizing x idx lp lt ts with
  | nil => simp [matchMarketLoop_nil]
  | cons lvl rest ih =>
    by_cases h1 : 0 < x.RemainingQuantity
    case neg =>
      rw [matchMarketLoop_cons_stop now x lvl rest idx lp lt ts h1,
        matchMarketLoop_cons_stop now x lvl rest idx lp lt [] h1]
      simp
    case pos =>
    by_cases he : lvl.orders.isEmpty = true
    case pos =>
      rw [matchMarketLoop_cons_empty now x lvl rest idx lp lt ts h1 he,
        matchMarketLoop_cons_empty now x lvl rest idx lp lt [] h1 he]
      exact ih x idx lp lt ts
    case neg =>
    by_cases hq : (matchAtLevel now x lvl.orders idx lp lt ts).queue.isEmpty = true
    case pos =>
      have hq0 : (matchAtLevel now x lvl.orders idx lp lt []).queue.isEmpty = true := by
        rw [← matchAtLevel_queue_indep now lvl.orders x idx lp lt ts]; exact hq
      rw [matchMarketLoop_cons_pop now x lvl rest idx lp lt ts h1 he hq,
        matchMarketLoop_cons_pop now x lvl rest idx lp lt [] h1 he hq0]
      rw [matchAtLevel_order_indep, matchAtLevel_index_indep, matchAtLevel_lastPrice_indep,
        matchAtLevel_lastTrade_indep, matchAtLevel_trades_accum]
      rw [ih ((matchAtLevel now x lvl.orders idx lp lt []).order)
          ((matchAtLevel now x lvl.orders idx lp lt []).index)
          ((matchAtLevel now x lvl.orders idx lp lt []).lastPrice)
          ((matchAtLevel now x lvl.orders idx lp lt []).lastTrade)
          (ts ++ (matchAtLevel now x lvl.orders idx lp lt []).trades),
        ih ((matchAtLevel now x lvl.orders idx lp lt []).order)
          ((matchAtLevel now x lvl.orders idx lp lt []).index)
          ((matchAtLevel now x lvl.orders idx lp lt []).lastPrice)
          ((matchAtLevel now x lvl.orders idx lp lt []).lastTrade)
          ((matchAtLevel now x lvl.orders idx lp lt []).trades)]
      simp [List.append_assoc]
    case neg =>
      have hq0 : ¬ (matchAtLevel now x lvl.orders idx lp lt []).queue.isEmpty = true := by
        rw [← matchAtLevel_queue_indep now lvl.orders x idx lp lt ts]; exact hq
      rw [matchMarketLoop_cons_stay now x lvl rest idx lp lt ts h1 he hq,
        matchMarketLoop_cons_stay now x lvl rest idx lp lt [] h1 he hq0]
      rw [matchAtLevel_order_indep, matchAtLevel_queue_indep, matchAtLevel_index_indep,
        matchAtLevel_lastPrice_indep, matchAtLevel_lastTrade_indep, matchAtLevel_trades_accum]

end Arbitrax

namespace Arbitrax

/-! ### Projection corollaries for the outer loops -/

theorem matchLimitLoop_trades_accum (now : Nat) (levels : List PriceLevel) (x : Order)
    (idx : List (Nat × Order)) (lp : ℚ) (lt : Option Trade) (ts : List Trade) :
    (matchLimitLoop now x levels idx lp lt ts).trades =
      ts ++ (matchLimitLoop now x levels idx lp lt []).trades := by
  rw [matchLimitLoop_accum]

theorem matchLimitLoop_order_indep (now : Nat) (levels : List PriceLevel) (x : Order)
    (idx : List (Nat × Order)) (lp : ℚ) (lt : Option Trade) (ts : List Trade) :
    (matchLimitLoop now x levels idx lp lt ts).order =
      (matchLimitLoop now x levels idx lp lt []).order := by
  rw [matchLimitLoop_accum]

theorem matchLimitLoop_levels_indep (now : Nat) (levels : List PriceLevel) (x : Order)
    (idx : List (Nat × Order)) (lp : ℚ) (lt : Option Trade) (ts : List Trade) :
    (matchLimitLoop now x levels idx lp lt ts).levels =
      (matchLimitLoop now x levels idx lp lt []).levels := by
  rw [matchLimitLoop_accum]

theorem matchLimitLoop_index_indep (now : Nat) (levels : List PriceLevel) (x : Order)
    (idx : List (Nat × Order)) (lp : ℚ) (lt : Option Trade) (ts : List Trade) :
    (matchLimitLoop now x levels idx lp lt ts).index =
      (matchLimitLoop now x levels idx lp lt []).index := by
  rw [matchLimitLoop_accum]

theorem matchMarketLoop_trades_accum (now : Nat) (levels : List PriceLevel) (x : Order)
    (idx : List (Nat × Order)) (lp : ℚ) (lt : Option Trade) (ts : List Trade) :
    (matchMarketLoop now x levels idx lp lt ts).trades =
      ts ++ (matchMarketLoop now x levels idx lp lt []).trades := by
  rw [matchMarketLoop_accum]

/-! ### C2 infrastructure — every trade prices at a resting order's price -/

/-- All orders resting in a list of price levels, in level order. -/
def levelOrders (ls : List PriceLevel) : List Order :=
  ls.flatMap PriceLevel.orders

theorem levelOrders_nil : levelOrders [] = [] := rfl

theorem levelOrders_cons (lvl : PriceLevel) (rest : List PriceLevel) :
    levelOrders (lvl :: rest) = lvl.orders ++ levelOrders rest := rfl

/-- The id of the resting (non-aggressor) party recorded in a trade, given the
aggressor's side: a buy aggressor matches resting sells and vice versa. -/
def restingOrderId (side : OrderSide) (t : Trade) : Nat :=
  if side = OrderSide.buy then t.sellOrderId else t.buyOrderId

theorem restingOrderId_tradeOf (x r : Order) :
    restingOrderId x.side (tradeOf x r) = r.id := by
  unfold restingOrderId tradeOf NewTrade
  by_cases h : x.side = OrderSide.buy <;> simp [h]

theorem tradeOf_price (x r : Order) : (tradeOf x r).price = r.price := by
  unfold tradeOf NewTrade
  by_cases h : x.side = OrderSide.buy <;> simp [h]

theorem tradeOf_quantity (x r : Order) : (tradeOf x r).quantity = tradeQtyOf x r := by
  unfold tradeOf NewTrade
  by_cases h : x.side = OrderSide.buy <;> simp [h]

theorem matchAtLevel_resting (now : Nat) (q : List Order) (x : Order)
    (idx : List (Nat × Order)) (lp : ℚ) (lt : Option Trade) :
    ∀ t ∈ (matchAtLevel now x q idx lp lt []).trades,
      ∃ r ∈ q, restingOrderId x.side t = r.id ∧ t.price = r.price := by
  induction q generalizing x idx lp lt with
  | nil => simp [matchAtLevel_nil]
  | cons r rest ih =>
    by_cases h1 : 0 < x.RemainingQuantity
    case neg =>
      rw [matchAtLevel_cons_stop now x r rest idx lp lt [] h1]
      simp
    case pos =>
    by_cases hr : (restFill now x r).IsFilled = true
    case pos =>
      rw [matchAtLevel_cons_fill now x r rest idx lp lt [] h1 hr]
      rw [matchAtLevel_trades_accum]
      intro t ht
      rcases List.mem_append.1 ht with hhead | htail
      · rcases List.mem_singleton.1 (by simpa using hhead) with rfl
        exact ⟨r, List.mem_cons_self r rest, restingOrderId_tradeOf x r, tradeOf_price x r⟩
      · have hside : (aggFill now x r).side = x.side := Fill_side x _ _ now
        rcases ih (aggFill now x r) _ _ _ t htail with ⟨r', hr', hid, hp⟩
        rw [hside] at hid
        exact ⟨r', List.mem_cons_of_mem r hr', hid, hp⟩
    case neg =>
      rw [matchAtLevel_cons_rest now x r rest idx lp lt [] h1 hr]
      intro t ht
      rcases List.mem_singleton.1 (by simpa using ht) with rfl
      exact ⟨r, List.mem_cons_self r rest, restingOrderId_tradeOf x r, tradeOf_price x r⟩

theorem matchLimitLoop_resting (now : Nat) (levels : List PriceLevel) (x : Order)
    (idx : List (Nat × Order)) (lp : ℚ) (lt : Option Trade) :
    ∀ t ∈ (matchLimitLoop now x levels idx lp lt []).trades,
      ∃ r ∈ levelOrders levels, restingOrderId x.side t = r.id ∧ t.price = r.price := by
  induction levels generalizing x idx lp lt with
  | nil => simp [matchLimitLoop_nil]
  | cons lvl rest ih =>
    by_cases h1 : 0 < x.RemainingQuantity
    case neg =>
      rw [matchLimitLoop_cons_stop now x lvl rest idx lp lt [] h1]; simp
    case pos =>
    by_cases he : lvl.orders.isEmpty = true
    case pos =>
      rw [matchLimitLoop_cons_empty now x lvl rest idx lp lt [] h1 he]; simp
    case neg =>
    by_cases hb : x.side = OrderSide.buy ∧ x.price < lvl.price
    case pos =>
      rw [matchLimitLoop_cons_priceBuy now x lvl rest idx lp lt [] h1 he hb]; simp
    case neg =>
    by_cases hs : x.side = OrderSide.sell ∧ lvl.price < x.price
    case pos =>
      rw [matchLimitLoop_cons_priceSell now x lvl rest idx lp lt [] h1 he hb hs]; simp
    case neg =>
    by_cases hq : (matchAtLevel now x lvl.orders idx lp lt ([] : List Trade)).queue.isEmpty = true
    case pos =>
      rw [matchLimitLoop_cons_pop now x lvl rest idx lp lt [] h1 he hb hs hq]
      rw [matchLimitLoop_trades_accum]
      intro t ht
      rcases List.mem_append.1 ht with hhead | htail
      · rcases matchAtLevel_resting now lvl.orders x idx lp lt t hhead with ⟨r, hrmem, hid, hp⟩
        exact ⟨r, by rw [levelOrders_cons]; exact List.mem_append_left _ hrmem, hid, hp⟩
      · have hside : (matchAtLevel now x lvl.orders idx lp lt ([] : List Trade)).order.side
            = x.side := (matchAtLevel_sameStatic now lvl.orders x idx lp lt []).2.2.2.1
        rcases ih ((matchAtLevel now x lvl.orders idx lp lt []).order) _ _ _ t htail with
          ⟨r', hr', hid, hp⟩
        rw [hside] at hid
        exact ⟨r', by rw [levelOrders_cons]; exact List.mem_append_right _ hr', hid, hp⟩
    case neg =>
      rw [matchLimitLoop_cons_stay now x lvl rest idx lp lt [] h1 he hb hs hq]
      intro t ht
      rcases matchAtLevel_resting now lvl.orders x idx lp lt t ht with ⟨r, hrmem, hid, hp⟩
      exact ⟨r, by rw [levelOrders_cons]; exact List.mem_append_left _ hrmem, hid, hp⟩

theorem matchMarketLoop_resting (now : Nat) (levels : List PriceLevel) (x : Order)
    (idx : List (Nat × Order)) (lp : ℚ) (lt : Option Trade) :
    ∀ t ∈ (matchMarketLoop now x levels idx lp lt []).trades,
      ∃ r ∈ levelOrders levels, restingOrderId x.side t = r.id ∧ t.price = r.price := by
  induction levels generalizing x idx lp lt with
  | nil => simp [matchMarketLoop_nil]
  | cons lvl rest ih =>
    by_cases h1 : 0 < x.RemainingQuantity
    case neg =>
      rw [matchMarketLoop_cons_stop now x lvl rest idx lp lt [] h1]; simp
    case pos =>
    by_cases he : lvl.orders.isEmpty = true
    case pos =>
      rw [matchMarketLoop_cons_empty now x lvl rest idx lp lt [] h1 he]
      intro t ht
      rcases ih x idx lp lt t ht with ⟨r, hrmem, hid, hp⟩
      exact ⟨r, by rw [levelOrders_cons]; exact List.mem_append_right _ hrmem, hid, hp⟩
    case neg =>
    by_cases hq : (matchAtLevel now x lvl.orders idx lp lt ([] : List Trade)).queue.isEmpty = true
    case pos =>
      rw [matchMarketLoop_cons_pop now x lvl rest idx lp lt [] h1 he hq]
      rw [matchMarketLoop_trades_accum]
      intro t ht
      rcases List.mem_append.1 ht with hhead | htail
      · rcases matchAtLevel_resting now lvl.orders x idx lp lt t hhead with ⟨r, hrmem, hid, hp⟩
        exact ⟨r, by rw [levelOrders_cons]; exact List.mem_append_left _ hrmem, hid, hp⟩
      · have hside : (matchAtLevel now x lvl.orders idx lp lt ([] : List Trade)).order.side
            = x.side := (matchAtLevel_sameStatic now lvl.orders x idx lp lt []).2.2.2.1
        rcases ih ((matchAtLevel now x lvl.orders idx lp lt []).order) _ _ _ t htail with
          ⟨r', hr', hid, hp⟩
        rw [hside] at hid
        exact ⟨r', by rw [levelOrders_cons]; exact List.mem_append_right _ hr', hid, hp⟩
    case neg =>
      rw [matchMarketLoop_cons_stay now x lvl rest idx lp lt [] h1 he hq]
      intro t ht
      rcases matchAtLevel_resting now lvl.orders x idx lp lt t ht with ⟨r, hrmem, hid, hp⟩
      exact ⟨r, by rw [levelOrders_cons]; exact List.mem_append_left _ hrmem, hid, hp⟩

end Arbitrax

namespace Arbitrax

theorem matchLimitOrder_trades (now : Nat) (ob : OrderBook) (x : Order) :
    (matchLimitOrder now ob x).trades =
      (matchLimitLoop now x (if x.side = OrderSide.buy then ob.Asks else ob.Bids).levels
        ob.orders ob.LastPrice ob.LastTrade []).trades := by
  unfold matchLimitOrder
  dsimp only
  split_ifs <;> rfl

theorem matchMarketOrder_trades (now : Nat) (ob : OrderBook) (x : Order) :
    (matchMarketOrder now ob x).trades =
      (matchMarketLoop now x (if x.side = OrderSide.buy then ob.Asks else ob.Bids).levels
        ob.orders ob.LastPrice ob.LastTrade []).trades := rfl

theorem matchLimitOrder_resting (now : Nat) (ob : OrderBook) (x : Order) :
    ∀ t ∈ (matchLimitOrder now ob x).trades,
      ∃ r ∈ levelOrders ((if x.side = OrderSide.buy then ob.Asks else ob.Bids).levels),
        restingOrderId x.side t = r.id ∧ t.price = r.price := by
  rw [matchLimitOrder_trades]
  exact matchLimitLoop_resting now _ x _ _ _

theorem matchMarketOrder_resting (now : Nat) (ob : OrderBook) (x : Order) :
    ∀ t ∈ (matchMarketOrder now ob x).trades,
      ∃ r ∈ levelOrders ((if x.side = OrderSide.buy then ob.Asks else ob.Bids).levels),
        restingOrderId x.side t = r.id ∧ t.price = r.price := by
  rw [matchMarketOrder_trades]
  exact matchMarketLoop_resting now _ x _ _ _

/-- C2: every trade emitted by a `submit` prices at the resting opposite-side
order it matched: the trade carries that resting order's id on its
opposite-side slot, and its price equals that resting order's price (resting
order prices are immutable during matching, so the price at the instant of
the match is the price in the pre-submit book). -/
theorem trade_price_eq_resting_price (now : Nat) (e : MatchingEngine) (o : Order) :
    ∀ t ∈ (MatchingEngine.SubmitOrder now e o).2.2,
      ∃ r ∈ levelOrders
          ((if o.side = OrderSide.buy then (e.GetOrCreateOrderBook o.symbol).Asks
            else (e.GetOrCreateOrderBook o.symbol).Bids).levels),
        restingOrderId o.side t = r.id ∧ t.price = r.price := by
  obtain ⟨oid, osym, otype, oside, oqty, oprice, ost, ofq, ofp, osub, ofat, ocat⟩ := o
  cases otype with
  | market =>
    intro t ht
    exact matchMarketOrder_resting now _ _ t ht
  | limit =>
    intro t ht
    exact matchLimitOrder_resting now _ _ t ht
  | stopLoss =>
    intro t ht
    exact matchLimitOrder_resting now (e.GetOrCreateOrderBook osym)
      (Order.mk oid osym OrderType.limit oside oqty oprice ost ofq ofp osub ofat ocat) t ht

end Arbitrax

namespace Arbitrax

/-! ### C3 infrastructure — FIFO consumption within a level -/

/-- When the resting head ends fully filled, the iteration's quantity is
exactly that head's whole remaining quantity. -/
theorem tradeQtyOf_eq_remaining (now : Nat) (x r : Order)
    (hr : (restFill now x r).IsFilled = true) :
    tradeQtyOf x r = r.RemainingQuantity := by
  unfold restFill at hr
  rw [IsFilled_iff] at hr
  rw [Fill_filledQuantity, Fill_quantity] at hr
  have h2 : tradeQtyOf x r ≤ r.RemainingQuantity := min_le_snd _ _
  unfold Order.RemainingQuantity at h2 ⊢
  unfold tradeQtyOf at hr h2 ⊢
  linarith

/-- The resting ids of the emitted trades are exactly the ids of the consumed
prefix of the level's FIFO queue, in queue order. -/
theorem matchAtLevel_trades_ids (now : Nat) (q : List Order) (x : Order)
    (idx : List (Nat × Order)) (lp : ℚ) (lt : Option Trade) :
    (matchAtLevel now x q idx lp lt []).trades.map (restingOrderId x.side) =
      (q.take (matchAtLevel now x q idx lp lt []).trades.length).map Order.id := by
  induction q generalizing x idx lp lt with
  | nil => simp [matchAtLevel_nil]
  | cons r rest ih =>
    by_cases h1 : 0 < x.RemainingQuantity
    case neg =>
      rw [matchAtLevel_cons_stop now x r rest idx lp lt [] h1]
      simp
    case pos =>
    by_cases hr : (restFill now x r).IsFilled = true
    case pos =>
      rw [matchAtLevel_cons_fill now x r rest idx lp lt [] h1 hr]
      rw [matchAtLevel_trades_accum]
      have hside : (aggFill now x r).side = x.side := Fill_side x _ _ now
      have ih' := ih (aggFill now x r) (writeThrough idx r.id (restFill now x r))
        r.price (some (tradeOf x r))
      rw [hside] at ih'
      simp only [List.nil_append, List.singleton_append, List.map_cons, List.length_cons,
        List.take_succ_cons, restingOrderId_tradeOf]
      rw [ih']
    case neg =>
      rw [matchAtLevel_cons_rest now x r rest idx lp lt [] h1 hr]
      simp [restingOrderId_tradeOf]

end Arbitrax

namespace Arbitrax

/-- Every emitted trade except possibly the last one fully fills its resting
order: its quantity is the whole remaining quantity of the queue order at the
same position. -/
theorem matchAtLevel_trades_fullfill (now : Nat) (q : List Order) (x : Order)
    (idx : List (Nat × Order)) (lp : ℚ) (lt : Option Trade) :
    ∀ i, i + 1 < (matchAtLevel now x q idx lp lt []).trades.length →
      ∀ t, ((matchAtLevel now x q idx lp lt []).trades)[i]? = some t →
      ∀ r, q[i]? = some r → t.quantity = r.RemainingQuantity := by
  induction q generalizing x idx lp lt with
  | nil =>
    intro i hi
    rw [matchAtLevel_nil] at hi
    simp at hi
  | cons r0 rest ih =>
    by_cases h1 : 0 < x.RemainingQuantity
    case neg =>
      intro i hi
      rw [matchAtLevel_cons_stop now x r0 rest idx lp lt [] h1] at hi
      simp at hi
    case pos =>
    by_cases hr : (restFill now x r0).IsFilled = true
    case pos =>
      intro i hi t ht r hrq
      rw [matchAtLevel_cons_fill now x r0 rest idx lp lt [] h1 hr,
        matchAtLevel_trades_accum] at hi ht
      simp only [List.nil_append, List.singleton_append, List.length_cons] at hi ht
      match i with
      | 0 =>
        rw [List.getElem?_cons_zero] at ht
        rw [List.getElem?_cons_zero] at hrq
        obtain rfl : tradeOf x r0 = t := Option.some.inj ht
        obtain rfl : r0 = r := Option.some.inj hrq
        rw [tradeOf_quantity]
        exact tradeQtyOf_eq_remaining now x r0 hr
      | Nat.succ n =>
        rw [List.getElem?_cons_succ] at ht
        rw [List.getElem?_cons_succ] at hrq
        exact ih (aggFill now x r0) (writeThrough idx r0.id (restFill now x r0))
          r0.price (some (tradeOf x r0)) n (by omega) t ht r hrq
    case neg =>
      intro i hi
      rw [matchAtLevel_cons_rest now x r0 rest idx lp lt [] h1 hr] at hi
      simp at hi

end Arbitrax

namespace Arbitrax

theorem appendAtPrice_tail (o : Order) (ls : List PriceLevel) (lvl : PriceLevel)
    (hmem : lvl ∈ ls) (hp : lvl.price = o.price)
    (hpw : ls.Pairwise fun a b => a.price ≠ b.price) :
    ∃ lvl', lvl' ∈ appendAtPrice o ls ∧ lvl'.price = o.price ∧
      lvl'.orders = lvl.orders ++ [o] := by
  induction ls with
  | nil => simp at hmem
  | cons l ls ih =>
    by_cases hl : l.price = o.price
    case pos =>
      simp only [appendAtPrice, if_pos hl]
      rcases List.mem_cons.1 hmem with rfl | hmem'
      · exact ⟨{ lvl with orders := lvl.orders ++ [o] },
          List.mem_cons_self _ _, hl, rfl⟩
      · exfalso
        exact (List.pairwise_cons.1 hpw).1 lvl hmem' (hl.trans hp.symm)
    case neg =>
      simp only [appendAtPrice, if_neg hl]
      rcases List.mem_cons.1 hmem with rfl | hmem'
      · exact absurd hp hl
      · rcases ih hmem' (List.pairwise_cons.1 hpw).2 with ⟨lvl', h1, h2, h3⟩
        exact ⟨lvl', List.mem_cons_of_mem l h1, h2, h3⟩

theorem AddOrder_appends_tail (h : PriceLevelHeap) (o : Order) (lvl : PriceLevel)
    (hmem : lvl ∈ h.levels) (hp : lvl.price = o.price)
    (hpw : h.levels.Pairwise fun a b => a.price ≠ b.price) :
    ∃ lvl', lvl' ∈ (h.AddOrder o).levels ∧ lvl'.price = o.price ∧
      lvl'.orders = lvl.orders ++ [o] := by
  have hany : h.levels.any (fun l => l.price == o.price) = true := by
    rw [List.any_eq_true]
    exact ⟨lvl, hmem, by rw [beq_iff_eq]; exact hp⟩
  unfold PriceLevelHeap.AddOrder
  rw [if_pos hany]
  exact appendAtPrice_tail o h.levels lvl hmem hp hpw

/-- Each emitted trade at position `n` is against the queue order at position
`n`: the consumed orders form a prefix of the FIFO queue. -/
theorem matchAtLevel_trade_at (now : Nat) (q : List Order) (x : Order)
    (idx : List (Nat × Order)) (lp : ℚ) (lt : Option Trade) (n : Nat) (t : Trade)
    (ht : ((matchAtLevel now x q idx lp lt []).trades)[n]? = some t) :
    n < (matchAtLevel now x q idx lp lt []).trades.length ∧
      ∃ s, q[n]? = some s ∧ restingOrderId x.side t = s.id := by
  have hlen : n < (matchAtLevel now x q idx lp lt []).trades.length := by
    rw [List.getElem?_eq_some] at ht
    exact ht.1
  refine ⟨hlen, ?_⟩
  have hmap : ((matchAtLevel now x q idx lp lt []).trades.map
      (restingOrderId x.side))[n]? = some (restingOrderId x.side t) := by
    rw [List.getElem?_map, ht]
    rfl
  rw [matchAtLevel_trades_ids] at hmap
  rw [List.getElem?_map] at hmap
  rw [List.getElem?_take_of_lt hlen] at hmap
  rcases Option.map_eq_some'.1 hmap with ⟨s, hs, hid⟩
  exact ⟨s, hs, hid.symm⟩

/-- C3: matching at a price level consumes resting orders strictly
first-in-first-out.  (a) The first emitted trade is against the queue's head,
i.e. the earliest-added order at that level.  (b) If some emitted trade is
against the order at queue position `j`, then for every earlier position
`i < j` there is an emitted trade against that order for its entire remaining
quantity — an order receives quantity only after every earlier order at the
level is fully filled. (c) `PriceLevelHeap.AddOrder` appends an arriving
order to the tail of the FIFO queue of the level at its price, so queue
position order is submission order. -/
theorem fifo_time_priority (now : Nat) (x : Order) (q : List Order)
    (idx : List (Nat × Order)) (lp : ℚ) (lt : Option Trade)
    (hnodup : (q.map Order.id).Nodup) :
    (∀ t, (matchAtLevel now x q idx lp lt []).trades.head? = some t →
      ∃ r, q.head? = some r ∧ restingOrderId x.side t = r.id) ∧
    (∀ i j : Nat, i < j →
      (∃ t ∈ (matchAtLevel now x q idx lp lt []).trades,
        ∃ oj : Order, q[j]? = some oj ∧ restingOrderId x.side t = oj.id) →
      ∀ oi : Order, q[i]? = some oi →
        ∃ t' ∈ (matchAtLevel now x q idx lp lt []).trades,
          restingOrderId x.side t' = oi.id ∧ t'.quantity = oi.RemainingQuantity) ∧
    (∀ (hp : PriceLevelHeap) (o : Order) (lvl : PriceLevel), lvl ∈ hp.levels →
      lvl.price = o.price → hp.levels.Pairwise (fun a b => a.price ≠ b.price) →
      ∃ lvl', lvl' ∈ (hp.AddOrder o).levels ∧ lvl'.price = o.price ∧
        lvl'.orders = lvl.orders ++ [o]) := by
  refine ⟨?_, ?_, fun hp o lvl h1 h2 h3 => AddOrder_appends_tail hp o lvl h1 h2 h3⟩
  · intro t ht
    rw [List.head?_eq_getElem?] at ht
    rcases (matchAtLevel_trade_at now q x idx lp lt 0 t ht).2 with ⟨s, hs, hid⟩
    rw [List.head?_eq_getElem?]
    exact ⟨s, hs, hid⟩
  · intro i j hij ⟨t, htmem, oj, hoj, hid⟩ oi hoi
    rcases List.getElem?_of_mem htmem with ⟨n, hn⟩
    rcases matchAtLevel_trade_at now q x idx lp lt n t hn with ⟨hnlen, s, hs, hsid⟩
    have hnq : n < q.length := by
      rw [List.getElem?_eq_some] at hs
      exact hs.1
    have hjq : j < q.length := by
      rw [List.getElem?_eq_some] at hoj
      exact hoj.1
    have hqn : q[n] = s := by
      have := List.getElem?_eq_getElem hnq
      rw [this] at hs
      exact Option.some.inj hs
    have hqj : q[j] = oj := by
      have := List.getElem?_eq_getElem hjq
      rw [this] at hoj
      exact Option.some.inj hoj
    have hnj : n = j := by
      have hlen : (q.map Order.id).length = q.length := List.length_map q Order.id
      have hn' : n < (q.map Order.id).length := by rw [hlen]; exact hnq
      have hj' : j < (q.map Order.id).length := by rw [hlen]; exact hjq
      have hvals : (q.map Order.id)[n] = (q.map Order.id)[j] := by
        rw [List.getElem_map, List.getElem_map, hqn, hqj, ← hsid, hid]
      exact (@List.Nodup.getElem_inj_iff _ _ hnodup n hn' j hj').1 hvals
    have hilen : i + 1 < (matchAtLevel now x q idx lp lt []).trades.length := by
      omega
    have hit : ((matchAtLevel now x q idx lp lt []).trades)[i]? =
        some ((matchAtLevel now x q idx lp lt []).trades.get ⟨i, by omega⟩) :=
      List.getElem?_eq_getElem (by omega)
    rcases matchAtLevel_trade_at now q x idx lp lt i _ hit with ⟨_, s', hs', hsid'⟩
    have hsoi : s' = oi := by
      rw [hoi] at hs'
      exact (Option.some.inj hs').symm
    refine ⟨(matchAtLevel now x q idx lp lt []).trades.get ⟨i, by omega⟩,
      List.getElem_mem _, ?_, ?_⟩
    · rw [hsid', hsoi]
    · exact matchAtLevel_trades_fullfill now q x idx lp lt i hilen _ hit oi hoi

end Arbitrax

namespace Arbitrax

/-- Two resting sells and an incoming buy used to instantiate the FIFO
theorem (spec scenario S4). -/
def c3SellA : Order := NewOrder 1 7 OrderType.limit OrderSide.sell 50 150 0

def c3SellB : Order := NewOrder 2 7 OrderType.limit OrderSide.sell 50 150 1

def c3Buy : Order := NewOrder 3 7 OrderType.limit OrderSide.buy 50 150 2

def c3Queue : List Order := [c3SellA, c3SellB]

theorem fifo_time_priority_witness :
    ((c3Queue.map Order.id).Nodup) ∧
    ((∀ t, (matchAtLevel 2 c3Buy c3Queue [] 0 none []).trades.head? = some t →
      ∃ r, c3Queue.head? = some r ∧ restingOrderId c3Buy.side t = r.id) ∧
    (∀ i j : Nat, i < j →
      (∃ t ∈ (matchAtLevel 2 c3Buy c3Queue [] 0 none []).trades,
        ∃ oj : Order, c3Queue[j]? = some oj ∧ restingOrderId c3Buy.side t = oj.id) →
      ∀ oi : Order, c3Queue[i]? = some oi →
        ∃ t' ∈ (matchAtLevel 2 c3Buy c3Queue [] 0 none []).trades,
          restingOrderId c3Buy.side t' = oi.id ∧ t'.quantity = oi.RemainingQuantity) ∧
    (∀ (hp : PriceLevelHeap) (o : Order) (lvl : PriceLevel), lvl ∈ hp.levels →
      lvl.price = o.price → hp.levels.Pairwise (fun a b => a.price ≠ b.price) →
      ∃ lvl', lvl' ∈ (hp.AddOrder o).levels ∧ lvl'.price = o.price ∧
        lvl'.orders = lvl.orders ++ [o])) :=
  ⟨by decide, fifo_time_priority 2 c3Buy c3Queue [] 0 none (by decide)⟩

end Arbitrax

namespace Arbitrax

/-! ### Well-formedness invariants of a book

A reachable book (built by the engine from an empty book) keeps, on each
side: priority-sorted distinct level prices, non-empty levels, every resting
order priced at its level and with positive remaining quantity, and the two
sides never crossed. -/

/-- `PriceLevel` invariant: non-empty FIFO queue, every order priced at the
level, every order with positive remaining quantity. -/
def LevelWF (lvl : PriceLevel) : Prop :=
  lvl.orders ≠ [] ∧ ∀ o ∈ lvl.orders, o.price = lvl.price ∧ 0 < o.RemainingQuantity

/-- One side's invariant: levels strictly ordered by side priority (hence
pairwise-distinct prices), and each level well-formed. -/
def HeapWF (h : PriceLevelHeap) : Prop :=
  h.levels.Pairwise (fun a b => levelBefore h.isBid a.price b.price = true) ∧
  ∀ lvl ∈ h.levels, LevelWF lvl

/-- The book is not crossed: best bid strictly below best ask whenever both
sides are non-empty. -/
def NotCrossed (ob : OrderBook) : Prop :=
  ∀ b ∈ ob.Bids.levels.head?, ∀ a ∈ ob.Asks.levels.head?, b.price < a.price

/-- Full book invariant. -/
def BookWF (ob : OrderBook) : Prop :=
  ob.Bids.isBid = true ∧ ob.Asks.isBid = false ∧
  HeapWF ob.Bids ∧ HeapWF ob.Asks ∧ NotCrossed ob

theorem NewOrderBook_WF (symbol : Nat) : BookWF (NewOrderBook symbol) := by
  refine ⟨rfl, rfl, ⟨List.Pairwise.nil, ?_⟩, ⟨List.Pairwise.nil, ?_⟩, ?_⟩ <;>
    intro a ha <;> simp [NewOrderBook, NewBidHeap, NewAskHeap] at ha

/-! #### Priority-order facts -/

theorem levelBefore_total (b : Bool) (p q : ℚ) (hne : p ≠ q) :
    levelBefore b p q = true ∨ levelBefore b q p = true := by
  unfold levelBefore
  rcases lt_trichotomy p q with h | h | h
  · cases b <;> simp [h, asymm h]
  · exact absurd h hne
  · cases b <;> simp [h, asymm h]

theorem levelBefore_trans (b : Bool) (p q r : ℚ)
    (h₁ : levelBefore b p q = true) (h₂ : levelBefore b q r = true) :
    levelBefore b p r = true := by
  unfold levelBefore at h₁ h₂ ⊢
  cases b <;> simp_all <;> linarith

theorem levelBefore_irrefl (b : Bool) (p : ℚ) : ¬ levelBefore b p p = true := by
  unfold levelBefore
  cases b <;> simp

theorem insertLevel_mem (b : Bool) (l : PriceLevel) (ls : List PriceLevel) :
    ∀ m ∈ insertLevel b l ls, m = l ∨ m ∈ ls := by
  induction ls with
  | nil => intro m hm; simp [insertLevel] at hm; exact Or.inl hm
  | cons a as ih =>
    intro m hm
    unfold insertLevel at hm
    split_ifs at hm
    · rcases List.mem_cons.1 hm with rfl | hm'
      · exact Or.inl rfl
      · exact Or.inr hm'
    · rcases List.mem_cons.1 hm with rfl | hm'
      · exact Or.inr (List.mem_cons_self _ _)
      · rcases ih m hm' with h | h
        · exact Or.inl h
        · exact Or.inr (List.mem_cons_of_mem _ h)

theorem insertLevel_pairwise (b : Bool) (l : PriceLevel) (ls : List PriceLevel)
    (hpw : ls.Pairwise (fun a c => levelBefore b a.price c.price = true))
    (hfresh : ∀ m ∈ ls, l.price ≠ m.price) :
    (insertLevel b l ls).Pairwise (fun a c => levelBefore b a.price c.price = true) := by
  induction ls with
  | nil => simp [insertLevel]
  | cons a as ih =>
    unfold insertLevel
    split_ifs with hla
    · refine List.pairwise_cons.2 ⟨?_, hpw⟩
      intro m hm
      rcases List.mem_cons.1 hm with rfl | hm'
      · exact hla
      · exact levelBefore_trans b l.price a.price m.price hla
          ((List.pairwise_cons.1 hpw).1 m hm')
    · have hal : levelBefore b a.price l.price = true := by
        rcases levelBefore_total b l.price a.price
          (hfresh a (List.mem_cons_self _ _)) with h | h
        · exact absurd h hla
        · exact h
      refine List.pairwise_cons.2 ⟨?_, ?_⟩
      · intro m hm
        rcases insertLevel_mem b l as m hm with rfl | hm'
        · exact hal
        · exact (List.pairwise_cons.1 hpw).1 m hm'
      · exact ih (List.pairwise_cons.1 hpw).2
          (fun m hm => hfresh m (List.mem_cons_of_mem _ hm))

theorem appendAtPrice_mem (o : Order) (ls : List PriceLevel) :
    ∀ m ∈ appendAtPrice o ls, m ∈ ls ∨
      ∃ lvl₀ ∈ ls, lvl₀.price = o.price ∧ m = { lvl₀ with orders := lvl₀.orders ++ [o] } := by
  induction ls with
  | nil => intro m hm; simp [appendAtPrice] at hm
  | cons a as ih =>
    intro m hm
    unfold appendAtPrice at hm
    split_ifs at hm with ha
    · rcases List.mem_cons.1 hm with rfl | hm'
      · exact Or.inr ⟨a, List.mem_cons_self _ _, ha, rfl⟩
      · exact Or.inl (List.mem_cons_of_mem _ hm')
    · rcases List.mem_cons.1 hm with rfl | hm'
      · exact Or.inl (List.mem_cons_self _ _)
      · rcases ih m hm' with h | ⟨lvl₀, h₀, hp₀, hm₀⟩
        · exact Or.inl (List.mem_cons_of_mem _ h)
        · exact Or.inr ⟨lvl₀, List.mem_cons_of_mem _ h₀, hp₀, hm₀⟩

theorem appendAtPrice_pairwise (o : Order) (b : Bool) (ls : List PriceLevel)
    (hpw : ls.Pairwise (fun a c => levelBefore b a.price c.price = true)) :
    (appendAtPrice o ls).Pairwise (fun a c => levelBefore b a.price c.price = true) := by
  induction ls with
  | nil => simp [appendAtPrice]
  | cons a as ih =>
    unfold appendAtPrice
    split_ifs with ha
    · refine List.pairwise_cons.2 ⟨?_, (List.pairwise_cons.1 hpw).2⟩
      intro m hm
      exact (List.pairwise_cons.1 hpw).1 m hm
    · refine List.pairwise_cons.2 ⟨?_, ih (List.pairwise_cons.1 hpw).2⟩
      intro m hm
      rcases appendAtPrice_mem o as m hm with hm' | ⟨lvl₀, h₀, _, rfl⟩
      · exact (List.pairwise_cons.1 hpw).1 m hm'
      · exact (List.pairwise_cons.1 hpw).1 lvl₀ h₀

end Arbitrax

namespace Arbitrax

theorem AddOrder_HeapWF (h : PriceLevelHeap) (o : Order) (hwf : HeapWF h)
    (hrem : 0 < o.RemainingQuantity) : HeapWF (h.AddOrder o) := by
  obtain ⟨hpw, hlv⟩ := hwf
  unfold PriceLevelHeap.AddOrder
  split_ifs with hany
  · refine ⟨appendAtPrice_pairwise o h.isBid h.levels hpw, ?_⟩
    intro lvl hmem
    rcases appendAtPrice_mem o h.levels lvl hmem with hm | ⟨lvl₀, h₀, hp₀, rfl⟩
    · exact hlv lvl hm
    · obtain ⟨hne, hord⟩ := hlv lvl₀ h₀
      refine ⟨by simp, ?_⟩
      intro o' ho'
      rcases List.mem_append.1 ho' with ho₁ | ho₂
      · exact hord o' ho₁
      · rcases List.mem_singleton.1 ho₂ with rfl
        exact ⟨hp₀.symm, hrem⟩
  · have hfresh : ∀ m ∈ h.levels, ({ price := o.price, orders := [o] } : PriceLevel).price ≠ m.price := by
      intro m hm heq
      apply hany
      rw [List.any_eq_true]
      exact ⟨m, hm, by rw [beq_iff_eq]; exact heq.symm⟩
    refine ⟨insertLevel_pairwise h.isBid _ h.levels hpw hfresh, ?_⟩
    intro lvl hmem
    rcases insertLevel_mem h.isBid _ h.levels lvl hmem with rfl | hm
    · exact ⟨by simp, by intro o' ho'; rcases List.mem_singleton.1 ho' with rfl; exact ⟨rfl, hrem⟩⟩
    · exact hlv lvl hm

theorem insertLevel_head (b : Bool) (l : PriceLevel) (ls : List PriceLevel) :
    ∀ m, (insertLevel b l ls).head? = some m → m = l ∨ ls.head? = some m := by
  cases ls with
  | nil => intro m hm; simp [insertLevel] at hm; exact Or.inl hm.symm
  | cons a as =>
    intro m hm
    unfold insertLevel at hm
    split_ifs at hm
    · exact Or.inl (Option.some.inj hm).symm
    · exact Or.inr hm

theorem appendAtPrice_head (o : Order) (ls : List PriceLevel) :
    ∀ m, (appendAtPrice o ls).head? = some m →
      ∃ l₀, ls.head? = some l₀ ∧ m.price = l₀.price := by
  cases ls with
  | nil => intro m hm; simp [appendAtPrice] at hm
  | cons a as =>
    intro m hm
    unfold appendAtPrice at hm
    split_ifs at hm
    · exact ⟨a, rfl, by rw [← Option.some.inj hm]⟩
    · exact ⟨a, rfl, by rw [← Option.some.inj hm]⟩

/-- The head price of a side after `AddOrder` is the new order's price or the
old head's price. -/
theorem AddOrder_head (h : PriceLevelHeap) (o : Order) :
    ∀ m, (h.AddOrder o).levels.head? = some m →
      m.price = o.price ∨ ∃ l₀, h.levels.head? = some l₀ ∧ m.price = l₀.price := by
  intro m hm
  unfold PriceLevelHeap.AddOrder at hm
  split_ifs at hm with hany
  · exact Or.inr (appendAtPrice_head o h.levels m hm)
  · rcases insertLevel_head h.isBid _ h.levels m hm with rfl | hm'
    · exact Or.inl rfl
    · exact Or.inr ⟨m, hm', rfl⟩

/-- `AddOrder` always leaves the side non-empty. -/
theorem AddOrder_ne_nil (h : PriceLevelHeap) (o : Order) :
    (h.AddOrder o).levels ≠ [] := by
  unfold PriceLevelHeap.AddOrder
  split_ifs with hany
  · intro hcon
    cases hlv : h.levels with
    | nil => rw [hlv] at hany; simp at hany
    | cons a as =>
      rw [hlv] at hcon
      unfold appendAtPrice at hcon
      split_ifs at hcon <;> simp at hcon
  · intro hcon
    cases hlv : h.levels with
    | nil => rw [hlv] at hcon; simp [insertLevel] at hcon
    | cons a as =>
      rw [hlv] at hcon
      unfold insertLevel at hcon
      split_ifs at hcon <;> simp at hcon

end Arbitrax

namespace Arbitrax

/-! ### Queue and level preservation through the matching loops -/

/-- The level invariant survives the inner loop: orders left in the queue are
still priced at the level and still have positive remaining quantity (a fully
filled head is removed; a partially filled head stays with its remainder). -/
theorem matchAtLevel_queue_wf (now : Nat) (q : List Order) (x : Order)
    (idx : List (Nat × Order)) (lp : ℚ) (lt : Option Trade) (P : ℚ)
    (hq : ∀ o ∈ q, o.price = P ∧ 0 < o.RemainingQuantity) :
    ∀ o' ∈ (matchAtLevel now x q idx lp lt []).queue,
      o'.price = P ∧ 0 < o'.RemainingQuantity := by
  induction q generalizing x idx lp lt with
  | nil => rw [matchAtLevel_nil]; intro o' ho'; simp at ho'
  | cons r rest ih =>
    by_cases h1 : 0 < x.RemainingQuantity
    case neg =>
      rw [matchAtLevel_cons_stop now x r rest idx lp lt [] h1]
      exact hq
    case pos =>
    by_cases hr : (restFill now x r).IsFilled = true
    case pos =>
      rw [matchAtLevel_cons_fill now x r rest idx lp lt [] h1 hr]
      rw [matchAtLevel_queue_indep]
      exact ih _ _ _ _ (fun o ho => hq o (List.mem_cons_of_mem r ho))
    case neg =>
      rw [matchAtLevel_cons_rest now x r rest idx lp lt [] h1 hr]
      intro o' ho'
      rcases List.mem_cons.1 ho' with rfl | ho''
      · constructor
        · rw [show (restFill now x r).price = r.price from Fill_price r _ _ now]
          exact (hq r (List.mem_cons_self r rest)).1
        · rw [IsFilled_iff_remaining] at hr
          simpa using lt_of_not_le (fun hle => hr (by simpa using hle))
      · exact hq o' (List.mem_cons_of_mem r ho'')

/-- If the inner loop leaves the queue non-empty, the aggressor is exhausted:
the Go outer loop's condition fails and the level stays at the top. -/
theorem matchAtLevel_queue_exhausts (now : Nat) (q : List Order) (x : Order)
    (idx : List (Nat × Order)) (lp : ℚ) (lt : Option Trade) :
    (matchAtLevel now x q idx lp lt []).queue ≠ [] →
      (matchAtLevel now x q idx lp lt []).order.RemainingQuantity ≤ 0 := by
  induction q generalizing x idx lp lt with
  | nil => rw [matchAtLevel_nil]; intro hne; simp at hne
  | cons r rest ih =>
    by_cases h1 : 0 < x.RemainingQuantity
    case neg =>
      rw [matchAtLevel_cons_stop now x r rest idx lp lt [] h1]
      intro _
      linarith [not_lt.1 h1]
    case pos =>
    by_cases hr : (restFill now x r).IsFilled = true
    case pos =>
      rw [matchAtLevel_cons_fill now x r rest idx lp lt [] h1 hr]
      rw [matchAtLevel_queue_indep, matchAtLevel_order_indep]
      exact ih _ _ _ _
    case neg =>
      rw [matchAtLevel_cons_rest now x r rest idx lp lt [] h1 hr]
      intro _
      have hlt : tradeQtyOf x r < r.RemainingQuantity := by
        rw [IsFilled_iff_remaining] at hr
        unfold restFill at hr
        rw [Fill_remaining] at hr
        have h0 := not_le.1 hr
        linarith
      have heq : tradeQtyOf x r = x.RemainingQuantity := by
        rcases min_eq_fst_or_snd x.RemainingQuantity r.RemainingQuantity with h | h
        · exact h
        · exfalso; unfold tradeQtyOf at hlt; rw [h] at hlt; exact absurd hlt (lt_irrefl _)
      have : (aggFill now x r).RemainingQuantity = 0 := by
        unfold aggFill
        rw [Fill_remaining, heq]
        ring
      rw [this]

end Arbitrax

namespace Arbitrax

theorem matchLimitLoop_levels_wf (now : Nat) (levels : List PriceLevel) (x : Order)
    (idx : List (Nat × Order)) (lp : ℚ) (lt : Option Trade)
    (hw : ∀ lvl ∈ levels, LevelWF lvl) :
    ∀ lvl' ∈ (matchLimitLoop now x levels idx lp lt []).levels, LevelWF lvl' := by
  induction levels generalizing x idx lp lt with
  | nil => rw [matchLimitLoop_nil]; intro lvl' h; simp at h
  | cons lvl rest ih =>
    by_cases h1 : 0 < x.RemainingQuantity
    case neg => rw [matchLimitLoop_cons_stop now x lvl rest idx lp lt [] h1]; exact hw
    case pos =>
    by_cases he : lvl.orders.isEmpty = true
    case pos => rw [matchLimitLoop_cons_empty now x lvl rest idx lp lt [] h1 he]; exact hw
    case neg =>
    by_cases hb : x.side = OrderSide.buy ∧ x.price < lvl.price
    case pos => rw [matchLimitLoop_cons_priceBuy now x lvl rest idx lp lt [] h1 he hb]; exact hw
    case neg =>
    by_cases hs : x.side = OrderSide.sell ∧ lvl.price < x.price
    case pos =>
      rw [matchLimitLoop_cons_priceSell now x lvl rest idx lp lt [] h1 he hb hs]; exact hw
    case neg =>
    by_cases hq : (matchAtLevel now x lvl.orders idx lp lt ([] : List Trade)).queue.isEmpty = true
    case pos =>
      rw [matchLimitLoop_cons_pop now x lvl rest idx lp lt [] h1 he hb hs hq,
        matchLimitLoop_levels_indep]
      exact ih _ _ _ _ (fun l hl => hw l (List.mem_cons_of_mem lvl hl))
    case neg =>
      rw [matchLimitLoop_cons_stay now x lvl rest idx lp lt [] h1 he hb hs hq]
      intro lvl' hmem
      rcases List.mem_cons.1 hmem with rfl | hmem'
      · constructor
        · intro hcon
          apply hq
          rw [List.isEmpty_iff]
          exact hcon
        · exact matchAtLevel_queue_wf now lvl.orders x idx lp lt lvl.price
            (hw lvl (List.mem_cons_self lvl rest)).2
      · exact hw lvl' (List.mem_cons_of_mem lvl hmem')

theorem matchLimitLoop_levels_pairwise (now : Nat) (levels : List PriceLevel) (x : Order)
    (idx : List (Nat × Order)) (lp : ℚ) (lt : Option Trade) (b : Bool)
    (hpw : levels.Pairwise (fun a c => levelBefore b a.price c.price = true)) :
    (matchLimitLoop now x levels idx lp lt []).levels.Pairwise
      (fun a c => levelBefore b a.price c.price = true) := by
  induction levels generalizing x idx lp lt with
  | nil => rw [matchLimitLoop_nil]; exact List.Pairwise.nil
  | cons lvl rest ih =>
    by_cases h1 : 0 < x.RemainingQuantity
    case neg => rw [matchLimitLoop_cons_stop now x lvl rest idx lp lt [] h1]; exact hpw
    case pos =>
    by_cases he : lvl.orders.isEmpty = true
    case pos => rw [matchLimitLoop_cons_empty now x lvl rest idx lp lt [] h1 he]; exact hpw
    case neg =>
    by_cases hb : x.side = OrderSide.buy ∧ x.price < lvl.price
    case pos => rw [matchLimitLoop_cons_priceBuy now x lvl rest idx lp lt [] h1 he hb]; exact hpw
    case neg =>
    by_cases hs : x.side = OrderSide.sell ∧ lvl.price < x.price
    case pos =>
      rw [matchLimitLoop_cons_priceSell now x lvl rest idx lp lt [] h1 he hb hs]; exact hpw
    case neg =>
    by_cases hq : (matchAtLevel now x lvl.orders idx lp lt ([] : List Trade)).queue.isEmpty = true
    case pos =>
      rw [matchLimitLoop_cons_pop now x lvl rest idx lp lt [] h1 he hb hs hq,
        matchLimitLoop_levels_indep]
      exact ih _ _ _ _ (List.pairwise_cons.1 hpw).2
    case neg =>
      rw [matchLimitLoop_cons_stay now x lvl rest idx lp lt [] h1 he hb hs hq]
      refine List.pairwise_cons.2 ⟨?_, (List.pairwise_cons.1 hpw).2⟩
      intro m hm
      exact (List.pairwise_cons.1 hpw).1 m hm

theorem matchLimitLoop_levels_mem_price (now : Nat) (levels : List PriceLevel) (x : Order)
    (idx : List (Nat × Order)) (lp : ℚ) (lt : Option Trade) :
    ∀ lvl' ∈ (matchLimitLoop now x levels idx lp lt []).levels,
      ∃ lvl ∈ levels, lvl'.price = lvl.price := by
  induction levels generalizing x idx lp lt with
  | nil => rw [matchLimitLoop_nil]; intro lvl' h; simp at h
  | cons lvl rest ih =>
    by_cases h1 : 0 < x.RemainingQuantity
    case neg =>
      rw [matchLimitLoop_cons_stop now x lvl rest idx lp lt [] h1]
      exact fun lvl' h => ⟨lvl', h, rfl⟩
    case pos =>
    by_cases he : lvl.orders.isEmpty = true
    case pos =>
      rw [matchLimitLoop_cons_empty now x lvl rest idx lp lt [] h1 he]
      exact fun lvl' h => ⟨lvl', h, rfl⟩
    case neg =>
    by_cases hb : x.side = OrderSide.buy ∧ x.price < lvl.price
    case pos =>
      rw [matchLimitLoop_cons_priceBuy now x lvl rest idx lp lt [] h1 he hb]
      exact fun lvl' h => ⟨lvl', h, rfl⟩
    case neg =>
    by_cases hs : x.side = OrderSide.sell ∧ lvl.price < x.price
    case pos =>
      rw [matchLimitLoop_cons_priceSell now x lvl rest idx lp lt [] h1 he hb hs]
      exact fun lvl' h => ⟨lvl', h, rfl⟩
    case neg =>
    by_cases hq : (matchAtLevel now x lvl.orders idx lp lt ([] : List Trade)).queue.isEmpty = true
    case pos =>
      rw [matchLimitLoop_cons_pop now x lvl rest idx lp lt [] h1 he hb hs hq,
        matchLimitLoop_levels_indep]
      intro lvl' h
      rcases ih _ _ _ _ lvl' h with ⟨l, hl, hp⟩
      exact ⟨l, List.mem_cons_of_mem lvl hl, hp⟩
    case neg =>
      rw [matchLimitLoop_cons_stay now x lvl rest idx lp lt [] h1 he hb hs hq]
      intro lvl' h
      rcases List.mem_cons.1 h with rfl | h'
      · exact ⟨lvl, List.mem_cons_self lvl rest, rfl⟩
      · exact ⟨lvl', List.mem_cons_of_mem lvl h', rfl⟩

theorem matchLimitLoop_exit (now : Nat) (levels : List PriceLevel) (x : Order)
    (idx : List (Nat × Order)) (lp : ℚ) (lt : Option Trade)
    (hw : ∀ lvl ∈ levels, LevelWF lvl)
    (hrem : 0 < (matchLimitLoop now x levels idx lp lt []).order.RemainingQuantity) :
    (matchLimitLoop now x levels idx lp lt []).levels = [] ∨
      ∃ lvl', (matchLimitLoop now x levels idx lp lt []).levels.head? = some lvl' ∧
        ((x.side = OrderSide.buy ∧ x.price < lvl'.price) ∨
          (x.side = OrderSide.sell ∧ lvl'.price < x.price)) := by
  induction levels generalizing x idx lp lt with
  | nil => rw [matchLimitLoop_nil]; exact Or.inl rfl
  | cons lvl rest ih =>
    by_cases h1 : 0 < x.RemainingQuantity
    case neg =>
      rw [matchLimitLoop_cons_stop now x lvl rest idx lp lt [] h1] at hrem
      exact absurd hrem h1
    case pos =>
    by_cases he : lvl.orders.isEmpty = true
    case pos =>
      exfalso
      exact (hw lvl (List.mem_cons_self lvl rest)).1 (List.isEmpty_iff.1 he)
    case neg =>
    by_cases hb : x.side = OrderSide.buy ∧ x.price < lvl.price
    case pos =>
      rw [matchLimitLoop_cons_priceBuy now x lvl rest idx lp lt [] h1 he hb]
      exact Or.inr ⟨lvl, rfl, Or.inl hb⟩
    case neg =>
    by_cases hs : x.side = OrderSide.sell ∧ lvl.price < x.price
    case pos =>
      rw [matchLimitLoop_cons_priceSell now x lvl rest idx lp lt [] h1 he hb hs]
      exact Or.inr ⟨lvl, rfl, Or.inr hs⟩
    case neg =>
    by_cases hq : (matchAtLevel now x lvl.orders idx lp lt ([] : List Trade)).queue.isEmpty = true
    case pos =>
      rw [matchLimitLoop_cons_pop now x lvl rest idx lp lt [] h1 he hb hs hq] at hrem ⊢
      rw [matchLimitLoop_levels_indep]
      rw [matchLimitLoop_order_indep] at hrem
      have hss := matchAtLevel_sameStatic now lvl.orders x idx lp lt ([] : List Trade)
      have hside := hss.2.2.2.1
      have hprice := hss.2.2.2.2.2
      rcases ih ((matchAtLevel now x lvl.orders idx lp lt []).order) _ _ _
        (fun l hl => hw l (List.mem_cons_of_mem lvl hl)) hrem with hnil | ⟨lvl', hh, hc⟩
      · exact Or.inl hnil
      · rw [hside, hprice] at hc
        exact Or.inr ⟨lvl', hh, hc⟩
    case neg =>
      exfalso
      rw [matchLimitLoop_cons_stay now x lvl rest idx lp lt [] h1 he hb hs hq] at hrem
      have hne : (matchAtLevel now x lvl.orders idx lp lt ([] : List Trade)).queue ≠ [] := by
        intro hcon
        apply hq
        rw [List.isEmpty_iff]
        exact hcon
      have := matchAtLevel_queue_exhausts now lvl.orders x idx lp lt hne
      dsimp only at hrem
      linarith

end Arbitrax

namespace Arbitrax

theorem matchMarketLoop_levels_wf (now : Nat) (levels : List PriceLevel) (x : Order)
    (idx : List (Nat × Order)) (lp : ℚ) (lt : Option Trade)
    (hw : ∀ lvl ∈ levels, LevelWF lvl) :
    ∀ lvl' ∈ (matchMarketLoop now x levels idx lp lt []).levels, LevelWF lvl' := by
  induction levels generalizing x idx lp lt with
  | nil => rw [matchMarketLoop_nil]; intro lvl' h; simp at h
  | cons lvl rest ih =>
    by_cases h1 : 0 < x.RemainingQuantity
    case neg => rw [matchMarketLoop_cons_stop now x lvl rest idx lp lt [] h1]; exact hw
    case pos =>
    by_cases he : lvl.orders.isEmpty = true
    case pos =>
      rw [matchMarketLoop_cons_empty now x lvl rest idx lp lt [] h1 he]
      exact ih _ _ _ _ (fun l hl => hw l (List.mem_cons_of_mem lvl hl))
    case neg =>
    by_cases hq : (matchAtLevel now x lvl.orders idx lp lt ([] : List Trade)).queue.isEmpty = true
    case pos =>
      rw [matchMarketLoop_cons_pop now x lvl rest idx lp lt [] h1 he hq]
      rw [show (matchMarketLoop now (matchAtLevel now x lvl.orders idx lp lt []).order rest
          (matchAtLevel now x lvl.orders idx lp lt []).index
          (matchAtLevel now x lvl.orders idx lp lt []).lastPrice
          (matchAtLevel now x lvl.orders idx lp lt []).lastTrade
          (matchAtLevel now x lvl.orders idx lp lt []).trades).levels =
        (matchMarketLoop now (matchAtLevel now x lvl.orders idx lp lt []).order rest
          (matchAtLevel now x lvl.orders idx lp lt []).index
          (matchAtLevel now x lvl.orders idx lp lt []).lastPrice
          (matchAtLevel now x lvl.orders idx lp lt []).lastTrade []).levels from by
        rw [matchMarketLoop_accum]]
      exact ih _ _ _ _ (fun l hl => hw l (List.mem_cons_of_mem lvl hl))
    case neg =>
      rw [matchMarketLoop_cons_stay now x lvl rest idx lp lt [] h1 he hq]
      intro lvl' hmem
      rcases List.mem_cons.1 hmem with rfl | hmem'
      · constructor
        · intro hcon
          apply hq
          rw [List.isEmpty_iff]
          exact hcon
        · exact matchAtLevel_queue_wf now lvl.orders x idx lp lt lvl.price
            (hw lvl (List.mem_cons_self lvl rest)).2
      · exact hw lvl' (List.mem_cons_of_mem lvl hmem')

theorem matchMarketLoop_levels_pairwise (now : Nat) (levels : List PriceLevel) (x : Order)
    (idx : List (Nat × Order)) (lp : ℚ) (lt : Option Trade) (b : Bool)
    (hpw : levels.Pairwise (fun a c => levelBefore b a.price c.price = true)) :
    (matchMarketLoop now x levels idx lp lt []).levels.Pairwise
      (fun a c => levelBefore b a.price c.price = true) := by
  induction levels generalizing x idx lp lt with
  | nil => rw [matchMarketLoop_nil]; exact List.Pairwise.nil
  | cons lvl rest ih =>
    by_cases h1 : 0 < x.RemainingQuantity
    case neg => rw [matchMarketLoop_cons_stop now x lvl rest idx lp lt [] h1]; exact hpw
    case pos =>
    by_cases he : lvl.orders.isEmpty = true
    case pos =>
      rw [matchMarketLoop_cons_empty now x lvl rest idx lp lt [] h1 he]
      exact ih _ _ _ _ (List.pairwise_cons.1 hpw).2
    case neg =>
    by_cases hq : (matchAtLevel now x lvl.orders idx lp lt ([] : List Trade)).queue.isEmpty = true
    case pos =>
      rw [matchMarketLoop_cons_pop now x lvl rest idx lp lt [] h1 he hq]
      rw [show (matchMarketLoop now (matchAtLevel now x lvl.orders idx lp lt []).order rest
          (matchAtLevel now x lvl.orders idx lp lt []).index
          (matchAtLevel now x lvl.orders idx lp lt []).lastPrice
          (matchAtLevel now x lvl.orders idx lp lt []).lastTrade
          (matchAtLevel now x lvl.orders idx lp lt []).trades).levels =
        (matchMarketLoop now (matchAtLevel now x lvl.orders idx lp lt []).order rest
          (matchAtLevel now x lvl.orders idx lp lt []).index
          (matchAtLevel now x lvl.orders idx lp lt []).lastPrice
          (matchAtLevel now x lvl.orders idx lp lt []).lastTrade []).levels from by
        rw [matchMarketLoop_accum]]
      exact ih _ _ _ _ (List.pairwise_cons.1 hpw).2
    case neg =>
      rw [matchMarketLoop_cons_stay now x lvl rest idx lp lt [] h1 he hq]
      refine List.pairwise_cons.2 ⟨?_, (List.pairwise_cons.1 hpw).2⟩
      intro m hm
      exact (List.pairwise_cons.1 hpw).1 m hm

theorem matchMarketLoop_levels_mem_price (now : Nat) (levels : List PriceLevel) (x : Order)
    (idx : List (Nat × Order)) (lp : ℚ) (lt : Option Trade) :
    ∀ lvl' ∈ (matchMarketLoop now x levels idx lp lt []).levels,
      ∃ lvl ∈ levels, lvl'.price = lvl.price := by
  induction levels generalizing x idx lp lt with
  | nil => rw [matchMarketLoop_nil]; intro lvl' h; simp at h
  | cons lvl rest ih =>
    by_cases h1 : 0 < x.RemainingQuantity
    case neg =>
      rw [matchMarketLoop_cons_stop now x lvl rest idx lp lt [] h1]
      exact fun lvl' h => ⟨lvl', h, rfl⟩
    case pos =>
    by_cases he : lvl.orders.isEmpty = true
    case pos =>
      rw [matchMarketLoop_cons_empty now x lvl rest idx lp lt [] h1 he]
      intro lvl' h
      rcases ih _ _ _ _ lvl' h with ⟨l, hl, hp⟩
      exact ⟨l, List.mem_cons_of_mem lvl hl, hp⟩
    case neg =>
    by_cases hq : (matchAtLevel now x lvl.orders idx lp lt ([] : List Trade)).queue.isEmpty = true
    case pos =>
      rw [matchMarketLoop_cons_pop now x lvl rest idx lp lt [] h1 he hq]
      rw [show (matchMarketLoop now (matchAtLevel now x lvl.orders idx lp lt []).order rest
          (matchAtLevel now x lvl.orders idx lp lt []).index
          (matchAtLevel now x lvl.orders idx lp lt []).lastPrice
          (matchAtLevel now x lvl.orders idx lp lt []).lastTrade
          (matchAtLevel now x lvl.orders idx lp lt []).trades).levels =
        (matchMarketLoop now (matchAtLevel now x lvl.orders idx lp lt []).order rest
          (matchAtLevel now x lvl.orders idx lp lt []).index
          (matchAtLevel now x lvl.orders idx lp lt []).lastPrice
          (matchAtLevel now x lvl.orders idx lp lt []).lastTrade []).levels from by
        rw [matchMarketLoop_accum]]
      intro lvl' h
      rcases ih _ _ _ _ lvl' h with ⟨l, hl, hp⟩
      exact ⟨l, List.mem_cons_of_mem lvl hl, hp⟩
    case neg =>
      rw [matchMarketLoop_cons_stay now x lvl rest idx lp lt [] h1 he hq]
      intro lvl' h
      rcases List.mem_cons.1 h with rfl | h'
      · exact ⟨lvl, List.mem_cons_self lvl rest, rfl⟩
      · exact ⟨lvl', List.mem_cons_of_mem lvl h', rfl⟩

end Arbitrax

namespace Arbitrax

theorem levelBefore_false_iff (p q : ℚ) : levelBefore false p q = true ↔ p < q := by
  simp [levelBefore]

theorem levelBefore_true_iff (p q : ℚ) : levelBefore true p q = true ↔ q < p := by
  simp [levelBefore]

/-- In an ask-sorted level list the head has the least price. -/
theorem asks_head_le (levels : List PriceLevel)
    (hpw : levels.Pairwise (fun a c => levelBefore false a.price c.price = true))
    (h0 : PriceLevel) (hh : levels.head? = some h0) :
    ∀ m ∈ levels, h0.price ≤ m.price := by
  cases levels with
  | nil => simp at hh
  | cons a as =>
    obtain rfl : a = h0 := Option.some.inj hh
    intro m hm
    rcases List.mem_cons.1 hm with rfl | hm'
    · exact le_refl _
    · exact le_of_lt ((levelBefore_false_iff _ _).1 ((List.pairwise_cons.1 hpw).1 m hm'))

/-- In a bid-sorted level list the head has the greatest price. -/
theorem bids_head_ge (levels : List PriceLevel)
    (hpw : levels.Pairwise (fun a c => levelBefore true a.price c.price = true))
    (h0 : PriceLevel) (hh : levels.head? = some h0) :
    ∀ m ∈ levels, m.price ≤ h0.price := by
  cases levels with
  | nil => simp at hh
  | cons a as =>
    obtain rfl : a = h0 := Option.some.inj hh
    intro m hm
    rcases List.mem_cons.1 hm with rfl | hm'
    · exact le_refl _
    · exact le_of_lt ((levelBefore_true_iff _ _).1 ((List.pairwise_cons.1 hpw).1 m hm'))

/-- A non-empty result level list has a head that carries the price of some
original level (matching only consumes levels and orders). -/
theorem head_price_from (levels' levels : List PriceLevel)
    (hsub : ∀ lvl' ∈ levels', ∃ lvl ∈ levels, lvl'.price = lvl.price)
    (h0 : PriceLevel) (hh : levels'.head? = some h0) :
    ∃ lvl ∈ levels, h0.price = lvl.price := by
  cases levels' with
  | nil => simp at hh
  | cons a as =>
    obtain rfl : a = h0 := Option.some.inj hh
    exact hsub _ (List.mem_cons_self _ _)

theorem matchMarketOrder_BookWF (now : Nat) (ob : OrderBook) (x : Order)
    (hwf : BookWF ob) : BookWF (matchMarketOrder now ob x).book := by
  obtain ⟨hbid, hask, ⟨hbpw, hblv⟩, ⟨hapw, halv⟩, hnc⟩ := hwf
  unfold matchMarketOrder applyLoop
  dsimp only
  by_cases hside : x.side = OrderSide.buy
  case pos =>
    rw [if_pos hside, if_pos hside]
    refine ⟨hbid, hask, ⟨hbpw, hblv⟩, ⟨?_, ?_⟩, ?_⟩
    · rw [hask] at hapw ⊢
      exact matchMarketLoop_levels_pairwise now ob.Asks.levels x ob.orders
        ob.LastPrice ob.LastTrade false hapw
    · exact matchMarketLoop_levels_wf now ob.Asks.levels x ob.orders
        ob.LastPrice ob.LastTrade halv
    · intro b hb a ha
      rw [Option.mem_def] at hb ha
      rcases head_price_from _ ob.Asks.levels
        (matchMarketLoop_levels_mem_price now ob.Asks.levels x ob.orders
          ob.LastPrice ob.LastTrade) a ha with ⟨lvl, hlvl, hpa⟩
      cases hoa : ob.Asks.levels.head? with
      | none =>
        rw [List.head?_eq_none_iff] at hoa
        rw [hoa] at hlvl
        simp at hlvl
      | some a0 =>
        have h1 : b.price < a0.price := hnc b (Option.mem_def.2 hb) a0 (Option.mem_def.2 hoa)
        have h2 : a0.price ≤ lvl.price := by
          apply asks_head_le ob.Asks.levels _ a0 hoa lvl hlvl
          rw [hask] at hapw
          exact hapw
        rw [hpa]
        linarith
  case neg =>
    rw [if_neg hside, if_neg hside]
    refine ⟨hbid, hask, ⟨?_, ?_⟩, ⟨hapw, halv⟩, ?_⟩
    · rw [hbid] at hbpw ⊢
      exact matchMarketLoop_levels_pairwise now ob.Bids.levels x ob.orders
        ob.LastPrice ob.LastTrade true hbpw
    · exact matchMarketLoop_levels_wf now ob.Bids.levels x ob.orders
        ob.LastPrice ob.LastTrade hblv
    · intro b hb a ha
      rw [Option.mem_def] at hb ha
      rcases head_price_from _ ob.Bids.levels
        (matchMarketLoop_levels_mem_price now ob.Bids.levels x ob.orders
          ob.LastPrice ob.LastTrade) b hb with ⟨lvl, hlvl, hpb⟩
      cases hob : ob.Bids.levels.head? with
      | none =>
        rw [List.head?_eq_none_iff] at hob
        rw [hob] at hlvl
        simp at hlvl
      | some b0 =>
        have h1 : b0.price < a.price := hnc b0 (Option.mem_def.2 hob) a (Option.mem_def.2 ha)
        have h2 : lvl.price ≤ b0.price := by
          apply bids_head_ge ob.Bids.levels _ b0 hob lvl hlvl
          rw [hbid] at hbpw
          exact hbpw
        rw [hpb]
        linarith

end Arbitrax

namespace Arbitrax

theorem AddOrder_isBid (h : PriceLevelHeap) (o : Order) :
    (h.AddOrder o).isBid = h.isBid := by
  unfold PriceLevelHeap.AddOrder
  split_ifs <;> rfl

theorem matchLimitOrder_BookWF (now : Nat) (ob : OrderBook) (x : Order)
    (hwf : BookWF ob) : BookWF (matchLimitOrder now ob x).book := by
  obtain ⟨hbid, hask, ⟨hbpw, hblv⟩, ⟨hapw, halv⟩, hnc⟩ := hwf
  by_cases hside : x.side = OrderSide.buy
  case pos =>
    unfold matchLimitOrder applyLoop
    dsimp only
    rw [if_pos hside, if_pos hside]
    have hmside : (matchLimitLoop now x ob.Asks.levels ob.orders ob.LastPrice
        ob.LastTrade []).order.side = OrderSide.buy := by
      rw [(matchLimitLoop_sameStatic now ob.Asks.levels x ob.orders ob.LastPrice
        ob.LastTrade []).2.2.2.1]
      exact hside
    have hmprice : (matchLimitLoop now x ob.Asks.levels ob.orders ob.LastPrice
        ob.LastTrade []).order.price = x.price :=
      (matchLimitLoop_sameStatic now ob.Asks.levels x ob.orders ob.LastPrice
        ob.LastTrade []).2.2.2.2.2
    have haskWF : HeapWF { ob.Asks with
        levels := (matchLimitLoop now x ob.Asks.levels ob.orders ob.LastPrice
          ob.LastTrade []).levels } := by
      constructor
      · show ((matchLimitLoop now x ob.Asks.levels ob.orders ob.LastPrice
          ob.LastTrade []).levels).Pairwise _
        rw [show ({ ob.Asks with levels := (matchLimitLoop now x ob.Asks.levels ob.orders
          ob.LastPrice ob.LastTrade []).levels } : PriceLevelHeap).isBid = false from hask]
        rw [hask] at hapw
        exact matchLimitLoop_levels_pairwise now ob.Asks.levels x ob.orders
          ob.LastPrice ob.LastTrade false hapw
      · exact matchLimitLoop_levels_wf now ob.Asks.levels x ob.orders
          ob.LastPrice ob.LastTrade halv
    have haskHead : ∀ a, a ∈ ((matchLimitLoop now x ob.Asks.levels ob.orders ob.LastPrice
        ob.LastTrade []).levels).head? → ∃ a0 ∈ ob.Asks.levels.head?, a0.price ≤ a.price := by
      intro a ha
      rw [Option.mem_def] at ha
      rcases head_price_from _ ob.Asks.levels
        (matchLimitLoop_levels_mem_price now ob.Asks.levels x ob.orders
          ob.LastPrice ob.LastTrade) a ha with ⟨lvl, hlvl, hpa⟩
      cases hoa : ob.Asks.levels.head? with
      | none =>
        rw [List.head?_eq_none_iff] at hoa
        rw [hoa] at hlvl
        simp at hlvl
      | some a0 =>
        refine ⟨a0, Option.mem_def.2 rfl, ?_⟩
        have h2 : a0.price ≤ lvl.price := by
          apply asks_head_le ob.Asks.levels _ a0 hoa lvl hlvl
          rw [hask] at hapw
          exact hapw
        rw [hpa]
        exact h2
    by_cases hrem : 0 < (matchLimitLoop now x ob.Asks.levels ob.orders ob.LastPrice
        ob.LastTrade []).order.RemainingQuantity
    case neg =>
      rw [if_neg hrem]
      refine ⟨hbid, hask, ⟨hbpw, hblv⟩, haskWF, ?_⟩
      intro b hb a ha
      rcases haskHead a ha with ⟨a0, ha0, hle⟩
      have h1 : b.price < a0.price := hnc b hb a0 ha0
      linarith
    case pos =>
      rw [if_pos hrem]
      unfold OrderBook.AddOrder
      dsimp only
      rw [if_pos hmside]
      refine ⟨?_, hask, ?_, haskWF, ?_⟩
      · rw [AddOrder_isBid]
        exact hbid
      · exact AddOrder_HeapWF ob.Bids _ ⟨hbpw, hblv⟩ hrem
      · intro b hb a ha
        have hexit := matchLimitLoop_exit now ob.Asks.levels x ob.orders ob.LastPrice
          ob.LastTrade halv hrem
        rw [Option.mem_def] at ha
        rcases hexit with hnil | ⟨lvl', hh, hcond⟩
        · rw [hnil] at ha
          simp at ha
        · rw [hh] at ha
          have hae : lvl' = a := Option.some.inj ha
          rw [← hae]
          have hxa : x.price < lvl'.price := by
            rcases hcond with ⟨_, h⟩ | ⟨hcon, _⟩
            · exact h
            · rw [hside] at hcon
              exact absurd hcon.symm (by intro h; exact OrderSide.noConfusion h)
          rcases AddOrder_head ob.Bids _ b (Option.mem_def.1 hb) with hbp | ⟨b0, hb0, hbp⟩
          · rw [hbp, hmprice]
            exact hxa
          · have h1 : b0.price < lvl'.price := by
              rcases haskHead lvl' (Option.mem_def.2 hh) with ⟨a0, ha0, hle⟩
              have := hnc b0 (Option.mem_def.2 hb0) a0 ha0
              linarith
            rw [hbp]
            exact h1
  case neg =>
    unfold matchLimitOrder applyLoop
    dsimp only
    rw [if_neg hside, if_neg hside]
    have hmside : ¬ (matchLimitLoop now x ob.Bids.levels ob.orders ob.LastPrice
        ob.LastTrade []).order.side = OrderSide.buy := by
      rw [(matchLimitLoop_sameStatic now ob.Bids.levels x ob.orders ob.LastPrice
        ob.LastTrade []).2.2.2.1]
      exact hside
    have hmprice : (matchLimitLoop now x ob.Bids.levels ob.orders ob.LastPrice
        ob.LastTrade []).order.price = x.price :=
      (matchLimitLoop_sameStatic now ob.Bids.levels x ob.orders ob.LastPrice
        ob.LastTrade []).2.2.2.2.2
    have hxsell : x.side = OrderSide.sell := by
      cases hx : x.side
      · exact absurd hx hside
      · rfl
    have hbidWF : HeapWF { ob.Bids with
        levels := (matchLimitLoop now x ob.Bids.levels ob.orders ob.LastPrice
          ob.LastTrade []).levels } := by
      constructor
      · show ((matchLimitLoop now x ob.Bids.levels ob.orders ob.LastPrice
          ob.LastTrade []).levels).Pairwise _
        rw [show ({ ob.Bids with levels := (matchLimitLoop now x ob.Bids.levels ob.orders
          ob.LastPrice ob.LastTrade []).levels } : PriceLevelHeap).isBid = true from hbid]
        rw [hbid] at hbpw
        exact matchLimitLoop_levels_pairwise now ob.Bids.levels x ob.orders
          ob.LastPrice ob.LastTrade true hbpw
      · exact matchLimitLoop_levels_wf now ob.Bids.levels x ob.orders
          ob.LastPrice ob.LastTrade hblv
    have hbidHead : ∀ b, b ∈ ((matchLimitLoop now x ob.Bids.levels ob.orders ob.LastPrice
        ob.LastTrade []).levels).head? → ∃ b0 ∈ ob.Bids.levels.head?, b.price ≤ b0.price := by
      intro b hb
      rw [Option.mem_def] at hb
      rcases head_price_from _ ob.Bids.levels
        (matchLimitLoop_levels_mem_price now ob.Bids.levels x ob.orders
          ob.LastPrice ob.LastTrade) b hb with ⟨lvl, hlvl, hpb⟩
      cases hob : ob.Bids.levels.head? with
      | none =>
        rw [List.head?_eq_none_iff] at hob
        rw [hob] at hlvl
        simp at hlvl
      | some b0 =>
        refine ⟨b0, Option.mem_def.2 rfl, ?_⟩
        have h2 : lvl.price ≤ b0.price := by
          apply bids_head_ge ob.Bids.levels _ b0 hob lvl hlvl
          rw [hbid] at hbpw
          exact hbpw
        rw [hpb]
        exact h2
    by_cases hrem : 0 < (matchLimitLoop now x ob.Bids.levels ob.orders ob.LastPrice
        ob.LastTrade []).order.RemainingQuantity
    case neg =>
      rw [if_neg hrem]
      refine ⟨hbid, hask, hbidWF, ⟨hapw, halv⟩, ?_⟩
      intro b hb a ha
      rcases hbidHead b hb with ⟨b0, hb0, hle⟩
      have h1 : b0.price < a.price := hnc b0 hb0 a ha
      linarith
    case pos =>
      rw [if_pos hrem]
      unfold OrderBook.AddOrder
      dsimp only
      rw [if_neg hmside]
      refine ⟨hbid, ?_, hbidWF, ?_, ?_⟩
      · rw [AddOrder_isBid]
        exact hask
      · exact AddOrder_HeapWF ob.Asks _ ⟨hapw, halv⟩ hrem
      · intro b hb a ha
        have hexit := matchLimitLoop_exit now ob.Bids.levels x ob.orders ob.LastPrice
          ob.LastTrade hblv hrem
        rw [Option.mem_def] at hb
        rcases hexit with hnil | ⟨lvl', hh, hcond⟩
        · rw [hnil] at hb
          simp at hb
        · rw [hh] at hb
          have hbe : lvl' = b := Option.some.inj hb
          rw [← hbe]
          have hbx : lvl'.price < x.price := by
            rcases hcond with ⟨hcon, _⟩ | ⟨_, h⟩
            · exact absurd hcon hside
            · exact h
          rcases AddOrder_head ob.Asks _ a (Option.mem_def.1 ha) with hap | ⟨a0, ha0, hap⟩
          · rw [hap, hmprice]
            exact hbx
          · have h1 : lvl'.price < a0.price := by
              rcases hbidHead lvl' (Option.mem_def.2 hh) with ⟨b0, hb0, hle⟩
              have := hnc b0 hb0 a0 (Option.mem_def.2 ha0)
              linarith
            rw [hap]
            exact h1

end Arbitrax

namespace Arbitrax

/-! ### Engine-level invariant and the no-crossed-book theorem -/

/-- Every book the engine holds is well-formed. -/
def EngineWF (e : MatchingEngine) : Prop :=
  ∀ p ∈ e.orderBooks, BookWF p.2

theorem NewMatchingEngine_WF : EngineWF NewMatchingEngine := by
  intro p hp
  simp [NewMatchingEngine] at hp

theorem lookupBook_mem (m : List (Nat × OrderBook)) (sym : Nat) (ob : OrderBook)
    (h : lookupBook m sym = some ob) : (sym, ob) ∈ m := by
  induction m with
  | nil => simp [lookupBook] at h
  | cons p rest ih =>
    rw [show lookupBook (p :: rest) sym =
        (if p.1 = sym then some p.2 else lookupBook rest sym) from by
      cases p; rfl] at h
    split_ifs at h with hp
    · obtain rfl : p.2 = ob := Option.some.inj h
      rcases p with ⟨s, b⟩
      cases hp
      exact List.mem_cons_self _ _
    · exact List.mem_cons_of_mem p (ih h)

theorem setBook_mem (m : List (Nat × OrderBook)) (sym : Nat) (ob : OrderBook) :
    ∀ p ∈ setBook m sym ob, p ∈ m ∨ p = (sym, ob) := by
  induction m with
  | nil => intro p hp; simp [setBook] at hp; exact Or.inr hp
  | cons q rest ih =>
    intro p hp
    rw [show setBook (q :: rest) sym ob =
        (if q.1 = sym then (sym, ob) :: rest else q :: setBook rest sym ob) from by
      cases q; rfl] at hp
    split_ifs at hp with hq
    · rcases List.mem_cons.1 hp with rfl | hp'
      · exact Or.inr rfl
      · exact Or.inl (List.mem_cons_of_mem q hp')
    · rcases List.mem_cons.1 hp with rfl | hp'
      · exact Or.inl (List.mem_cons_self _ _)
      · rcases ih p hp' with h | h
        · exact Or.inl (List.mem_cons_of_mem q h)
        · exact Or.inr h

theorem GetOrCreateOrderBook_WF (e : MatchingEngine) (sym : Nat) (he : EngineWF e) :
    BookWF (e.GetOrCreateOrderBook sym) := by
  unfold MatchingEngine.GetOrCreateOrderBook
  cases hl : lookupBook e.orderBooks sym with
  | none => exact NewOrderBook_WF sym
  | some ob => exact he (sym, ob) (lookupBook_mem e.orderBooks sym ob hl)

theorem SubmitOrder_book_WF (now : Nat) (e : MatchingEngine) (o : Order)
    (he : EngineWF e) :
    BookWF (match o.type with
      | OrderType.market => matchMarketOrder now (e.GetOrCreateOrderBook o.symbol) o
      | OrderType.limit => matchLimitOrder now (e.GetOrCreateOrderBook o.symbol) o
      | OrderType.stopLoss =>
          matchLimitOrder now (e.GetOrCreateOrderBook o.symbol)
            { o with type := OrderType.limit }).book := by
  have hob := GetOrCreateOrderBook_WF e o.symbol he
  cases o.type with
  | market => exact matchMarketOrder_BookWF now _ o hob
  | limit => exact matchLimitOrder_BookWF now _ o hob
  | stopLoss => exact matchLimitOrder_BookWF now _ _ hob

theorem SubmitOrder_EngineWF (now : Nat) (e : MatchingEngine) (o : Order)
    (he : EngineWF e) : EngineWF (MatchingEngine.SubmitOrder now e o).1 := by
  intro p hp
  have hp' : p ∈ setBook e.orderBooks o.symbol
      (match o.type with
        | OrderType.market => matchMarketOrder now (e.GetOrCreateOrderBook o.symbol) o
        | OrderType.limit => matchLimitOrder now (e.GetOrCreateOrderBook o.symbol) o
        | OrderType.stopLoss =>
            matchLimitOrder now (e.GetOrCreateOrderBook o.symbol)
              { o with type := OrderType.limit }).book := by
    obtain ⟨oid, osym, otype, oside, oqty, oprice, ost, ofq, ofp, osub, ofat, ocat⟩ := o
    cases otype <;> exact hp
  rcases setBook_mem _ _ _ p hp' with h | h
  · exact he p h
  · rw [h]
    exact SubmitOrder_book_WF now e o he

theorem submitSeq_EngineWF (seq : List (Nat × Order)) (e : MatchingEngine)
    (he : EngineWF e) : EngineWF (submitSeq e seq) := by
  induction seq generalizing e with
  | nil => exact he
  | cons p rest ih =>
    rcases p with ⟨now, o⟩
    exact ih _ (SubmitOrder_EngineWF now e o he)

/-- C1: starting from the empty engine, run any sequence of submissions in
which every order has positive quantity and every Limit/StopLoss order has a
positive price.  After each submission (i.e. for every prefix of the
sequence), every symbol's book satisfies: whenever both sides are non-empty,
the best bid is strictly below the best ask — the book is never crossed at
rest. -/
theorem no_crossed_book_after_submits (seq : List (Nat × Order))
    (hvalid : ∀ p ∈ seq, 0 < p.2.quantity ∧
      ((p.2.type = OrderType.limit ∨ p.2.type = OrderType.stopLoss) → 0 < p.2.price))
    (k : Nat) (sym : Nat) (ob : OrderBook)
    (hob : lookupBook (submitSeq NewMatchingEngine (seq.take k)).orderBooks sym = some ob)
    (hbids : ob.Bids.levels ≠ []) (hasks : ob.Asks.levels ≠ []) :
    ob.GetBestBid < ob.GetBestAsk := by
  have hwf : BookWF ob :=
    submitSeq_EngineWF (seq.take k) NewMatchingEngine NewMatchingEngine_WF (sym, ob)
      (lookupBook_mem _ sym ob hob)
  obtain ⟨_, _, _, _, hnc⟩ := hwf
  cases hbl : ob.Bids.levels with
  | nil => exact absurd hbl hbids
  | cons b bs =>
    cases hal : ob.Asks.levels with
    | nil => exact absurd hal hasks
    | cons a as =>
      have hlt : b.price < a.price := by
        apply hnc
        · rw [Option.mem_def, hbl]; rfl
        · rw [Option.mem_def, hal]; rfl
      unfold OrderBook.GetBestBid OrderBook.GetBestAsk
      rw [hbl, hal]
      exact hlt

end Arbitrax

namespace Arbitrax

/-- Spec scenario S5: a resting sell at 152 and a buy at 150 that does not
cross; both sides end non-empty. -/
def c1SeqA : Order := NewOrder 1 7 OrderType.limit OrderSide.sell 100 152 0

def c1SeqB : Order := NewOrder 2 7 OrderType.limit OrderSide.buy 100 150 1

def c1Seq : List (Nat × Order) := [(0, c1SeqA), (1, c1SeqB)]

def c1Book : OrderBook := (submitSeq NewMatchingEngine c1Seq).GetOrCreateOrderBook 7

theorem sell_ne_buy : ¬ (OrderSide.sell = OrderSide.buy) := by
  intro h
  exact OrderSide.noConfusion h

theorem buy_ne_sell : ¬ (OrderSide.buy = OrderSide.sell) := by
  intro h
  exact OrderSide.noConfusion h

theorem no_crossed_book_after_submits_witness :
    (∀ p ∈ c1Seq, 0 < p.2.quantity ∧
      ((p.2.type = OrderType.limit ∨ p.2.type = OrderType.stopLoss) → 0 < p.2.price)) ∧
    lookupBook (submitSeq NewMatchingEngine (c1Seq.take 2)).orderBooks 7 = some c1Book ∧
    c1Book.Bids.levels ≠ [] ∧ c1Book.Asks.levels ≠ [] ∧
    c1Book.GetBestBid < c1Book.GetBestAsk := by
  have hva : ∀ p ∈ c1Seq, 0 < p.2.quantity ∧
      ((p.2.type = OrderType.limit ∨ p.2.type = OrderType.stopLoss) → 0 < p.2.price) := by
    decide
  have hlk : lookupBook (submitSeq NewMatchingEngine (c1Seq.take 2)).orderBooks 7 =
      some c1Book := by
    norm_num [c1Seq, c1SeqA, c1SeqB, c1Book, submitSeq, MatchingEngine.SubmitOrder,
      MatchingEngine.GetOrCreateOrderBook, lookupBook, setBook, matchLimitOrder,
      matchLimitLoop, matchAtLevel, matchMarketOrder, matchMarketLoop, applyLoop,
      OrderBook.AddOrder, PriceLevelHeap.AddOrder, appendAtPrice, insertLevel,
      levelBefore, setIndex, writeThrough, Order.Fill, Order.IsFilled,
      Order.RemainingQuantity, min, NewTrade, NewOrder, NewOrderBook, NewBidHeap,
      NewAskHeap, NewMatchingEngine, sell_ne_buy, buy_ne_sell]
  have hbne : c1Book.Bids.levels ≠ [] := by
    norm_num [c1Seq, c1SeqA, c1SeqB, c1Book, submitSeq, MatchingEngine.SubmitOrder,
      MatchingEngine.GetOrCreateOrderBook, lookupBook, setBook, matchLimitOrder,
      matchLimitLoop, matchAtLevel, matchMarketOrder, matchMarketLoop, applyLoop,
      OrderBook.AddOrder, PriceLevelHeap.AddOrder, appendAtPrice, insertLevel,
      levelBefore, setIndex, writeThrough, Order.Fill, Order.IsFilled,
      Order.RemainingQuantity, min, NewTrade, NewOrder, NewOrderBook, NewBidHeap,
      NewAskHeap, NewMatchingEngine, sell_ne_buy, buy_ne_sell]
  have hane : c1Book.Asks.levels ≠ [] := by
    norm_num [c1Seq, c1SeqA, c1SeqB, c1Book, submitSeq, MatchingEngine.SubmitOrder,
      MatchingEngine.GetOrCreateOrderBook, lookupBook, setBook, matchLimitOrder,
      matchLimitLoop, matchAtLevel, matchMarketOrder, matchMarketLoop, applyLoop,
      OrderBook.AddOrder, PriceLevelHeap.AddOrder, appendAtPrice, insertLevel,
      levelBefore, setIndex, writeThrough, Order.Fill, Order.IsFilled,
      Order.RemainingQuantity, min, NewTrade, NewOrder, NewOrderBook, NewBidHeap,
      NewAskHeap, NewMatchingEngine, sell_ne_buy, buy_ne_sell]
  exact ⟨hva, hlk, hbne, hane,
    no_crossed_book_after_submits c1Seq hva 2 7 c1Book hlk hbne hane⟩

end Arbitrax

namespace Arbitrax

/-! ### C4 — the aggressor's limit protects its trade prices -/

theorem matchLimitLoop_trades_le (now : Nat) (levels : List PriceLevel) (x : Order)
    (idx : List (Nat × Order)) (lp : ℚ) (lt : Option Trade)
    (hw : ∀ lvl ∈ levels, LevelWF lvl) (hbuy : x.side = OrderSide.buy) :
    ∀ t ∈ (matchLimitLoop now x levels idx lp lt []).trades, t.price ≤ x.price := by
  induction levels generalizing x idx lp lt with
  | nil => rw [matchLimitLoop_nil]; intro t ht; simp at ht
  | cons lvl rest ih =>
    by_cases h1 : 0 < x.RemainingQuantity
    case neg =>
      rw [matchLimitLoop_cons_stop now x lvl rest idx lp lt [] h1]
      intro t ht; simp at ht
    case pos =>
    by_cases he : lvl.orders.isEmpty = true
    case pos =>
      rw [matchLimitLoop_cons_empty now x lvl rest idx lp lt [] h1 he]
      intro t ht; simp at ht
    case neg =>
    by_cases hb : x.side = OrderSide.buy ∧ x.price < lvl.price
    case pos =>
      rw [matchLimitLoop_cons_priceBuy now x lvl rest idx lp lt [] h1 he hb]
      intro t ht; simp at ht
    case neg =>
    have hlvl : lvl.price ≤ x.price := by
      by_contra hcon
      exact hb ⟨hbuy, lt_of_not_le hcon⟩
    have hmal : ∀ t ∈ (matchAtLevel now x lvl.orders idx lp lt ([] : List Trade)).trades,
        t.price ≤ x.price := by
      intro t ht
      rcases matchAtLevel_resting now lvl.orders x idx lp lt t ht with ⟨r, hr, _, hp⟩
      rw [hp, ((hw lvl (List.mem_cons_self lvl rest)).2 r hr).1]
      exact hlvl
    by_cases hs : x.side = OrderSide.sell ∧ lvl.price < x.price
    case pos =>
      exfalso
      rw [hbuy] at hs
      exact buy_ne_sell hs.1
    case neg =>
    by_cases hq : (matchAtLevel now x lvl.orders idx lp lt ([] : List Trade)).queue.isEmpty = true
    case pos =>
      rw [matchLimitLoop_cons_pop now x lvl rest idx lp lt [] h1 he hb hs hq,
        matchLimitLoop_trades_accum]
      intro t ht
      rcases List.mem_append.1 ht with hmem | hmem
      · exact hmal t hmem
      · have hss := matchAtLevel_sameStatic now lvl.orders x idx lp lt ([] : List Trade)
        have := ih ((matchAtLevel now x lvl.orders idx lp lt []).order) _ _ _
          (fun l hl => hw l (List.mem_cons_of_mem lvl hl)) (by rw [hss.2.2.2.1]; exact hbuy)
          t hmem
        rw [hss.2.2.2.2.2] at this
        exact this
    case neg =>
      rw [matchLimitLoop_cons_stay now x lvl rest idx lp lt [] h1 he hb hs hq]
      exact hmal

theorem matchLimitLoop_trades_ge (now : Nat) (levels : List PriceLevel) (x : Order)
    (idx : List (Nat × Order)) (lp : ℚ) (lt : Option Trade)
    (hw : ∀ lvl ∈ levels, LevelWF lvl) (hsell : x.side = OrderSide.sell) :
    ∀ t ∈ (matchLimitLoop now x levels idx lp lt []).trades, x.price ≤ t.price := by
  induction levels generalizing x idx lp lt with
  | nil => rw [matchLimitLoop_nil]; intro t ht; simp at ht
  | cons lvl rest ih =>
    by_cases h1 : 0 < x.RemainingQuantity
    case neg =>
      rw [matchLimitLoop_cons_stop now x lvl rest idx lp lt [] h1]
      intro t ht; simp at ht
    case pos =>
    by_cases he : lvl.orders.isEmpty = true
    case pos =>
      rw [matchLimitLoop_cons_empty now x lvl rest idx lp lt [] h1 he]
      intro t ht; simp at ht
    case neg =>
    by_cases hb : x.side = OrderSide.buy ∧ x.price < lvl.price
    case pos =>
      exfalso
      rw [hsell] at hb
      exact sell_ne_buy hb.1
    case neg =>
    by_cases hs : x.side = OrderSide.sell ∧ lvl.price < x.price
    case pos =>
      rw [matchLimitLoop_cons_priceSell now x lvl rest idx lp lt [] h1 he hb hs]
      intro t ht; simp at ht
    case neg =>
    have hlvl : x.price ≤ lvl.price := by
      by_contra hcon
      exact hs ⟨hsell, lt_of_not_le hcon⟩
    have hmal : ∀ t ∈ (matchAtLevel now x lvl.orders idx lp lt ([] : List Trade)).trades,
        x.price ≤ t.price := by
      intro t ht
      rcases matchAtLevel_resting now lvl.orders x idx lp lt t ht with ⟨r, hr, _, hp⟩
      rw [hp, ((hw lvl (List.mem_cons_self lvl rest)).2 r hr).1]
      exact hlvl
    by_cases hq : (matchAtLevel now x lvl.orders idx lp lt ([] : List Trade)).queue.isEmpty = true
    case pos =>
      rw [matchLimitLoop_cons_pop now x lvl rest idx lp lt [] h1 he hb hs hq,
        matchLimitLoop_trades_accum]
      intro t ht
      rcases List.mem_append.1 ht with hmem | hmem
      · exact hmal t hmem
      · have hss := matchAtLevel_sameStatic now lvl.orders x idx lp lt ([] : List Trade)
        have := ih ((matchAtLevel now x lvl.orders idx lp lt []).order) _ _ _
          (fun l hl => hw l (List.mem_cons_of_mem lvl hl)) (by rw [hss.2.2.2.1]; exact hsell)
          t hmem
        rw [hss.2.2.2.2.2] at this
        exact this
    case neg =>
      rw [matchLimitLoop_cons_stay now x lvl rest idx lp lt [] h1 he hb hs hq]
      exact hmal

/-- C4: a Limit buy at price P never trades above P; a Limit sell at price P
never trades below P (given a well-formed pre-submit book for the order's
symbol). -/
theorem limit_price_protection (now : Nat) (e : MatchingEngine) (o : Order)
    (hty : o.type = OrderType.limit)
    (hwf : BookWF (e.GetOrCreateOrderBook o.symbol)) :
    (o.side = OrderSide.buy →
      ∀ t ∈ (MatchingEngine.SubmitOrder now e o).2.2, t.price ≤ o.price) ∧
    (o.side = OrderSide.sell →
      ∀ t ∈ (MatchingEngine.SubmitOrder now e o).2.2, o.price ≤ t.price) := by
  obtain ⟨hbid, hask, ⟨hbpw, hblv⟩, ⟨hapw, halv⟩, hnc⟩ := hwf
  obtain ⟨oid, osym, otype, oside, oqty, oprice, ost, ofq, ofp, osub, ofat, ocat⟩ := o
  obtain rfl : otype = OrderType.limit := hty
  constructor
  · intro hside t ht
    have hside' : oside = OrderSide.buy := hside
    subst hside'
    have ht' : t ∈ (matchLimitOrder now (e.GetOrCreateOrderBook osym)
        (Order.mk oid osym OrderType.limit OrderSide.buy oqty oprice ost ofq ofp osub ofat
          ocat)).trades := ht
    rw [matchLimitOrder_trades] at ht'
    rw [if_pos rfl] at ht'
    exact matchLimitLoop_trades_le now _ _ _ _ _ halv rfl t ht'
  · intro hside t ht
    have hside' : oside = OrderSide.sell := hside
    subst hside'
    have ht' : t ∈ (matchLimitOrder now (e.GetOrCreateOrderBook osym)
        (Order.mk oid osym OrderType.limit OrderSide.sell oqty oprice ost ofq ofp osub ofat
          ocat)).trades := ht
    rw [matchLimitOrder_trades] at ht'
    rw [if_neg sell_ne_buy] at ht'
    exact matchLimitLoop_trades_ge now _ _ _ _ _ hblv rfl t ht'

end Arbitrax

namespace Arbitrax

/-- A limit buy used to instantiate the price-protection theorem. -/
def c4Order : Order := NewOrder 1 7 OrderType.limit OrderSide.buy 5 10 0

theorem limit_price_protection_witness :
    (c4Order.type = OrderType.limit) ∧
    BookWF (NewMatchingEngine.GetOrCreateOrderBook c4Order.symbol) ∧
    ((c4Order.side = OrderSide.buy →
      ∀ t ∈ (MatchingEngine.SubmitOrder 0 NewMatchingEngine c4Order).2.2,
        t.price ≤ c4Order.price) ∧
    (c4Order.side = OrderSide.sell →
      ∀ t ∈ (MatchingEngine.SubmitOrder 0 NewMatchingEngine c4Order).2.2,
        c4Order.price ≤ t.price)) :=
  ⟨rfl, NewOrderBook_WF 7,
    limit_price_protection 0 NewMatchingEngine c4Order rfl (NewOrderBook_WF 7)⟩

/-! ### C5 infrastructure — market orders never rest -/

theorem writeThrough_keys (idx : List (Nat × Order)) (k : Nat) (v : Order) :
    (writeThrough idx k v).map Prod.fst = idx.map Prod.fst := by
  induction idx with
  | nil => rfl
  | cons p rest ih =>
    rcases p with ⟨k', v'⟩
    unfold writeThrough
    split_ifs with hk
    · simp only [List.map_cons]
      rw [ih, hk]
    · simp only [List.map_cons]
      rw [ih]

theorem matchAtLevel_index_keys (now : Nat) (q : List Order) (x : Order)
    (idx : List (Nat × Order)) (lp : ℚ) (lt : Option Trade) (ts : List Trade) :
    (matchAtLevel now x q idx lp lt ts).index.map Prod.fst = idx.map Prod.fst := by
  induction q generalizing x idx lp lt ts with
  | nil => rw [matchAtLevel_nil]
  | cons r rest ih =>
    by_cases h1 : 0 < x.RemainingQuantity
    case neg => rw [matchAtLevel_cons_stop now x r rest idx lp lt ts h1]
    case pos =>
    by_cases hr : (restFill now x r).IsFilled = true
    case pos =>
      rw [matchAtLevel_cons_fill now x r rest idx lp lt ts h1 hr]
      rw [ih]
      exact writeThrough_keys idx r.id (restFill now x r)
    case neg =>
      rw [matchAtLevel_cons_rest now x r rest idx lp lt ts h1 hr]
      exact writeThrough_keys idx r.id (restFill now x r)

theorem matchMarketLoop_index_keys (now : Nat) (levels : List PriceLevel) (x : Order)
    (idx : List (Nat × Order)) (lp : ℚ) (lt : Option Trade) (ts : List Trade) :
    (matchMarketLoop now x levels idx lp lt ts).index.map Prod.fst = idx.map Prod.fst := by
  induction levels generalizing x idx lp lt ts with
  | nil => rw [matchMarketLoop_nil]
  | cons lvl rest ih =>
    by_cases h1 : 0 < x.RemainingQuantity
    case neg => rw [matchMarketLoop_cons_stop now x lvl rest idx lp lt ts h1]
    case pos =>
    by_cases he : lvl.orders.isEmpty = true
    case pos =>
      rw [matchMarketLoop_cons_empty now x lvl rest idx lp lt ts h1 he]
      exact ih x idx lp lt ts
    case neg =>
    by_cases hq : (matchAtLevel now x lvl.orders idx lp lt ts).queue.isEmpty = true
    case pos =>
      rw [matchMarketLoop_cons_pop now x lvl rest idx lp lt ts h1 he hq]
      rw [ih]
      exact matchAtLevel_index_keys now lvl.orders x idx lp lt ts
    case neg =>
      rw [matchMarketLoop_cons_stay now x lvl rest idx lp lt ts h1 he hq]
      exact matchAtLevel_index_keys now lvl.orders x idx lp lt ts

theorem matchLimitLoop_index_keys (now : Nat) (levels : List PriceLevel) (x : Order)
    (idx : List (Nat × Order)) (lp : ℚ) (lt : Option Trade) (ts : List Trade) :
    (matchLimitLoop now x levels idx lp lt ts).index.map Prod.fst = idx.map Prod.fst := by
  induction levels generalizing x idx lp lt ts with
  | nil => rw [matchLimitLoop_nil]
  | cons lvl rest ih =>
    by_cases h1 : 0 < x.RemainingQuantity
    case neg => rw [matchLimitLoop_cons_stop now x lvl rest idx lp lt ts h1]
    case pos =>
    by_cases he : lvl.orders.isEmpty = true
    case pos => rw [matchLimitLoop_cons_empty now x lvl rest idx lp lt ts h1 he]
    case neg =>
    by_cases hb : x.side = OrderSide.buy ∧ x.price < lvl.price
    case pos => rw [matchLimitLoop_cons_priceBuy now x lvl rest idx lp lt ts h1 he hb]
    case neg =>
    by_cases hs : x.side = OrderSide.sell ∧ lvl.price < x.price
    case pos => rw [matchLimitLoop_cons_priceSell now x lvl rest idx lp lt ts h1 he hb hs]
    case neg =>
    by_cases hq : (matchAtLevel now x lvl.orders idx lp lt ts).queue.isEmpty = true
    case pos =>
      rw [matchLimitLoop_cons_pop now x lvl rest idx lp lt ts h1 he hb hs hq]
      rw [ih]
      exact matchAtLevel_index_keys now lvl.orders x idx lp lt ts
    case neg =>
      rw [matchLimitLoop_cons_stay now x lvl rest idx lp lt ts h1 he hb hs hq]
      exact matchAtLevel_index_keys now lvl.orders x idx lp lt ts

theorem matchAtLevel_queue_ids (now : Nat) (q : List Order) (x : Order)
    (idx : List (Nat × Order)) (lp : ℚ) (lt : Option Trade) :
    ∀ o' ∈ (matchAtLevel now x q idx lp lt []).queue, ∃ r ∈ q, o'.id = r.id := by
  induction q generalizing x idx lp lt with
  | nil => rw [matchAtLevel_nil]; intro o' h; simp at h
  | cons r rest ih =>
    by_cases h1 : 0 < x.RemainingQuantity
    case neg =>
      rw [matchAtLevel_cons_stop now x r rest idx lp lt [] h1]
      exact fun o' h => ⟨o', h, rfl⟩
    case pos =>
    by_cases hr : (restFill now x r).IsFilled = true
    case pos =>
      rw [matchAtLevel_cons_fill now x r rest idx lp lt [] h1 hr]
      rw [matchAtLevel_queue_indep]
      intro o' h
      rcases ih _ _ _ _ o' h with ⟨r', hr', hid⟩
      exact ⟨r', List.mem_cons_of_mem r hr', hid⟩
    case neg =>
      rw [matchAtLevel_cons_rest now x r rest idx lp lt [] h1 hr]
      intro o' h
      rcases List.mem_cons.1 h with rfl | h'
      · exact ⟨r, List.mem_cons_self r rest, Fill_id r _ _ now⟩
      · exact ⟨o', List.mem_cons_of_mem r h', rfl⟩

theorem matchMarketLoop_level_order_ids (now : Nat) (levels : List PriceLevel) (x : Order)
    (idx : List (Nat × Order)) (lp : ℚ) (lt : Option Trade) :
    ∀ o' ∈ levelOrders (matchMarketLoop now x levels idx lp lt []).levels,
      ∃ r ∈ levelOrders levels, o'.id = r.id := by
  induction levels generalizing x idx lp lt with
  | nil => rw [matchMarketLoop_nil]; intro o' h; simp [levelOrders] at h
  | cons lvl rest ih =>
    by_cases h1 : 0 < x.RemainingQuantity
    case neg =>
      rw [matchMarketLoop_cons_stop now x lvl rest idx lp lt [] h1]
      exact fun o' h => ⟨o', h, rfl⟩
    case pos =>
    by_cases he : lvl.orders.isEmpty = true
    case pos =>
      rw [matchMarketLoop_cons_empty now x lvl rest idx lp lt [] h1 he]
      intro o' h
      rcases ih x idx lp lt o' h with ⟨r, hr, hid⟩
      exact ⟨r, by rw [levelOrders_cons]; exact List.mem_append_right _ hr, hid⟩
    case neg =>
    by_cases hq : (matchAtLevel now x lvl.orders idx lp lt ([] : List Trade)).queue.isEmpty = true
    case pos =>
      rw [matchMarketLoop_cons_pop now x lvl rest idx lp lt [] h1 he hq]
      rw [show (matchMarketLoop now (matchAtLevel now x lvl.orders idx lp lt []).order rest
          (matchAtLevel now x lvl.orders idx lp lt []).index
          (matchAtLevel now x lvl.orders idx lp lt []).lastPrice
          (matchAtLevel now x lvl.orders idx lp lt []).lastTrade
          (matchAtLevel now x lvl.orders idx lp lt []).trades).levels =
        (matchMarketLoop now (matchAtLevel now x lvl.orders idx lp lt []).order rest
          (matchAtLevel now x lvl.orders idx lp lt []).index
          (matchAtLevel now x lvl.orders idx lp lt []).lastPrice
          (matchAtLevel now x lvl.orders idx lp lt []).lastTrade []).levels from by
        rw [matchMarketLoop_accum]]
      intro o' h
      rcases ih _ _ _ _ o' h with ⟨r, hr, hid⟩
      exact ⟨r, by rw [levelOrders_cons]; exact List.mem_append_right _ hr, hid⟩
    case neg =>
      rw [matchMarketLoop_cons_stay now x lvl rest idx lp lt [] h1 he hq]
      intro o' h
      rw [levelOrders_cons] at h
      rcases List.mem_append.1 h with h' | h'
      · rcases matchAtLevel_queue_ids now lvl.orders x idx lp lt o' h' with ⟨r, hr, hid⟩
        exact ⟨r, by rw [levelOrders_cons]; exact List.mem_append_left _ hr, hid⟩
      · exact ⟨o', by rw [levelOrders_cons]; exact List.mem_append_right _ h', rfl⟩

end Arbitrax

namespace Arbitrax

theorem matchMarketLoop_order_indep (now : Nat) (levels : List PriceLevel) (x : Order)
    (idx : List (Nat × Order)) (lp : ℚ) (lt : Option Trade) (ts : List Trade) :
    (matchMarketLoop now x levels idx lp lt ts).order =
      (matchMarketLoop now x levels idx lp lt []).order := by
  rw [matchMarketLoop_accum]

/-- Per-level fill bookkeeping for the aggressor: filled quantity stays
nonnegative; with no trades the aggressor is untouched; and a positive
remainder after matching means either nothing happened or the status became
PartiallyFilled. -/
theorem matchAtLevel_fill_state (now : Nat) (q : List Order) (x : Order)
    (idx : List (Nat × Order)) (lp : ℚ) (lt : Option Trade)
    (hf : 0 ≤ x.filledQuantity) (hq : ∀ o ∈ q, 0 < o.RemainingQuantity) :
    0 ≤ (matchAtLevel now x q idx lp lt []).order.filledQuantity ∧
    ((matchAtLevel now x q idx lp lt []).trades = [] →
      (matchAtLevel now x q idx lp lt []).order = x) ∧
    (0 < (matchAtLevel now x q idx lp lt []).order.RemainingQuantity →
      ((matchAtLevel now x q idx lp lt []).order = x ∧
        (matchAtLevel now x q idx lp lt []).trades = []) ∨
      (matchAtLevel now x q idx lp lt []).order.status = OrderStatus.partiallyFilled) := by
  induction q generalizing x idx lp lt with
  | nil =>
    rw [matchAtLevel_nil]
    exact ⟨hf, fun _ => rfl, fun _ => Or.inl ⟨rfl, rfl⟩⟩
  | cons r rest ih =>
    by_cases h1 : 0 < x.RemainingQuantity
    case neg =>
      rw [matchAtLevel_cons_stop now x r rest idx lp lt [] h1]
      exact ⟨hf, fun _ => rfl, fun _ => Or.inl ⟨rfl, rfl⟩⟩
    case pos =>
    have htq : 0 < tradeQtyOf x r := by
      unfold tradeQtyOf
      exact (lt_min_iff' _ _ 0).2 ⟨h1, hq r (List.mem_cons_self r rest)⟩
    have hf1 : 0 ≤ (aggFill now x r).filledQuantity := by
      unfold aggFill
      rw [Fill_filledQuantity]
      linarith
    have hpart : 0 < (aggFill now x r).RemainingQuantity →
        (aggFill now x r).status = OrderStatus.partiallyFilled := by
      intro h2
      unfold aggFill at h2 ⊢
      rw [Fill_remaining] at h2
      unfold Order.RemainingQuantity at h2
      rw [Fill_status]
      rw [if_neg (by linarith : ¬ x.quantity ≤ x.filledQuantity + tradeQtyOf x r)]
      rw [if_pos (by linarith : (0:ℚ) < x.filledQuantity + tradeQtyOf x r)]
    by_cases hr : (restFill now x r).IsFilled = true
    case pos =>
      rw [matchAtLevel_cons_fill now x r rest idx lp lt [] h1 hr]
      have ihc := ih (aggFill now x r) (writeThrough idx r.id (restFill now x r))
        r.price (some (tradeOf x r)) hf1 (fun o ho => hq o (List.mem_cons_of_mem r ho))
      refine ⟨?_, ?_, ?_⟩
      · rw [matchAtLevel_order_indep]
        exact ihc.1
      · intro habs
        rw [matchAtLevel_trades_accum] at habs
        simp at habs
      · intro h2
        rw [matchAtLevel_order_indep] at h2 ⊢
        rcases ihc.2.2 h2 with ⟨heq, -⟩ | hst
        · exact Or.inr (by rw [heq]; exact hpart (heq ▸ h2))
        · exact Or.inr hst
    case neg =>
      rw [matchAtLevel_cons_rest now x r rest idx lp lt [] h1 hr]
      refine ⟨hf1, ?_, ?_⟩
      · intro habs
        simp at habs
      · intro h2
        exact Or.inr (hpart h2)

/-- The market-matching loop preserves the per-level fill bookkeeping of
matchAtLevel: nonnegative filled quantity, identity on the aggressor when no
trades occur, and PartiallyFilled status on a partial execution. -/
theorem matchMarketLoop_fill_state (now : Nat) (levels : List PriceLevel) (x : Order)
    (idx : List (Nat × Order)) (lp : ℚ) (lt : Option Trade)
    (hf : 0 ≤ x.filledQuantity)
    (hw : ∀ lvl ∈ levels, ∀ o ∈ lvl.orders, 0 < o.RemainingQuantity) :
    0 ≤ (matchMarketLoop now x levels idx lp lt []).order.filledQuantity ∧
    ((matchMarketLoop now x levels idx lp lt []).trades = [] →
      (matchMarketLoop now x levels idx lp lt []).order = x) ∧
    (0 < (matchMarketLoop now x levels idx lp lt []).order.RemainingQuantity →
      ((matchMarketLoop now x levels idx lp lt []).order = x ∧
        (matchMarketLoop now x levels idx lp lt []).trades = []) ∨
      (matchMarketLoop now x levels idx lp lt []).order.status =
        OrderStatus.partiallyFilled) := by
  induction levels generalizing x idx lp lt with
  | nil =>
    rw [matchMarketLoop_nil]
    exact ⟨hf, fun _ => rfl, fun _ => Or.inl ⟨rfl, rfl⟩⟩
  | cons lvl rest ih =>
    by_cases h1 : 0 < x.RemainingQuantity
    case neg =>
      rw [matchMarketLoop_cons_stop now x lvl rest idx lp lt [] h1]
      exact ⟨hf, fun _ => rfl, fun _ => Or.inl ⟨rfl, rfl⟩⟩
    case pos =>
    by_cases he : lvl.orders.isEmpty = true
    case pos =>
      rw [matchMarketLoop_cons_empty now x lvl rest idx lp lt [] h1 he]
      exact ih x idx lp lt hf (fun l hl => hw l (List.mem_cons_of_mem lvl hl))
    case neg =>
    have hm := matchAtLevel_fill_state now lvl.orders x idx lp lt hf
      (hw lvl (List.mem_cons_self lvl rest))
    by_cases hqe : (matchAtLevel now x lvl.orders idx lp lt ([] : List Trade)).queue.isEmpty = true
    case pos =>
      rw [matchMarketLoop_cons_pop now x lvl rest idx lp lt [] h1 he hqe]
      have ihc := ih (matchAtLevel now x lvl.orders idx lp lt []).order
        (matchAtLevel now x lvl.orders idx lp lt []).index
        (matchAtLevel now x lvl.orders idx lp lt []).lastPrice
        (matchAtLevel now x lvl.orders idx lp lt []).lastTrade
        hm.1 (fun l hl => hw l (List.mem_cons_of_mem lvl hl))
      refine ⟨?_, ?_, ?_⟩
      · rw [matchMarketLoop_order_indep]
        exact ihc.1
      · intro habs
        rw [matchMarketLoop_trades_accum] at habs
        rcases List.append_eq_nil.mp habs with ⟨hm0, hL0⟩
        rw [matchMarketLoop_order_indep, ihc.2.1 hL0]
        exact hm.2.1 hm0
      · intro h2
        rw [matchMarketLoop_order_indep] at h2 ⊢
        rcases ihc.2.2 h2 with ⟨heq, htr⟩ | hst
        · have h2' : 0 < (matchAtLevel now x lvl.orders idx lp lt []).order.RemainingQuantity := by
            rw [← heq]; exact h2
          rcases hm.2.2 h2' with ⟨heq2, htr2⟩ | hst2
          · refine Or.inl ⟨by rw [heq, heq2], ?_⟩
            rw [matchMarketLoop_trades_accum, htr2, htr]
            rfl
          · exact Or.inr (by rw [heq]; exact hst2)
        · exact Or.inr hst
    case neg =>
      rw [matchMarketLoop_cons_stay now x lvl rest idx lp lt [] h1 he hqe]
      exact ⟨hm.1, hm.2.1, hm.2.2⟩

end Arbitrax

namespace Arbitrax

theorem applyLoop_buy (ob : OrderBook) (m : LoopMatch) :
    applyLoop ob OrderSide.buy m =
      { ob with
        Asks := { ob.Asks with levels := m.levels }
        orders := m.index
        LastPrice := m.lastPrice
        LastTrade := m.lastTrade } := by
  unfold applyLoop
  rw [if_pos rfl]

theorem applyLoop_sell (ob : OrderBook) (m : LoopMatch) :
    applyLoop ob OrderSide.sell m =
      { ob with
        Bids := { ob.Bids with levels := m.levels }
        orders := m.index
        LastPrice := m.lastPrice
        LastTrade := m.lastTrade } := by
  unfold applyLoop
  rw [if_neg sell_ne_buy]

theorem lookupBook_setBook (m : List (Nat × OrderBook)) (sym : Nat) (ob : OrderBook) :
    lookupBook (setBook m sym ob) sym = some ob := by
  induction m with
  | nil =>
    unfold setBook lookupBook
    rw [if_pos rfl]
  | cons q rest ih =>
    rcases q with ⟨s, b⟩
    unfold setBook
    split_ifs with hs
    · unfold lookupBook
      rw [if_pos rfl]
    · unfold lookupBook
      rw [if_neg hs]
      exact ih

/-- A market submission against a well-formed book: the aggressor's own side is
untouched, every order resting afterwards already rested before (by id), the
identity index keys are unchanged, and a positive remainder leaves the order
Pending (no fill) or PartiallyFilled (some fill) — never resting. -/
theorem matchMarketOrder_no_rest (now : Nat) (ob : OrderBook) (x : Order)
    (hwf : BookWF ob) (hf : 0 ≤ x.filledQuantity) :
    ((x.side = OrderSide.buy → (matchMarketOrder now ob x).book.Bids = ob.Bids) ∧
     (x.side = OrderSide.sell → (matchMarketOrder now ob x).book.Asks = ob.Asks) ∧
     (∀ o' ∈ levelOrders (matchMarketOrder now ob x).book.Bids.levels ++
         levelOrders (matchMarketOrder now ob x).book.Asks.levels,
       ∃ r ∈ levelOrders ob.Bids.levels ++ levelOrders ob.Asks.levels, o'.id = r.id) ∧
     ((matchMarketOrder now ob x).book.orders.map Prod.fst = ob.orders.map Prod.fst)) ∧
    (0 < (matchMarketOrder now ob x).order.RemainingQuantity →
      ((matchMarketOrder now ob x).trades = [] ∧
        (matchMarketOrder now ob x).order.status = x.status) ∨
      ((matchMarketOrder now ob x).trades ≠ [] ∧
        (matchMarketOrder now ob x).order.status = OrderStatus.partiallyFilled)) := by
  obtain ⟨hbid, hask, hbwf, hawf, hnc⟩ := hwf
  cases hs : x.side with
  | buy =>
    have hm : matchMarketOrder now ob x =
        { book := applyLoop ob OrderSide.buy
            (matchMarketLoop now x ob.Asks.levels ob.orders ob.LastPrice ob.LastTrade []),
          order := (matchMarketLoop now x ob.Asks.levels ob.orders ob.LastPrice
            ob.LastTrade []).order,
          trades := (matchMarketLoop now x ob.Asks.levels ob.orders ob.LastPrice
            ob.LastTrade []).trades } := by
      unfold matchMarketOrder
      rw [hs, if_pos rfl]
    rw [hm, applyLoop_buy]
    have hfs := matchMarketLoop_fill_state now ob.Asks.levels x ob.orders ob.LastPrice
      ob.LastTrade hf (fun lvl hl o ho => ((hawf.2 lvl hl).2 o ho).2)
    refine ⟨⟨fun _ => rfl, fun h => absurd (hs ▸ h) ?_, ?_, ?_⟩, ?_⟩
    · rw [hs]
      exact buy_ne_sell
    · intro o' h
      rcases List.mem_append.1 h with h' | h'
      · exact ⟨o', List.mem_append_left _ h', rfl⟩
      · rcases matchMarketLoop_level_order_ids now ob.Asks.levels x ob.orders ob.LastPrice
          ob.LastTrade o' h' with ⟨r, hr, hid⟩
        exact ⟨r, List.mem_append_right _ hr, hid⟩
    · exact matchMarketLoop_index_keys now ob.Asks.levels x ob.orders ob.LastPrice
        ob.LastTrade []
    · intro h2
      by_cases htr0 : (matchMarketLoop now x ob.Asks.levels ob.orders ob.LastPrice
          ob.LastTrade []).trades = []
      · exact Or.inl ⟨htr0, by rw [hfs.2.1 htr0]⟩
      · refine Or.inr ⟨htr0, ?_⟩
        rcases hfs.2.2 h2 with ⟨-, htr⟩ | hst2
        · exact absurd htr htr0
        · exact hst2
  | sell =>
    have hm : matchMarketOrder now ob x =
        { book := applyLoop ob OrderSide.sell
            (matchMarketLoop now x ob.Bids.levels ob.orders ob.LastPrice ob.LastTrade []),
          order := (matchMarketLoop now x ob.Bids.levels ob.orders ob.LastPrice
            ob.LastTrade []).order,
          trades := (matchMarketLoop now x ob.Bids.levels ob.orders ob.LastPrice
            ob.LastTrade []).trades } := by
      unfold matchMarketOrder
      rw [hs, if_neg sell_ne_buy]
    rw [hm, applyLoop_sell]
    have hfs := matchMarketLoop_fill_state now ob.Bids.levels x ob.orders ob.LastPrice
      ob.LastTrade hf (fun lvl hl o ho => ((hbwf.2 lvl hl).2 o ho).2)
    refine ⟨⟨fun h => absurd (hs ▸ h) ?_, fun _ => rfl, ?_, ?_⟩, ?_⟩
    · rw [hs]
      exact sell_ne_buy
    · intro o' h
      rcases List.mem_append.1 h with h' | h'
      · rcases matchMarketLoop_level_order_ids now ob.Bids.levels x ob.orders ob.LastPrice
          ob.LastTrade o' h' with ⟨r, hr, hid⟩
        exact ⟨r, List.mem_append_left _ hr, hid⟩
      · exact ⟨o', List.mem_append_right _ h', rfl⟩
    · exact matchMarketLoop_index_keys now ob.Bids.levels x ob.orders ob.LastPrice
        ob.LastTrade []
    · intro h2
      by_cases htr0 : (matchMarketLoop now x ob.Bids.levels ob.orders ob.LastPrice
          ob.LastTrade []).trades = []
      · exact Or.inl ⟨htr0, by rw [hfs.2.1 htr0]⟩
      · refine Or.inr ⟨htr0, ?_⟩
        rcases hfs.2.2 h2 with ⟨-, htr⟩ | hst2
        · exact absurd htr htr0
        · exact hst2

end Arbitrax

namespace Arbitrax

/-- C5: a Market order is never inserted into the book — its own side is
untouched, every post-submit resting order already rested pre-submit, and the
identity index keys are unchanged; if the remaining quantity is still positive
when matching stops (opposite side exhausted), the remainder is discarded and
the returned order's status is Pending when no fill occurred and
PartiallyFilled when at least one did. -/
theorem market_order_never_rests (now : Nat) (e : MatchingEngine) (o : Order)
    (hty : o.type = OrderType.market)
    (hwf : BookWF (e.GetOrCreateOrderBook o.symbol))
    (hst : o.status = OrderStatus.pending)
    (hf0 : 0 ≤ o.filledQuantity) :
    (∀ book', lookupBook (MatchingEngine.SubmitOrder now e o).1.orderBooks o.symbol =
        some book' →
      ((o.side = OrderSide.buy → book'.Bids = (e.GetOrCreateOrderBook o.symbol).Bids) ∧
       (o.side = OrderSide.sell → book'.Asks = (e.GetOrCreateOrderBook o.symbol).Asks) ∧
       (∀ o' ∈ levelOrders book'.Bids.levels ++ levelOrders book'.Asks.levels,
         ∃ r ∈ levelOrders (e.GetOrCreateOrderBook o.symbol).Bids.levels ++
             levelOrders (e.GetOrCreateOrderBook o.symbol).Asks.levels, o'.id = r.id) ∧
       book'.orders.map Prod.fst =
         (e.GetOrCreateOrderBook o.symbol).orders.map Prod.fst)) ∧
    (0 < (MatchingEngine.SubmitOrder now e o).2.1.RemainingQuantity →
      ((MatchingEngine.SubmitOrder now e o).2.2 = [] ∧
        (MatchingEngine.SubmitOrder now e o).2.1.status = OrderStatus.pending) ∨
      ((MatchingEngine.SubmitOrder now e o).2.2 ≠ [] ∧
        (MatchingEngine.SubmitOrder now e o).2.1.status =
          OrderStatus.partiallyFilled)) := by
  obtain ⟨oid, osym, otype, oside, oqty, oprice, ost, ofq, ofp, osub, ofat, ocat⟩ := o
  obtain rfl : otype = OrderType.market := hty
  have hno := matchMarketOrder_no_rest now (e.GetOrCreateOrderBook osym)
    (Order.mk oid osym OrderType.market oside oqty oprice ost ofq ofp osub ofat ocat)
    hwf hf0
  constructor
  · intro book' hb
    have hb' : lookupBook (setBook e.orderBooks osym
        (matchMarketOrder now (e.GetOrCreateOrderBook osym)
          (Order.mk oid osym OrderType.market oside oqty oprice ost ofq ofp osub ofat
            ocat)).book) osym = some book' := hb
    rw [lookupBook_setBook] at hb'
    obtain rfl : (matchMarketOrder now (e.GetOrCreateOrderBook osym)
        (Order.mk oid osym OrderType.market oside oqty oprice ost ofq ofp osub ofat
          ocat)).book = book' := Option.some.inj hb'
    exact hno.1
  · intro h2
    rcases hno.2 h2 with ⟨ha, hb2⟩ | ⟨ha, hb2⟩
    · exact Or.inl ⟨ha, hb2.trans hst⟩
    · exact Or.inr ⟨ha, hb2⟩

/-- A market buy used to instantiate the never-rests theorem. -/
def c5Order : Order := NewOrder 2 7 OrderType.market OrderSide.buy 5 0 0

theorem market_order_never_rests_witness :
    (c5Order.type = OrderType.market) ∧
    BookWF (NewMatchingEngine.GetOrCreateOrderBook c5Order.symbol) ∧
    (c5Order.status = OrderStatus.pending) ∧
    (0 ≤ c5Order.filledQuantity) ∧
    ((∀ book', lookupBook (MatchingEngine.SubmitOrder 0 NewMatchingEngine
          c5Order).1.orderBooks c5Order.symbol = some book' →
      ((c5Order.side = OrderSide.buy →
          book'.Bids = (NewMatchingEngine.GetOrCreateOrderBook c5Order.symbol).Bids) ∧
       (c5Order.side = OrderSide.sell →
          book'.Asks = (NewMatchingEngine.GetOrCreateOrderBook c5Order.symbol).Asks) ∧
       (∀ o' ∈ levelOrders book'.Bids.levels ++ levelOrders book'.Asks.levels,
         ∃ r ∈ levelOrders
               (NewMatchingEngine.GetOrCreateOrderBook c5Order.symbol).Bids.levels ++
             levelOrders
               (NewMatchingEngine.GetOrCreateOrderBook c5Order.symbol).Asks.levels,
           o'.id = r.id) ∧
       book'.orders.map Prod.fst =
         (NewMatchingEngine.GetOrCreateOrderBook c5Order.symbol).orders.map Prod.fst)) ∧
    (0 < (MatchingEngine.SubmitOrder 0 NewMatchingEngine c5Order).2.1.RemainingQuantity →
      ((MatchingEngine.SubmitOrder 0 NewMatchingEngine c5Order).2.2 = [] ∧
        (MatchingEngine.SubmitOrder 0 NewMatchingEngine c5Order).2.1.status =
          OrderStatus.pending) ∨
      ((MatchingEngine.SubmitOrder 0 NewMatchingEngine c5Order).2.2 ≠ [] ∧
        (MatchingEngine.SubmitOrder 0 NewMatchingEngine c5Order).2.1.status =
          OrderStatus.partiallyFilled))) :=
  ⟨rfl, NewOrderBook_WF 7, rfl, le_refl 0,
    market_order_never_rests 0 NewMatchingEngine c5Order rfl (NewOrderBook_WF 7) rfl
      (le_refl 0)⟩

end Arbitrax

namespace Arbitrax

/-! ### C7 infrastructure — FIFO removal versus the identity index -/

theorem applyLoop_orders (ob : OrderBook) (side : OrderSide) (m : LoopMatch) :
    (applyLoop ob side m).orders = m.index := by
  unfold applyLoop
  split_ifs <;> rfl

theorem AddOrder_orders (ob : OrderBook) (o : Order) :
    (OrderBook.AddOrder ob o).orders = setIndex ob.orders o.id o := by
  unfold OrderBook.AddOrder
  dsimp only
  split_ifs <;> rfl

theorem setIndex_keys_superset (idx : List (Nat × Order)) (k0 : Nat) (v : Order) :
    ∀ k ∈ idx.map Prod.fst, k ∈ (setIndex idx k0 v).map Prod.fst := by
  induction idx with
  | nil => intro k hk; simp at hk
  | cons p rest ih =>
    rcases p with ⟨k', v'⟩
    intro k hk
    simp only [List.map_cons] at hk
    unfold setIndex
    split_ifs with h
    · simp only [List.map_cons]
      rcases List.mem_cons.1 hk with h0 | h0
      · rw [h0, ← h]
        exact List.mem_cons_self _ _
      · exact List.mem_cons_of_mem _ h0
    · simp only [List.map_cons]
      rcases List.mem_cons.1 hk with h0 | h0
      · exact h0 ▸ List.mem_cons_self _ _
      · exact List.mem_cons_of_mem _ (ih k h0)

theorem matchLimitOrder_book (now : Nat) (ob : OrderBook) (x : Order) :
    (matchLimitOrder now ob x).book =
      if 0 < (matchLimitLoop now x
          (if x.side = OrderSide.buy then ob.Asks else ob.Bids).levels ob.orders
          ob.LastPrice ob.LastTrade []).order.RemainingQuantity then
        (applyLoop ob x.side (matchLimitLoop now x
          (if x.side = OrderSide.buy then ob.Asks else ob.Bids).levels ob.orders
          ob.LastPrice ob.LastTrade [])).AddOrder (matchLimitLoop now x
          (if x.side = OrderSide.buy then ob.Asks else ob.Bids).levels ob.orders
          ob.LastPrice ob.LastTrade []).order
      else applyLoop ob x.side (matchLimitLoop now x
          (if x.side = OrderSide.buy then ob.Asks else ob.Bids).levels ob.orders
          ob.LastPrice ob.LastTrade []) := by
  unfold matchLimitOrder
  dsimp only
  split_ifs <;> rfl

theorem matchLimitOrder_index_keys_superset (now : Nat) (ob : OrderBook) (x : Order) :
    ∀ k ∈ ob.orders.map Prod.fst,
      k ∈ (matchLimitOrder now ob x).book.orders.map Prod.fst := by
  intro k hk
  rw [matchLimitOrder_book]
  split_ifs <;>
    first
      | (rw [AddOrder_orders, applyLoop_orders]
         refine setIndex_keys_superset _ _ _ k ?_
         rw [matchLimitLoop_index_keys]
         exact hk)
      | (rw [applyLoop_orders, matchLimitLoop_index_keys]
         exact hk)

theorem matchMarketOrder_book_orders (now : Nat) (ob : OrderBook) (x : Order) :
    (matchMarketOrder now ob x).book.orders.map Prod.fst = ob.orders.map Prod.fst := by
  unfold matchMarketOrder
  dsimp only
  rw [applyLoop_orders]
  exact matchMarketLoop_index_keys now _ x ob.orders ob.LastPrice ob.LastTrade []

end Arbitrax

namespace Arbitrax

/-- C7 counterexample: submit a resting sell 100 @ 150 (id 1), then a buy
100 @ 150 (id 2) that fully fills it.  The filled sell is removed from the
ask side's FIFO queue (both sides end empty) but its id is still the sole
key of the book's identity index — matching never deletes from the index, so
the index holds an order that is not resting. -/
theorem index_retains_filled_order_cex :
    ((submitSeq NewMatchingEngine
        [(0, NewOrder 1 7 OrderType.limit OrderSide.sell 100 150 0),
         (1, NewOrder 2 7 OrderType.limit OrderSide.buy 100 150 1)]).GetOrCreateOrderBook
          7).Bids.levels = [] ∧
    ((submitSeq NewMatchingEngine
        [(0, NewOrder 1 7 OrderType.limit OrderSide.sell 100 150 0),
         (1, NewOrder 2 7 OrderType.limit OrderSide.buy 100 150 1)]).GetOrCreateOrderBook
          7).Asks.levels = [] ∧
    ((submitSeq NewMatchingEngine
        [(0, NewOrder 1 7 OrderType.limit OrderSide.sell 100 150 0),
         (1, NewOrder 2 7 OrderType.limit OrderSide.buy 100 150 1)]).GetOrCreateOrderBook
          7).orders.map Prod.fst = [1] := by
  norm_num [submitSeq, MatchingEngine.SubmitOrder,
    MatchingEngine.GetOrCreateOrderBook, lookupBook, setBook, matchLimitOrder,
    matchLimitLoop, matchAtLevel, matchMarketOrder, matchMarketLoop, applyLoop,
    OrderBook.AddOrder, PriceLevelHeap.AddOrder, appendAtPrice, insertLevel,
    levelBefore, setIndex, writeThrough, Order.Fill, Order.IsFilled,
    Order.RemainingQuantity, min, NewTrade, NewOrder, NewOrderBook, NewBidHeap,
    NewAskHeap, NewMatchingEngine, sell_ne_buy, buy_ne_sell]

/-- C7 (amended): during matching a fully-filled resting order is removed
from its level's FIFO queue — after a submit every order still resting in the
submitted symbol's book has positive remaining quantity — but it is never
removed from the book's identity index: every pre-submit index key is still
an index key afterwards. -/
theorem fifo_removal_without_index_removal (now : Nat) (e : MatchingEngine)
    (o : Order) (he : EngineWF e) :
    ∀ book', lookupBook (MatchingEngine.SubmitOrder now e o).1.orderBooks o.symbol =
        some book' →
      ((∀ o' ∈ levelOrders book'.Bids.levels ++ levelOrders book'.Asks.levels,
          0 < o'.RemainingQuantity) ∧
       (∀ k ∈ (e.GetOrCreateOrderBook o.symbol).orders.map Prod.fst,
          k ∈ book'.orders.map Prod.fst)) := by
  have hob := GetOrCreateOrderBook_WF e o.symbol he
  obtain ⟨oid, osym, otype, oside, oqty, oprice, ost, ofq, ofp, osub, ofat, ocat⟩ := o
  cases otype with
  | market =>
    intro book' hb
    have hb' : lookupBook (setBook e.orderBooks osym
        (matchMarketOrder now (e.GetOrCreateOrderBook osym)
          (Order.mk oid osym OrderType.market oside oqty oprice ost ofq ofp osub ofat
            ocat)).book) osym = some book' := hb
    rw [lookupBook_setBook] at hb'
    obtain rfl : (matchMarketOrder now (e.GetOrCreateOrderBook osym)
        (Order.mk oid osym OrderType.market oside oqty oprice ost ofq ofp osub ofat
          ocat)).book = book' := Option.some.inj hb'
    have hwf := matchMarketOrder_BookWF now (e.GetOrCreateOrderBook osym)
      (Order.mk oid osym OrderType.market oside oqty oprice ost ofq ofp osub ofat ocat)
      hob
    refine ⟨?_, ?_⟩
    · intro o' h
      rcases List.mem_append.1 h with h' | h'
      · rcases List.mem_flatMap.1 h' with ⟨lvl, hl, ho⟩
        exact ((hwf.2.2.1.2 lvl hl).2 o' ho).2
      · rcases List.mem_flatMap.1 h' with ⟨lvl, hl, ho⟩
        exact ((hwf.2.2.2.1.2 lvl hl).2 o' ho).2
    · rw [matchMarketOrder_book_orders]
      exact fun k hk => hk
  | limit =>
    intro book' hb
    have hb' : lookupBook (setBook e.orderBooks osym
        (matchLimitOrder now (e.GetOrCreateOrderBook osym)
          (Order.mk oid osym OrderType.limit oside oqty oprice ost ofq ofp osub ofat
            ocat)).book) osym = some book' := hb
    rw [lookupBook_setBook] at hb'
    obtain rfl : (matchLimitOrder now (e.GetOrCreateOrderBook osym)
        (Order.mk oid osym OrderType.limit oside oqty oprice ost ofq ofp osub ofat
          ocat)).book = book' := Option.some.inj hb'
    have hwf := matchLimitOrder_BookWF now (e.GetOrCreateOrderBook osym)
      (Order.mk oid osym OrderType.limit oside oqty oprice ost ofq ofp osub ofat ocat)
      hob
    refine ⟨?_, ?_⟩
    · intro o' h
      rcases List.mem_append.1 h with h' | h'
      · rcases List.mem_flatMap.1 h' with ⟨lvl, hl, ho⟩
        exact ((hwf.2.2.1.2 lvl hl).2 o' ho).2
      · rcases List.mem_flatMap.1 h' with ⟨lvl, hl, ho⟩
        exact ((hwf.2.2.2.1.2 lvl hl).2 o' ho).2
    · exact matchLimitOrder_index_keys_superset now (e.GetOrCreateOrderBook osym) _
  | stopLoss =>
    intro book' hb
    have hb' : lookupBook (setBook e.orderBooks osym
        (matchLimitOrder now (e.GetOrCreateOrderBook osym)
          (Order.mk oid osym OrderType.limit oside oqty oprice ost ofq ofp osub ofat
            ocat)).book) osym = some book' := hb
    rw [lookupBook_setBook] at hb'
    obtain rfl : (matchLimitOrder now (e.GetOrCreateOrderBook osym)
        (Order.mk oid osym OrderType.limit oside oqty oprice ost ofq ofp osub ofat
          ocat)).book = book' := Option.some.inj hb'
    have hwf := matchLimitOrder_BookWF now (e.GetOrCreateOrderBook osym)
      (Order.mk oid osym OrderType.limit oside oqty oprice ost ofq ofp osub ofat ocat)
      hob
    refine ⟨?_, ?_⟩
    · intro o' h
      rcases List.mem_append.1 h with h' | h'
      · rcases List.mem_flatMap.1 h' with ⟨lvl, hl, ho⟩
        exact ((hwf.2.2.1.2 lvl hl).2 o' ho).2
      · rcases List.mem_flatMap.1 h' with ⟨lvl, hl, ho⟩
        exact ((hwf.2.2.2.1.2 lvl hl).2 o' ho).2
    · exact matchLimitOrder_index_keys_superset now (e.GetOrCreateOrderBook osym) _

end Arbitrax

namespace Arbitrax

/-- A limit buy used to instantiate the amended index-retention theorem. -/
def c7Order : Order := NewOrder 3 9 OrderType.limit OrderSide.buy 4 11 0

theorem fifo_removal_without_index_removal_witness :
    EngineWF NewMatchingEngine ∧
    (∀ book', lookupBook (MatchingEngine.SubmitOrder 0 NewMatchingEngine
        c7Order).1.orderBooks c7Order.symbol = some book' →
      ((∀ o' ∈ levelOrders book'.Bids.levels ++ levelOrders book'.Asks.levels,
          0 < o'.RemainingQuantity) ∧
       (∀ k ∈ (NewMatchingEngine.GetOrCreateOrderBook c7Order.symbol).orders.map
            Prod.fst,
          k ∈ book'.orders.map Prod.fst))) :=
  ⟨NewMatchingEngine_WF,
    fifo_removal_without_index_removal 0 NewMatchingEngine c7Order NewMatchingEngine_WF⟩

end Arbitrax

namespace Arbitrax

/-- A resting sell and the buy that fully crosses it, instantiating the
resting-price theorem on a concrete emitted trade. -/
def c2Sell : Order := NewOrder 1 7 OrderType.limit OrderSide.sell 100 150 0

def c2Buy : Order := NewOrder 2 7 OrderType.limit OrderSide.buy 100 150 1

def c2Engine : MatchingEngine :=
  (MatchingEngine.SubmitOrder 0 NewMatchingEngine c2Sell).1

theorem trade_price_eq_resting_price_witness :
    (NewTrade 7 2 1 150 100) ∈ (MatchingEngine.SubmitOrder 1 c2Engine c2Buy).2.2 ∧
    (∃ r ∈ levelOrders ((if c2Buy.side = OrderSide.buy
          then (c2Engine.GetOrCreateOrderBook c2Buy.symbol).Asks
          else (c2Engine.GetOrCreateOrderBook c2Buy.symbol).Bids).levels),
      restingOrderId c2Buy.side (NewTrade 7 2 1 150 100) = r.id ∧
      (NewTrade 7 2 1 150 100).price = r.price) := by
  have hmem : (NewTrade 7 2 1 150 100) ∈
      (MatchingEngine.SubmitOrder 1 c2Engine c2Buy).2.2 := by
    norm_num [c2Engine, c2Sell, c2Buy, MatchingEngine.SubmitOrder,
      MatchingEngine.GetOrCreateOrderBook, lookupBook, setBook, matchLimitOrder,
      matchLimitLoop, matchAtLevel, matchMarketOrder, matchMarketLoop, applyLoop,
      OrderBook.AddOrder, PriceLevelHeap.AddOrder, appendAtPrice, insertLevel,
      levelBefore, setIndex, writeThrough, Order.Fill, Order.IsFilled,
      Order.RemainingQuantity, min, NewTrade, NewOrder, NewOrderBook, NewBidHeap,
      NewAskHeap, NewMatchingEngine, sell_ne_buy, buy_ne_sell]
  exact ⟨hmem,
    trade_price_eq_resting_price 1 c2Engine c2Buy (NewTrade 7 2 1 150 100) hmem⟩

end Arbitrax
